import Mathlib

/-!
# Verification of the MAYO signature implementation (`mayo-rust`)

This file gives a shallow embedding, in Lean 4, of the core of the
`mayo-rust` MAYO digital-signature implementation: GF(16) field
arithmetic (`src/gf.rs`), nibble codecs (`src/codec.rs`), matrix algebra
over GF(16) (`src/matrix.rs`), the Gauss-Jordan solver (`src/solver.rs`),
key generation and expansion (`src/keygen.rs`), signing (`src/sign.rs`),
verification (`src/verify.rs`) and the NIST-like API (`src/api.rs`).

Machine integers (`u8` nibbles and bytes) are modelled as `Fin 16`
(field elements) and `Nat` (bytes); every bit-level operation of the
source (`xor`, `and`, shifts, the reduction by `0x13`) is carried over
literally.  The external cryptographic primitives used by the crate
(SHAKE256 from the `sha3` crate, AES-128-CTR from the `aes`/`ctr`
crates, and the `getrandom` RNG) are not part of this repository; they
are modelled as abstract deterministic byte streams, passed in
explicitly (`PrimOracles`, and an `rng : Nat → Nat` stream together with
a running index for the consumed-byte count).

Theorems at the end of the file settle the behavioural claims about the
implementation; the definitions are written to be executable so each
concrete scenario can be checked by `decide`.
-/

set_option maxRecDepth 100000

namespace Mayo

/-- Decidable equality for `Except`, so concrete runs of the fallible
operations can be checked by `decide`. -/
instance {ε α : Type} [DecidableEq ε] [DecidableEq α] : DecidableEq (Except ε α) :=
  fun a b =>
    match a, b with
    | .ok x, .ok y =>
      if h : x = y then isTrue (by rw [h])
      else isFalse (by intro hc; injection hc; contradiction)
    | .error x, .error y =>
      if h : x = y then isTrue (by rw [h])
      else isFalse (by intro hc; injection hc; contradiction)
    | .ok _, .error _ => isFalse (by intro hc; injection hc)
    | .error _, .ok _ => isFalse (by intro hc; injection hc)

/-! ## GF(16) field elements (`src/types.rs`, `src/gf.rs`)

A field element is a nibble.  The Rust code stores it in the low 4 bits
of a `u8` (`GFElement(pub u8)`) and masks every operation with
`NIBBLE_MASK = 0x0F`; we model it as `Fin 16`, carrying the mask
invariant in the type.  -/

abbrev GFElement := Fin 16

theorem and_fifteen_lt (x : Nat) : x &&& 0x0F < 16 :=
  Nat.lt_succ_of_le (Nat.and_le_right)

theorem gf_val_and_fifteen (a : GFElement) : a.val &&& 0x0F = a.val := by
  revert a; decide

/-- `gf16_add` from `src/gf.rs`: addition in GF(2^4) is XOR, masked to a nibble. -/
def gf16_add (a b : GFElement) : GFElement :=
  ⟨(a.val ^^^ b.val) &&& 0x0F, and_fifteen_lt _⟩

/-- `gf16_sub` from `src/gf.rs`: identical to addition (characteristic 2). -/
def gf16_sub (a b : GFElement) : GFElement :=
  ⟨(a.val ^^^ b.val) &&& 0x0F, and_fifteen_lt _⟩

/-- The loop body of `gf16_mul` (`src/gf.rs`): Russian-peasant
multiplication, four iterations, with reduction by the irreducible
polynomial `F_POLY_U8 = 0x13` whenever bit 3 of `a` was set before the
shift.  State is `(p, val_a, val_b)`. -/
def gf16_mulLoop : Nat → Nat → Nat → Nat → Nat
  | 0, p, _, _ => p
  | i + 1, p, va, vb =>
    let p' := if vb &&& 1 ≠ 0 then p ^^^ va else p
    let vb' := vb >>> 1
    let highBitSet := va &&& 0x08 ≠ 0
    let vaShifted := va <<< 1
    let vaReduced := if highBitSet then vaShifted ^^^ 0x13 else vaShifted
    gf16_mulLoop i p' (vaReduced &&& 0x0F) vb'

/-- `gf16_mul` from `src/gf.rs`. -/
def gf16_mul (a b : GFElement) : GFElement :=
  ⟨gf16_mulLoop 4 0 (a.val &&& 0x0F) (b.val &&& 0x0F) &&& 0x0F, and_fifteen_lt _⟩

/-- The loop of `gf16_pow` (`for _ in 1..exp`): multiply the accumulator
by `base` the given number of times. -/
def gf16_powLoop (base : GFElement) : GFElement → Nat → GFElement
  | acc, 0 => acc
  | acc, k + 1 => gf16_powLoop base (gf16_mul acc base) k

/-- `gf16_pow` from `src/gf.rs`: `base ^ exp` by naive repeated
multiplication; `exp = 0` returns 1, otherwise the result starts at
`base` and is multiplied by `base` another `exp - 1` times. -/
def gf16_pow (base : GFElement) (exp : Nat) : GFElement :=
  match exp with
  | 0 => (1 : GFElement)
  | k + 1 => gf16_powLoop base base k

/-- `gf16_inv` from `src/solver.rs`: inverse of a nonzero element is
`a^14`; inverting zero is an error. -/
def gf16_inv (element : GFElement) : Except String GFElement :=
  if element.val = 0 then .error "Cannot invert zero element"
  else .ok (gf16_pow element 14)

/-! ### Field facts (finite, settled by `decide`) -/

theorem gf16_add_comm (a b : GFElement) : gf16_add a b = gf16_add b a := by
  revert a b; decide

theorem gf16_add_assoc (a b c : GFElement) :
    gf16_add (gf16_add a b) c = gf16_add a (gf16_add b c) := by
  revert a b c; decide

theorem gf16_add_zero (a : GFElement) : gf16_add a 0 = a := by
  revert a; decide

theorem gf16_zero_add (a : GFElement) : gf16_add 0 a = a := by
  revert a; decide

theorem gf16_add_self (a : GFElement) : gf16_add a a = 0 := by
  revert a; decide

theorem gf16_sub_eq_add (a b : GFElement) : gf16_sub a b = gf16_add a b := rfl

theorem gf16_add_cancel (a b c : GFElement) :
    gf16_add a c = gf16_add b c ↔ a = b := by
  revert a b c; decide

theorem gf16_mul_comm (a b : GFElement) : gf16_mul a b = gf16_mul b a := by
  revert a b; decide

theorem gf16_mul_assoc (a b c : GFElement) :
    gf16_mul (gf16_mul a b) c = gf16_mul a (gf16_mul b c) := by
  revert a b c; decide

theorem gf16_mul_one (a : GFElement) : gf16_mul a 1 = a := by
  revert a; decide

theorem gf16_one_mul (a : GFElement) : gf16_mul 1 a = a := by
  revert a; decide

theorem gf16_mul_zero (a : GFElement) : gf16_mul a 0 = 0 := by
  revert a; decide

theorem gf16_zero_mul (a : GFElement) : gf16_mul 0 a = 0 := by
  revert a; decide

theorem gf16_mul_add (a b c : GFElement) :
    gf16_mul a (gf16_add b c) = gf16_add (gf16_mul a b) (gf16_mul a c) := by
  revert a b c; decide

theorem gf16_add_mul (a b c : GFElement) :
    gf16_mul (gf16_add a b) c = gf16_add (gf16_mul a c) (gf16_mul b c) := by
  revert a b c; decide

theorem gf16_mul_cancel (f a b : GFElement) (hf : f ≠ 0) :
    gf16_mul f a = gf16_mul f b ↔ a = b := by
  revert f a b; decide

theorem gf16_pow14_mul (a : GFElement) (ha : a ≠ 0) :
    gf16_mul a (gf16_pow a 14) = 1 ∧ gf16_pow a 14 ≠ 0 := by
  revert a; decide

/-! ## Matrices over GF(16) (`src/types.rs`, `src/matrix.rs`)

`GFMatrix` is row-major flat storage, exactly as in `types.rs`:
`data[r * cols + c]` holds entry `(r, c)`.  `get_unsafe`/`set_val`
panic on out-of-range indices in Rust; here out-of-range reads return
`0` and out-of-range writes are no-ops (all uses proved about are
in-range). -/

structure GFMatrix where
  data : List GFElement
  rows : Nat
  cols : Nat
deriving DecidableEq

/-- Well-formedness of the flat storage: the Rust constructors enforce
`data.len() == rows * cols`. -/
def GFMatrix.WF (m : GFMatrix) : Prop := m.data.length = m.rows * m.cols

instance (m : GFMatrix) : Decidable m.WF := by unfold GFMatrix.WF; infer_instance

/-- `GFMatrix::get_unsafe` (`src/matrix.rs`), named `uget` here.  The
Rust function panics out of range; in every use below the indices are
in range, so the default value 0 is never produced. -/
def GFMatrix.uget (m : GFMatrix) (r c : Nat) : GFElement :=
  m.data.getD (r * m.cols + c) 0

/-- `GFMatrix::set_val` (`src/matrix.rs`). -/
def GFMatrix.set_val (m : GFMatrix) (r c : Nat) (v : GFElement) : GFMatrix :=
  { m with data := m.data.set (r * m.cols + c) v }

/-- `GFMatrix::new_with_data` (`src/matrix.rs`); the caller is
responsible for `data.length = rows * cols` (Rust panics otherwise). -/
def GFMatrix.new_with_data (rows cols : Nat) (data : List GFElement) : GFMatrix :=
  ⟨data, rows, cols⟩

/-- `GFMatrix::zero` (`src/matrix.rs`). -/
def GFMatrix.zero (rows cols : Nat) : GFMatrix :=
  ⟨List.replicate (rows * cols) 0, rows, cols⟩

/-- Functional row-major builder: the model of the Rust pattern
"allocate a `zero(rows, cols)` matrix, then `set_val(r, c, f r c)` for
every index pair in order".  `data` lists `f r c` row-major. -/
def mkMat (rows cols : Nat) (f : Nat → Nat → GFElement) : GFMatrix :=
  ⟨((List.range rows).map (fun r => (List.range cols).map (fun c => f r c))).flatten,
   rows, cols⟩

/-- `GFMatrix::from_vectors` (`src/matrix.rs`): rows are concatenated;
the Rust code panics when row lengths are inconsistent, which the
claims exclude. -/
def GFMatrix.from_vectors (vecs : List (List GFElement)) : GFMatrix :=
  match vecs with
  | [] => GFMatrix.zero 0 0
  | v0 :: _ => ⟨vecs.flatten, vecs.length, v0.length⟩

/-! ### Flat-index bookkeeping -/

theorem flatten_getD_of_forall_length {w : Nat} (_hw : 0 < w) :
    ∀ (L : List (List GFElement)), (∀ l ∈ L, l.length = w) →
    ∀ r c, c < w →
    L.flatten.getD (r * w + c) 0 = (L.getD r []).getD c 0 := by
  intro L
  induction L with
  | nil => intro _ r c _; simp [List.getD]
  | cons hd tl ih =>
    intro hlen r c hc
    have hhd : hd.length = w := hlen hd (by simp)
    cases r with
    | zero =>
      simp only [List.getD_eq_getElem?_getD, Nat.zero_mul, Nat.zero_add, List.flatten_cons,
        List.getElem?_cons_zero, Option.getD_some]
      rw [List.getElem?_append_left (by omega)]
    | succ r' =>
      have hidx : (r' + 1) * w + c = hd.length + (r' * w + c) := by
        rw [hhd]; ring
      have ih' := ih (fun l hl => hlen l (List.mem_cons_of_mem _ hl)) r' c hc
      simp only [List.getD_eq_getElem?_getD] at ih' ⊢
      rw [List.flatten_cons, hidx, List.getElem?_append_right (by omega)]
      have hsub : hd.length + (r' * w + c) - hd.length = r' * w + c := by omega
      rw [hsub, List.getElem?_cons_succ]
      exact ih'

theorem mkMat_rows (rows cols : Nat) (f : Nat → Nat → GFElement) :
    (mkMat rows cols f).rows = rows := rfl

theorem mkMat_cols (rows cols : Nat) (f : Nat → Nat → GFElement) :
    (mkMat rows cols f).cols = cols := rfl

theorem mkMat_data_length (rows cols : Nat) (f : Nat → Nat → GFElement) :
    (mkMat rows cols f).data.length = rows * cols := by
  simp only [mkMat]
  rw [List.length_flatten, List.map_map]
  simp [Function.comp_def, List.map_const']

theorem mkMat_wf (rows cols : Nat) (f : Nat → Nat → GFElement) :
    (mkMat rows cols f).WF := mkMat_data_length rows cols f

theorem mkMat_get (rows cols : Nat) (f : Nat → Nat → GFElement)
    {r c : Nat} (hr : r < rows) (hc : c < cols) :
    (mkMat rows cols f).uget r c = f r c := by
  simp only [mkMat, GFMatrix.uget]
  rw [flatten_getD_of_forall_length (by omega)
      _ (by intro l hl; simp only [List.mem_map] at hl; obtain ⟨a, _, rfl⟩ := hl; simp)
      r c hc]
  simp only [List.getD_eq_getElem?_getD, List.getElem?_map, List.getElem?_range hr,
    Option.map_some', Option.getD_some, List.getElem?_range hc]

/-- Reading inside the bounds of a well-formed matrix. -/
theorem get_index_lt {m : GFMatrix} {r c : Nat} (hr : r < m.rows) (hc : c < m.cols) :
    r * m.cols + c < m.rows * m.cols := by
  calc r * m.cols + c < r * m.cols + m.cols := by omega
    _ = (r + 1) * m.cols := by ring
    _ ≤ m.rows * m.cols := Nat.mul_le_mul_right _ (by omega)

theorem set_val_rows (m : GFMatrix) (r c : Nat) (v : GFElement) :
    (m.set_val r c v).rows = m.rows := rfl

theorem set_val_cols (m : GFMatrix) (r c : Nat) (v : GFElement) :
    (m.set_val r c v).cols = m.cols := rfl

theorem set_val_data_length (m : GFMatrix) (r c : Nat) (v : GFElement) :
    (m.set_val r c v).data.length = m.data.length := by
  simp [GFMatrix.set_val]

theorem set_val_wf {m : GFMatrix} (h : m.WF) (r c : Nat) (v : GFElement) :
    (m.set_val r c v).WF := by
  simp only [GFMatrix.WF] at *
  simpa [GFMatrix.set_val] using h

theorem getD_set_list {α : Type} (l : List α) (i j : Nat) (v d : α) :
    (l.set i v).getD j d = if j = i ∧ i < l.length then v else l.getD j d := by
  by_cases hij : j = i
  · subst hij
    by_cases hlen : j < l.length
    · simp [List.getD, List.getElem?_set_self, hlen]
    · simp only [hlen, and_false, if_false]
      rw [List.set_eq_of_length_le (by omega)]
  · simp [List.getD, List.getElem?_set_ne (fun h => hij h.symm), hij]

/-- The fundamental `set_val`/`get_unsafe` interaction, for in-range
indices of a well-formed matrix. -/
theorem get_set_val {m : GFMatrix} (hwf : m.WF) {r c r' c' : Nat}
    (hr : r < m.rows) (hc : c < m.cols) (_hr' : r' < m.rows) (hc' : c' < m.cols)
    (v : GFElement) :
    (m.set_val r c v).uget r' c' =
      if r' = r ∧ c' = c then v else m.uget r' c' := by
  simp only [GFMatrix.set_val, GFMatrix.uget]
  rw [getD_set_list]
  have hlt : r * m.cols + c < m.data.length := by rw [hwf]; exact get_index_lt hr hc
  by_cases heq : r' * m.cols + c' = r * m.cols + c
  · have hcpos : 0 < m.cols := by omega
    have hc'eq : c' = c := by
      have h1 : (r' * m.cols + c') % m.cols = c' := by
        rw [Nat.mul_comm r' m.cols, Nat.mul_add_mod, Nat.mod_eq_of_lt hc']
      have h2 : (r * m.cols + c) % m.cols = c := by
        rw [Nat.mul_comm r m.cols, Nat.mul_add_mod, Nat.mod_eq_of_lt hc]
      rw [← h1, ← h2, heq]
    have hr'eq : r' = r := by
      have : r' * m.cols = r * m.cols := by omega
      exact Nat.eq_of_mul_eq_mul_right hcpos this
    simp [heq, hlt, hr'eq, hc'eq]
  · have : ¬(r' = r ∧ c' = c) := by
      rintro ⟨rfl, rfl⟩; exact heq rfl
    simp [heq, this]

/-- `set_val` leaves all other positions unchanged (no well-formedness
needed for this direction when only the position differs). -/
theorem get_set_val_ne {m : GFMatrix} {r c r' c' : Nat}
    (h : r' * m.cols + c' ≠ r * m.cols + c) (v : GFElement) :
    (m.set_val r c v).uget r' c' = m.uget r' c' := by
  simp only [GFMatrix.set_val, GFMatrix.uget]
  rw [getD_set_list]
  simp [h]

/-! ### GF(16) sums

The Rust accumulation pattern `let mut sum = 0; for .. { sum =
gf16_add(sum, ..) }` is a left fold; `gfSum` names it so the algebraic
lemmas below can be stated once. -/

def gfSum (l : List GFElement) : GFElement := l.foldl gf16_add 0

theorem gfSum_nil : gfSum [] = 0 := rfl

theorem foldl_gf16_add_eq (l : List GFElement) (a : GFElement) :
    l.foldl gf16_add a = gf16_add a (gfSum l) := by
  induction l generalizing a with
  | nil => simp [gfSum, gf16_add_zero]
  | cons hd tl ih =>
    simp only [gfSum, List.foldl_cons, gf16_zero_add] at *
    rw [ih, ih hd, ← gf16_add_assoc]

theorem gfSum_cons (a : GFElement) (l : List GFElement) :
    gfSum (a :: l) = gf16_add a (gfSum l) := by
  simp only [gfSum, List.foldl_cons, gf16_zero_add]
  exact foldl_gf16_add_eq l a

theorem gfSum_append (l₁ l₂ : List GFElement) :
    gfSum (l₁ ++ l₂) = gf16_add (gfSum l₁) (gfSum l₂) := by
  induction l₁ with
  | nil => simp [gfSum_nil, gf16_zero_add]
  | cons hd tl ih => simp [gfSum_cons, ih, gf16_add_assoc]

theorem gfSum_congr {α : Type} (l : List α) (f g : α → GFElement)
    (h : ∀ a ∈ l, f a = g a) : gfSum (l.map f) = gfSum (l.map g) := by
  induction l with
  | nil => rfl
  | cons hd tl ih =>
    simp only [List.map_cons, gfSum_cons]
    rw [h hd (by simp), ih (fun a ha => h a (by simp [ha]))]

theorem gfSum_zero {α : Type} (l : List α) :
    gfSum (l.map (fun _ => (0 : GFElement))) = 0 := by
  induction l with
  | nil => rfl
  | cons hd tl ih => rw [List.map_cons, gfSum_cons, ih, gf16_add_zero]

theorem gfSum_add_split {α : Type} (l : List α) (f g : α → GFElement) :
    gfSum (l.map (fun a => gf16_add (f a) (g a))) =
      gf16_add (gfSum (l.map f)) (gfSum (l.map g)) := by
  induction l with
  | nil => simp [gfSum_nil, gf16_add_zero]
  | cons hd tl ih =>
    simp only [List.map_cons, gfSum_cons, ih]
    -- rearrange (f+g) + (F+G) = (f+F) + (g+G)
    rw [gf16_add_assoc, gf16_add_assoc]
    congr 1
    rw [← gf16_add_assoc, ← gf16_add_assoc, gf16_add_comm (g hd)]

theorem gfSum_mul_left {α : Type} (l : List α) (x : GFElement) (f : α → GFElement) :
    gfSum (l.map (fun a => gf16_mul x (f a))) = gf16_mul x (gfSum (l.map f)) := by
  induction l with
  | nil => simp [gfSum_nil, gf16_mul_zero]
  | cons hd tl ih => simp [gfSum_cons, ih, gf16_mul_add]

/-- Swapping the order of a double sum. -/
theorem gfSum_swap {α β : Type} (l₁ : List α) (l₂ : List β) (f : α → β → GFElement) :
    gfSum (l₁.map (fun a => gfSum (l₂.map (fun b => f a b)))) =
      gfSum (l₂.map (fun b => gfSum (l₁.map (fun a => f a b)))) := by
  induction l₁ with
  | nil =>
    simp only [List.map_nil, gfSum_nil]
    exact (gfSum_zero l₂).symm
  | cons hd tl ih =>
    simp only [List.map_cons, gfSum_cons, ih]
    rw [← gfSum_add_split]

/-! ### Standalone matrix operations (`src/matrix.rs`) -/

/-- `matrix_add` (`src/matrix.rs`): elementwise XOR, dimension-checked. -/
def matrix_add (a b : GFMatrix) : Except String GFMatrix :=
  if a.rows ≠ b.rows ∨ a.cols ≠ b.cols then
    .error "Matrices must have the same dimensions for addition"
  else .ok (GFMatrix.new_with_data a.rows a.cols (List.zipWith gf16_add a.data b.data))

/-- `matrix_sub` (`src/matrix.rs`): identical to addition in GF(2^n). -/
def matrix_sub (a b : GFMatrix) : Except String GFMatrix := matrix_add a b

/-- Inner accumulation of `matrix_mul`: `sum += a[r,k] * b[k,c]`. -/
def matMulEntry (a b : GFMatrix) (r c : Nat) : GFElement :=
  (List.range a.cols).foldl
    (fun sum k => gf16_add sum (gf16_mul (a.uget r k) (b.uget k c))) 0

/-- `matrix_mul` (`src/matrix.rs`): schoolbook multiplication. -/
def matrix_mul (a b : GFMatrix) : Except String GFMatrix :=
  if a.cols ≠ b.rows then
    .error "Number of columns in the first matrix must equal number of rows in the second"
  else .ok (mkMat a.rows b.cols (fun r c => matMulEntry a b r c))

/-- `matrix_transpose` (`src/matrix.rs`). -/
def matrix_transpose (m : GFMatrix) : GFMatrix :=
  mkMat m.cols m.rows (fun r c => m.uget c r)

/-- `matrix_vec_mul` (`src/matrix.rs`): matrix times column vector. -/
def matrix_vec_mul (m : GFMatrix) (v : List GFElement) : Except String (List GFElement) :=
  if m.cols ≠ v.length then
    .error "Matrix columns must match vector length for multiplication"
  else .ok ((List.range m.rows).map (fun r =>
    (List.range m.cols).foldl
      (fun sum c => gf16_add sum (gf16_mul (m.uget r c) (v.getD c 0))) 0))

/-- `matrix_sub_vectors_gfvector` (`src/matrix.rs`): elementwise XOR of
two vectors. -/
def matrix_sub_vectors_gfvector (a b : List GFElement) :
    Except String (List GFElement) :=
  if a.length ≠ b.length then .error "Vector dimensions must match for subtraction"
  else .ok (List.zipWith gf16_sub a b)

/-- `matrix_symmetrize` (`src/matrix.rs`): `M + Mᵀ` for square `M`. -/
def matrix_symmetrize (m : GFMatrix) : Except String GFMatrix :=
  if m.rows ≠ m.cols then .error "Matrix must be square to be symmetrized"
  else .ok (mkMat m.rows m.rows
    (fun r c => gf16_add (m.uget r c) (m.uget c r)))

/-- `matrix_vec_mul_transpose_gfvector` (`src/matrix.rs`): row vector
times matrix, `vᵀ · M`. -/
def matrix_vec_mul_transpose_gfvector (vlhs : List GFElement) (mrhs : GFMatrix) :
    Except String (List GFElement) :=
  if vlhs.length ≠ mrhs.rows then
    .error "Vector length must match matrix rows for v^T * M multiplication"
  else .ok ((List.range mrhs.cols).map (fun cRes =>
    (List.range mrhs.rows).foldl
      (fun sum rIdx => gf16_add sum (gf16_mul (vlhs.getD rIdx 0) (mrhs.uget rIdx cRes))) 0))

/-- `vector_dot_product` (`src/matrix.rs`). -/
def vector_dot_product (a b : List GFElement) : Except String GFElement :=
  if a.length ≠ b.length then .error "Vectors must have the same length for dot product"
  else if a.isEmpty then .ok 0
  else .ok ((List.range a.length).foldl
    (fun sum i => gf16_add sum (gf16_mul (a.getD i 0) (b.getD i 0))) 0)

/-! ### Basic facts about the matrix operations -/

theorem foldl_add_map {α : Type} (l : List α) (f : α → GFElement) (z : GFElement) :
    l.foldl (fun sum a => gf16_add sum (f a)) z = gf16_add z (gfSum (l.map f)) := by
  induction l generalizing z with
  | nil => simp [gfSum_nil, gf16_add_zero]
  | cons hd tl ih =>
    simp only [List.foldl_cons, List.map_cons, gfSum_cons]
    rw [ih, ← gf16_add_assoc]

theorem foldl_add_as_gfSum {α : Type} (l : List α) (f : α → GFElement) :
    l.foldl (fun sum a => gf16_add sum (f a)) 0 = gfSum (l.map f) := by
  rw [foldl_add_map, gf16_zero_add]

theorem vector_dot_product_ok {a b : List GFElement} (h : a.length = b.length) :
    vector_dot_product a b =
      .ok (gfSum ((List.range a.length).map
        (fun i => gf16_mul (a.getD i 0) (b.getD i 0)))) := by
  unfold vector_dot_product
  rw [if_neg (by omega)]
  by_cases ha : a.isEmpty
  · rw [List.isEmpty_iff] at ha
    subst ha
    simp [gfSum_nil]
  · simp only [ha, Bool.false_eq_true, if_false, Except.ok.injEq]
    exact foldl_add_as_gfSum _ _

/-! ## Parameters (`src/params.rs`) -/

structure MayoVariantParams where
  n : Nat
  m : Nat
  o : Nat
  k : Nat
  sk_seed_bytes : Nat
  pk_seed_bytes : Nat
  salt_bytes : Nat
  digest_bytes : Nat
  o_bytes : Nat
  p1_bytes : Nat
  p2_bytes : Nat
  p3_bytes : Nat
deriving DecidableEq

inductive MayoParams where
  | MAYO1 : MayoVariantParams → MayoParams
  | MAYO2 : MayoVariantParams → MayoParams
deriving DecidableEq

/-- `MayoParams::variant`. -/
def MayoParams.variant : MayoParams → MayoVariantParams
  | .MAYO1 p => p
  | .MAYO2 p => p

/-- `MayoParams::mayo1`: `n=66, m=64, o=8, k=9`, with the byte lengths
from `src/params.rs`. -/
def MayoParams.mayo1 : MayoParams :=
  .MAYO1 ⟨66, 64, 8, 9, 24, 16, 24, 32, 232, 54784, 14848, 1152⟩

/-- `MayoParams::mayo2`: `n=78, m=64, o=18, k=4`. -/
def MayoParams.mayo2 : MayoParams :=
  .MAYO2 ⟨78, 64, 18, 4, 24, 16, 24, 32, 540, 58560, 34560, 5504⟩

/-- `MayoParams::bytes_for_gf16_elements`: `(num + 1) / 2`. -/
def MayoParams.bytes_for_gf16_elements (numElements : Nat) : Nat :=
  (numElements + 1) / 2

/-! ## Nibble codec (`src/codec.rs`)

Bytes are modelled as `Nat` (the Rust `u8`; all byte values that reach
arithmetic are masked to nibbles exactly where the Rust code masks
them). -/

/-- One step of the `encode_gf_elements` loop: element `i` goes to the
high nibble of byte `i/2` when `i` is even (plain store into the
zero-initialised buffer) and is OR-ed into the low nibble when odd. -/
def encodeStep (elements : List GFElement) (bytes : List Nat) (i : Nat) : List Nat :=
  let elementVal := (elements.getD i 0).val &&& 0x0F
  if i % 2 = 0 then bytes.set (i / 2) (elementVal <<< 4)
  else bytes.set (i / 2) ((bytes.getD (i / 2) 0) ||| elementVal)

/-- `encode_gf_elements` (`src/codec.rs`): pack nibbles two per byte,
high nibble first; an odd count leaves the final low nibble zero. -/
def encode_gf_elements (elements : List GFElement) : List Nat :=
  (List.range elements.length).foldl (encodeStep elements)
    (List.replicate ((elements.length + 1) / 2) 0)

/-- `decode_gf_elements` (`src/codec.rs`): element `i` is the high
nibble of byte `i/2` when `i` is even, the low nibble when odd. -/
def decode_gf_elements (bytes : List Nat) (numElements : Nat) :
    Except String (List GFElement) :=
  if bytes.length < (numElements + 1) / 2 then
    .error "Insufficient bytes to decode the specified number of GF elements"
  else .ok ((List.range numElements).map (fun i =>
    if i % 2 = 0 then (⟨((bytes.getD (i / 2) 0) >>> 4) &&& 0x0F, and_fifteen_lt _⟩ : GFElement)
    else ⟨(bytes.getD (i / 2) 0) &&& 0x0F, and_fifteen_lt _⟩))

/-! ### Codec characterization -/

theorem decode_gf_elements_ok {b : List Nat} {k : Nat}
    (h : (k + 1) / 2 ≤ b.length) :
    decode_gf_elements b k =
      .ok ((List.range k).map (fun i =>
        if i % 2 = 0 then (⟨((b.getD (i / 2) 0) >>> 4) &&& 0x0F, and_fifteen_lt _⟩ : GFElement)
        else ⟨(b.getD (i / 2) 0) &&& 0x0F, and_fifteen_lt _⟩)) := by
  unfold decode_gf_elements
  rw [if_neg (by omega)]

theorem decode_gf_elements_err {bytes : List Nat} {numElements : Nat}
    (h : bytes.length < (numElements + 1) / 2) :
    decode_gf_elements bytes numElements =
      .error "Insufficient bytes to decode the specified number of GF elements" := by
  unfold decode_gf_elements
  rw [if_pos h]

theorem decode_gf_elements_length {bytes : List Nat} {numElements : Nat}
    {l : List GFElement} (h : decode_gf_elements bytes numElements = .ok l) :
    l.length = numElements := by
  unfold decode_gf_elements at h
  by_cases hlen : bytes.length < (numElements + 1) / 2
  · rw [if_pos hlen] at h; cases h
  · rw [if_neg hlen] at h
    cases h
    simp

theorem getD_replicate_zero (n j : Nat) : (List.replicate n (0 : Nat)).getD j 0 = 0 := by
  induction n generalizing j with
  | zero => simp [List.getD]
  | succ n ih =>
    cases j with
    | zero => simp [List.replicate_succ]
    | succ j => simp [List.replicate_succ, ih j]

theorem encode_foldl_length (elements : List GFElement) (l : List Nat) (ks : List Nat) :
    (ks.foldl (encodeStep elements) l).length = l.length := by
  induction ks generalizing l with
  | nil => rfl
  | cons a t iht =>
    rw [List.foldl_cons, iht]
    simp only [encodeStep]
    split <;> simp

theorem encode_gf_elements_length (elements : List GFElement) :
    (encode_gf_elements elements).length = (elements.length + 1) / 2 := by
  unfold encode_gf_elements
  rw [encode_foldl_length, List.length_replicate]

/-- The packed-byte picture of the encoder: byte `j` of the output holds
element `2j` in its high nibble and element `2j + 1` (or zero for an
odd tail) in its low nibble.  Proven by an invariant over the encoding
loop. -/
theorem encode_gf_elements_getD (elements : List GFElement) (j : Nat)
    (hj : j < (elements.length + 1) / 2) :
    (encode_gf_elements elements).getD j 0 =
      ((elements.getD (2 * j) 0).val <<< 4) |||
        (if 2 * j + 1 < elements.length then (elements.getD (2 * j + 1) 0).val else 0) := by
  -- Invariant: after processing the first `k` elements, byte `jj` holds
  -- the nibbles of elements `2jj` and `2jj+1` restricted to indices `< k`.
  have key : ∀ k, k ≤ elements.length →
      ∀ jj, jj < (elements.length + 1) / 2 →
      ((List.range k).foldl (encodeStep elements)
          (List.replicate ((elements.length + 1) / 2) 0)).getD jj 0 =
        (if 2 * jj < k then (elements.getD (2 * jj) 0).val <<< 4 else 0) |||
          (if 2 * jj + 1 < k then (elements.getD (2 * jj + 1) 0).val else 0) := by
    intro k
    induction k with
    | zero =>
      intro _ jj _
      rw [List.range_zero, List.foldl_nil, getD_replicate_zero]
      rw [if_neg (by omega), if_neg (by omega), Nat.zero_or]
    | succ k ih =>
      intro hk jj hjj
      rw [List.range_succ, List.foldl_append, List.foldl_cons, List.foldl_nil]
      have ihj := fun jj hjj => ih (by omega) jj hjj
      set prev := (List.range k).foldl (encodeStep elements)
          (List.replicate ((elements.length + 1) / 2) 0) with hprev
      have hprevlen : prev.length = (elements.length + 1) / 2 := by
        rw [hprev, encode_foldl_length, List.length_replicate]
      have hmaskk : (elements.getD k 0).val &&& 0x0F = (elements.getD k 0).val :=
        gf_val_and_fifteen _
      simp only [encodeStep, hmaskk]
      by_cases hpar : k % 2 = 0
      · rw [if_pos hpar, getD_set_list]
        by_cases hjk : jj = k / 2
        · subst hjk
          rw [if_pos ⟨rfl, by omega⟩]
          have h2jk : 2 * (k / 2) = k := by omega
          rw [h2jk, if_pos (by omega), if_neg (by omega), Nat.or_zero]
        · rw [if_neg (fun hcontra => hjk hcontra.1), ihj jj hjj]
          have e1 : (if 2 * jj < k + 1 then (elements.getD (2 * jj) 0).val <<< 4 else 0)
              = (if 2 * jj < k then (elements.getD (2 * jj) 0).val <<< 4 else 0) := by
            by_cases h2j : 2 * jj < k
            · rw [if_pos h2j, if_pos (by omega)]
            · rw [if_neg h2j, if_neg (by omega)]
          have e2 : (if 2 * jj + 1 < k + 1 then (elements.getD (2 * jj + 1) 0).val else 0)
              = (if 2 * jj + 1 < k then (elements.getD (2 * jj + 1) 0).val else 0) := by
            by_cases h2j : 2 * jj + 1 < k
            · rw [if_pos h2j, if_pos (by omega)]
            · rw [if_neg h2j, if_neg (by omega)]
          rw [e1, e2]
      · rw [if_neg hpar, getD_set_list]
        by_cases hjk : jj = k / 2
        · subst hjk
          rw [if_pos ⟨rfl, by omega⟩, ihj (k / 2) hjj]
          rw [if_pos (show 2 * (k / 2) < k by omega),
            if_neg (show ¬(2 * (k / 2) + 1 < k) by omega), Nat.or_zero,
            if_pos (show 2 * (k / 2) < k + 1 by omega)]
          have h2jk : 2 * (k / 2) + 1 = k := by omega
          rw [h2jk, if_pos (Nat.lt_succ_self k)]
        · rw [if_neg (fun hcontra => hjk hcontra.1), ihj jj hjj]
          have e1 : (if 2 * jj < k + 1 then (elements.getD (2 * jj) 0).val <<< 4 else 0)
              = (if 2 * jj < k then (elements.getD (2 * jj) 0).val <<< 4 else 0) := by
            by_cases h2j : 2 * jj < k
            · rw [if_pos h2j, if_pos (by omega)]
            · rw [if_neg h2j, if_neg (by omega)]
          have e2 : (if 2 * jj + 1 < k + 1 then (elements.getD (2 * jj + 1) 0).val else 0)
              = (if 2 * jj + 1 < k then (elements.getD (2 * jj + 1) 0).val else 0) := by
            by_cases h2j : 2 * jj + 1 < k
            · rw [if_pos h2j, if_pos (by omega)]
            · rw [if_neg h2j, if_neg (by omega)]
          rw [e1, e2]
  have hfin := key elements.length (Nat.le_refl _) j hj
  unfold encode_gf_elements
  rw [hfin, if_pos (by omega)]

/-- The high/low nibbles of a packed byte unpack to the original
nibbles. -/
theorem nibble_pack_unpack : ∀ a < 16, ∀ b < 16,
    (((a <<< 4) ||| b) >>> 4) &&& 0x0F = a ∧ ((a <<< 4) ||| b) &&& 0x0F = b := by
  decide

/-- Decode is a left inverse of encode on nibble-valued vectors
(the spec's codec round-trip property). -/
theorem decode_encode_roundtrip (V : List GFElement) :
    decode_gf_elements (encode_gf_elements V) V.length = .ok V := by
  have hlen := encode_gf_elements_length V
  rw [decode_gf_elements_ok (by omega)]
  congr 1
  apply List.ext_getElem (by simp)
  intro i hi1 hi2
  rw [List.getElem_map, List.getElem_range]
  have hi : i < V.length := hi2
  rw [encode_gf_elements_getD V (i / 2) (by omega)]
  have hlo : (if 2 * (i / 2) + 1 < V.length
      then (V.getD (2 * (i / 2) + 1) 0).val else 0) < 16 := by
    split
    · exact (V.getD _ 0).isLt
    · omega
  by_cases hpar : i % 2 = 0
  · have h2i : 2 * (i / 2) = i := by omega
    rw [if_pos hpar]
    apply Fin.ext
    show ((((V.getD (2 * (i / 2)) 0).val <<< 4) ||| _) >>> 4) &&& 0x0F = _
    rw [(nibble_pack_unpack _ (V.getD (2 * (i / 2)) 0).isLt _ hlo).1, h2i,
      List.getD_eq_getElem V 0 hi]
  · have h2i : 2 * (i / 2) + 1 = i := by omega
    rw [if_neg hpar]
    apply Fin.ext
    show (((V.getD (2 * (i / 2)) 0).val <<< 4) ||| _) &&& 0x0F = _
    rw [(nibble_pack_unpack _ (V.getD (2 * (i / 2)) 0).isLt _ hlo).2]
    rw [if_pos (by omega), h2i, List.getD_eq_getElem V 0 hi]

/-! ## Gauss-Jordan solver over GF(16) (`src/solver.rs`)

`solve_linear_system` builds the augmented matrix `[A | y]`, runs a
forward elimination with full (Gauss-Jordan) clearing of each pivot
column, checks the zero rows for inconsistency, and back-substitutes
with free variables left at zero.  Every loop of the Rust code is a
fold below; the row operations only touch columns `≥ pivot_col`,
exactly as the Rust `for k in pivot_col..(num_variables + 1)` loops
do. -/

/-- Construction of the augmented matrix `[A | y]` (step 1 of
`solve_linear_system`): row `r` is row `r` of `A` followed by `y[r]`. -/
def buildAug (a : GFMatrix) (y : List GFElement) : GFMatrix :=
  mkMat a.rows (a.cols + 1)
    (fun r c => if c < a.cols then a.uget r c else y.getD r 0)

/-- Structural core of the pivot search: `fuel` is the number of rows
still to scan. -/
def findPivotAux (aug : GFMatrix) (col : Nat) : Nat → Nat → Nat
  | 0, i => i
  | fuel + 1, i =>
    if aug.uget i col = 0 then findPivotAux aug col fuel (i + 1) else i

/-- The pivot search `while i < num_equations && aug[i, pivot_col] == 0`:
first row index in `[i, mEq)` whose entry in `col` is nonzero (`mEq`
when there is none). -/
def findPivotFrom (aug : GFMatrix) (col mEq : Nat) (i : Nat) : Nat :=
  findPivotAux aug col (mEq - i) i

/-- Row swap restricted to columns `≥ c` (the Rust swap loop). -/
def swapRowsFrom (aug : GFMatrix) (r1 r2 c : Nat) : GFMatrix :=
  (List.range' c (aug.cols - c)).foldl
    (fun mm k =>
      let tmp := mm.uget r1 k
      (mm.set_val r1 k (mm.uget r2 k)).set_val r2 k tmp) aug

/-- Pivot-row normalisation restricted to columns `≥ c`: multiply by
the inverse of the pivot. -/
def scaleRowFrom (aug : GFMatrix) (r c : Nat) (factor : GFElement) : GFMatrix :=
  (List.range' c (aug.cols - c)).foldl
    (fun mm k => mm.set_val r k (gf16_mul (mm.uget r k) factor)) aug

/-- Elimination of `factor` times the pivot row from a target row,
restricted to columns `≥ c`. -/
def elimRowFrom (aug : GFMatrix) (rTarget rPivot c : Nat) (factor : GFElement) : GFMatrix :=
  (List.range' c (aug.cols - c)).foldl
    (fun mm k =>
      mm.set_val rTarget k
        (gf16_sub (mm.uget rTarget k) (gf16_mul factor (mm.uget rPivot k)))) aug

/-- The "eliminate other rows" loop: every row other than the pivot row
with a nonzero entry in the pivot column has that multiple of the pivot
row subtracted. -/
def elimOtherRows (aug : GFMatrix) (rPivot c mEq : Nat) : GFMatrix :=
  (List.range mEq).foldl
    (fun mm r =>
      if r ≠ rPivot then
        (if mm.uget r c ≠ 0 then elimRowFrom mm r rPivot c (mm.uget r c) else mm)
      else mm) aug

/-- One iteration of the forward-elimination loop of
`solve_linear_system`, for a single `pivot_col`; the state is
`(aug, pivot_row)`.  The early `break` when `pivot_row ≥ num_equations`
is the identity on the state. -/
def forwardStep (mEq : Nat) (st : GFMatrix × Nat) (pivotCol : Nat) :
    Except String (GFMatrix × Nat) :=
  if st.2 ≥ mEq then .ok st
  else
    let i := findPivotFrom st.1 pivotCol mEq st.2
    if i < mEq then
      let augSwapped := if i ≠ st.2 then swapRowsFrom st.1 st.2 i pivotCol else st.1
      let pivotVal := augSwapped.uget st.2 pivotCol
      match gf16_inv pivotVal with
      | .error e => .error e
      | .ok invPivotVal =>
        let augScaled := scaleRowFrom augSwapped st.2 pivotCol invPivotVal
        let augElim := elimOtherRows augScaled st.2 pivotCol mEq
        .ok (augElim, st.2 + 1)
    else .ok st

/-- Structural core of the leading-column search. -/
def findLeadAux (aug : GFMatrix) (r : Nat) : Nat → Nat → Nat
  | 0, p => p
  | fuel + 1, p =>
    if aug.uget r p = 0 then findLeadAux aug r fuel (p + 1) else p

/-- The leading-column search of the back-substitution (`while p_col <
num_variables && aug[r, p_col] == 0`). -/
def findLeadFrom (aug : GFMatrix) (r nVars : Nat) (p : Nat) : Nat :=
  findLeadAux aug r (nVars - p) p

/-- One row of the back-substitution:
`x[p] = aug[r, nVars] - Σ_{c > p} aug[r, c] * x[c]`. -/
def backSubstStep (aug : GFMatrix) (nVars : Nat) (solution : List GFElement) (r : Nat) :
    List GFElement :=
  let pCol := findLeadFrom aug r nVars 0
  let val := (List.range' (pCol + 1) (nVars - (pCol + 1))).foldl
    (fun v c => gf16_sub v (gf16_mul (aug.uget r c) (solution.getD c 0)))
    (aug.uget r nVars)
  solution.set pCol val

/-- The back-substitution loop, from the last pivot row upwards, on a
zero-initialised solution vector (free variables stay zero). -/
def backSubst (aug : GFMatrix) (rank nVars : Nat) : List GFElement :=
  ((List.range rank).reverse).foldl (backSubstStep aug nVars)
    (List.replicate nVars 0)

/-- `solve_linear_system` (`src/solver.rs`). -/
def solve_linear_system (aMatrix : GFMatrix) (yVector : List GFElement) :
    Except String (Option (List GFElement)) :=
  if aMatrix.rows ≠ yVector.length then
    .error "Matrix A rows must match y_vector length"
  else
    match (List.range aMatrix.cols).foldlM (forwardStep aMatrix.rows)
        (buildAug aMatrix yVector, 0) with
    | .error e => .error e
    | .ok (aug, rank) =>
      if (List.range' rank (aMatrix.rows - rank)).any
          (fun r => decide (aug.uget r aMatrix.cols ≠ 0)) then
        .ok none
      else .ok (some (backSubst aug rank aMatrix.cols))

/-! ### Characterizations of the solver's row operations -/

theorem uget_row_oob {m : GFMatrix} (hwf : m.WF) {r : Nat}
    (hr : m.rows ≤ r) (k : Nat) : m.uget r k = 0 := by
  unfold GFMatrix.uget
  apply List.getD_eq_default
  rw [hwf]
  calc m.rows * m.cols ≤ r * m.cols := Nat.mul_le_mul_right _ hr
    _ ≤ r * m.cols + k := Nat.le_add_right _ _

theorem foldl_preserve_dims {α : Type} (step : GFMatrix → α → GFMatrix)
    (h : ∀ mm k, (step mm k).rows = mm.rows ∧ (step mm k).cols = mm.cols ∧
        (step mm k).data.length = mm.data.length) :
    ∀ (ks : List α) (aug : GFMatrix),
      (ks.foldl step aug).rows = aug.rows ∧ (ks.foldl step aug).cols = aug.cols ∧
        (ks.foldl step aug).data.length = aug.data.length := by
  intro ks
  induction ks with
  | nil => intro aug; exact ⟨rfl, rfl, rfl⟩
  | cons k0 ks ih =>
    intro aug
    rw [List.foldl_cons]
    obtain ⟨h1, h2, h3⟩ := ih (step aug k0)
    obtain ⟨g1, g2, g3⟩ := h aug k0
    exact ⟨h1.trans g1, h2.trans g2, h3.trans g3⟩

theorem foldl_preserve_wf {α : Type} {step : GFMatrix → α → GFMatrix}
    (h : ∀ mm k, (step mm k).rows = mm.rows ∧ (step mm k).cols = mm.cols ∧
        (step mm k).data.length = mm.data.length)
    (ks : List α) {aug : GFMatrix} (hwf : aug.WF) : (ks.foldl step aug).WF := by
  obtain ⟨h1, h2, h3⟩ := foldl_preserve_dims step h ks aug
  unfold GFMatrix.WF
  rw [h1, h2, h3]
  exact hwf

/-- Generic description of a left fold whose step rewrites exactly one
column of the matrix, as a function `g` of that column's previous
contents.  Used for the three inner loops of the forward
elimination.  `R`/`C` are the (preserved) dimensions. -/
theorem foldl_cols_get (R C : Nat) (step : GFMatrix → Nat → GFMatrix)
    (g : (Nat → GFElement) → Nat → GFElement)
    (hdims : ∀ mm k, (step mm k).rows = mm.rows ∧ (step mm k).cols = mm.cols ∧
        (step mm k).data.length = mm.data.length)
    (hstep : ∀ mm k r, mm.WF → mm.rows = R → mm.cols = C → r < R → k < C →
        (step mm k).uget r k = g (fun r' => mm.uget r' k) r)
    (hother : ∀ mm k r k', mm.WF → mm.rows = R → mm.cols = C →
        r < R → k < C → k' < C → k' ≠ k →
        (step mm k).uget r k' = mm.uget r k') :
    ∀ (ks : List Nat) (aug : GFMatrix), aug.WF → aug.rows = R → aug.cols = C →
      ks.Nodup → (∀ k ∈ ks, k < C) →
      ∀ r k', r < R → k' < C →
      (ks.foldl step aug).uget r k' =
        if k' ∈ ks then g (fun r' => aug.uget r' k') r
        else aug.uget r k' := by
  intro ks
  induction ks with
  | nil =>
    intro aug _ _ _ _ _ r k' _ _
    simp
  | cons k0 ks ih =>
    intro aug hwf hR hC hnodup hbound r k' hr hk'
    rw [List.foldl_cons]
    have hk0 : k0 < C := hbound k0 (by simp)
    obtain ⟨d1, d2, d3⟩ := hdims aug k0
    have hwf' : (step aug k0).WF := by
      unfold GFMatrix.WF; rw [d1, d2, d3]; exact hwf
    have ih' := ih (step aug k0) hwf' (d1.trans hR) (d2.trans hC)
      (List.nodup_cons.mp hnodup).2
      (fun k hk => hbound k (by simp [hk])) r k' hr hk'
    rw [ih']
    by_cases hmem : k' ∈ ks
    · rw [if_pos hmem, if_pos (by simp [hmem])]
      have hne : k' ≠ k0 := fun h => (List.nodup_cons.mp hnodup).1 (h ▸ hmem)
      congr 1
      funext r'
      by_cases hr' : r' < R
      · exact hother aug k0 r' k' hwf hR hC hr' hk0 hk' hne
      · rw [uget_row_oob hwf' (by rw [d1, hR]; omega),
          uget_row_oob hwf (by rw [hR]; omega)]
    · rw [if_neg hmem]
      by_cases hk0' : k' = k0
      · subst hk0'
        rw [if_pos (by simp)]
        exact hstep aug k' r hwf hR hC hr hk0
      · rw [if_neg (by simp [hmem, hk0'])]
        exact hother aug k0 r k' hwf hR hC hr hk0 hk' hk0'

theorem columns_of_range' (c n k0 : Nat) (hk0 : k0 ∈ List.range' c (n - c)) : k0 < n := by
  rw [List.mem_range'_1] at hk0
  omega

/-- What the column-restricted swap loop does to each in-range entry. -/
theorem swapRowsFrom_get {aug : GFMatrix} (hwf : aug.WF) {r1 r2 c : Nat}
    (h1 : r1 < aug.rows) (h2 : r2 < aug.rows) {r k : Nat}
    (hr : r < aug.rows) (hk : k < aug.cols) :
    (swapRowsFrom aug r1 r2 c).uget r k =
      if c ≤ k then
        (if r = r1 then aug.uget r2 k
         else if r = r2 then aug.uget r1 k
         else aug.uget r k)
      else aug.uget r k := by
  unfold swapRowsFrom
  rw [foldl_cols_get aug.rows aug.cols _
      (fun col rr => if rr = r1 then col r2 else if rr = r2 then col r1 else col rr)
      (by
        intro mm k0
        exact ⟨rfl, rfl, by simp [set_val_data_length]⟩)
      (by
        intro mm k0 rr hwfm hRm hCm hrr hk0
        have h1m : r1 < mm.rows := by rw [hRm]; exact h1
        have h2m : r2 < mm.rows := by rw [hRm]; exact h2
        have hk0m : k0 < mm.cols := by rw [hCm]; exact hk0
        have hrrm : rr < mm.rows := by rw [hRm]; exact hrr
        have hw1 : (mm.set_val r1 k0 (mm.uget r2 k0)).WF := set_val_wf hwfm _ _ _
        show ((mm.set_val r1 k0 (mm.uget r2 k0)).set_val r2 k0
            (mm.uget r1 k0)).uget rr k0 =
          if rr = r1 then mm.uget r2 k0
          else if rr = r2 then mm.uget r1 k0 else mm.uget rr k0
        rw [get_set_val hw1 h2m hk0m hrrm hk0m, get_set_val hwfm h1m hk0m hrrm hk0m]
        by_cases e2 : rr = r2
        · rw [if_pos ⟨e2, rfl⟩]
          by_cases e1 : rr = r1
          · rw [if_pos e1, ← e1, ← e2]
          · rw [if_neg e1, if_pos e2]
        · rw [if_neg (fun hcon => e2 hcon.1)]
          by_cases e1 : rr = r1
          · rw [if_pos ⟨e1, rfl⟩, if_pos e1]
          · rw [if_neg (fun hcon => e1 hcon.1), if_neg e1, if_neg e2])
      (by
        intro mm k0 rr k' hwfm hRm hCm hrr hk0 hk' hne
        have h1m : r1 < mm.rows := by rw [hRm]; exact h1
        have h2m : r2 < mm.rows := by rw [hRm]; exact h2
        have hk0m : k0 < mm.cols := by rw [hCm]; exact hk0
        have hk'm : k' < mm.cols := by rw [hCm]; exact hk'
        have hrrm : rr < mm.rows := by rw [hRm]; exact hrr
        have hw1 : (mm.set_val r1 k0 (mm.uget r2 k0)).WF := set_val_wf hwfm _ _ _
        rw [get_set_val hw1 h2m hk0m hrrm hk'm, get_set_val hwfm h1m hk0m hrrm hk'm,
          if_neg (fun hcon => hne hcon.2), if_neg (fun hcon => hne hcon.2)])
      _ aug hwf rfl rfl (List.nodup_range' _ _)
      (fun k0 hk0 => columns_of_range' c aug.cols k0 hk0) r k hr hk]
  simp only [List.mem_range'_1]
  by_cases hck : c ≤ k
  · rw [if_pos ⟨hck, by omega⟩, if_pos hck]
  · rw [if_neg (by omega), if_neg hck]

theorem swapRowsFrom_dims (aug : GFMatrix) (r1 r2 c : Nat) :
    (swapRowsFrom aug r1 r2 c).rows = aug.rows ∧
    (swapRowsFrom aug r1 r2 c).cols = aug.cols ∧
    (swapRowsFrom aug r1 r2 c).data.length = aug.data.length := by
  unfold swapRowsFrom
  apply foldl_preserve_dims
  intro mm k
  exact ⟨rfl, rfl, by simp [set_val_data_length]⟩

/-- What the column-restricted scaling loop does to each in-range entry. -/
theorem scaleRowFrom_get {aug : GFMatrix} (hwf : aug.WF) {rT c : Nat}
    (hT : rT < aug.rows) (factor : GFElement) {r k : Nat}
    (hr : r < aug.rows) (hk : k < aug.cols) :
    (scaleRowFrom aug rT c factor).uget r k =
      if r = rT ∧ c ≤ k then gf16_mul (aug.uget rT k) factor
      else aug.uget r k := by
  unfold scaleRowFrom
  rw [foldl_cols_get aug.rows aug.cols _
      (fun col rr => if rr = rT then gf16_mul (col rT) factor else col rr)
      (by intro mm k0; exact ⟨rfl, rfl, by simp [set_val_data_length]⟩)
      (by
        intro mm k0 rr hwfm hRm hCm hrr hk0
        have hTm : rT < mm.rows := by rw [hRm]; exact hT
        have hk0m : k0 < mm.cols := by rw [hCm]; exact hk0
        have hrrm : rr < mm.rows := by rw [hRm]; exact hrr
        show (mm.set_val rT k0 (gf16_mul (mm.uget rT k0) factor)).uget rr k0 =
          if rr = rT then gf16_mul (mm.uget rT k0) factor else mm.uget rr k0
        rw [get_set_val hwfm hTm hk0m hrrm hk0m]
        by_cases e : rr = rT
        · rw [if_pos ⟨e, rfl⟩, if_pos e]
        · rw [if_neg (fun hcon => e hcon.1), if_neg e])
      (by
        intro mm k0 rr k' hwfm hRm hCm hrr hk0 hk' hne
        have hTm : rT < mm.rows := by rw [hRm]; exact hT
        have hk0m : k0 < mm.cols := by rw [hCm]; exact hk0
        have hk'm : k' < mm.cols := by rw [hCm]; exact hk'
        have hrrm : rr < mm.rows := by rw [hRm]; exact hrr
        rw [get_set_val hwfm hTm hk0m hrrm hk'm, if_neg (fun hcon => hne hcon.2)])
      _ aug hwf rfl rfl (List.nodup_range' _ _)
      (fun k0 hk0 => columns_of_range' c aug.cols k0 hk0) r k hr hk]
  simp only [List.mem_range'_1]
  by_cases e : r = rT
  · by_cases hck : c ≤ k
    · rw [if_pos ⟨hck, by omega⟩, if_pos e, if_pos ⟨e, hck⟩]
    · rw [if_neg (by omega), if_neg (fun hcon => hck hcon.2)]
  · by_cases hck : c ≤ k
    · rw [if_pos ⟨hck, by omega⟩, if_neg e, if_neg (fun hcon => e hcon.1)]
    · rw [if_neg (by omega), if_neg (fun hcon => e hcon.1)]

theorem scaleRowFrom_dims (aug : GFMatrix) (rT c : Nat) (factor : GFElement) :
    (scaleRowFrom aug rT c factor).rows = aug.rows ∧
    (scaleRowFrom aug rT c factor).cols = aug.cols ∧
    (scaleRowFrom aug rT c factor).data.length = aug.data.length := by
  unfold scaleRowFrom
  apply foldl_preserve_dims
  intro mm k
  exact ⟨rfl, rfl, by simp [set_val_data_length]⟩

/-- What the column-restricted elimination loop does to each in-range
entry of the target row. -/
theorem elimRowFrom_get {aug : GFMatrix} (hwf : aug.WF) {rT rP c : Nat}
    (hT : rT < aug.rows) (hP : rP < aug.rows) (factor : GFElement) {r k : Nat}
    (hr : r < aug.rows) (hk : k < aug.cols) :
    (elimRowFrom aug rT rP c factor).uget r k =
      if r = rT ∧ c ≤ k then
        gf16_sub (aug.uget rT k) (gf16_mul factor (aug.uget rP k))
      else aug.uget r k := by
  unfold elimRowFrom
  rw [foldl_cols_get aug.rows aug.cols _
      (fun col rr => if rr = rT then gf16_sub (col rT) (gf16_mul factor (col rP)) else col rr)
      (by intro mm k0; exact ⟨rfl, rfl, by simp [set_val_data_length]⟩)
      (by
        intro mm k0 rr hwfm hRm hCm hrr hk0
        have hTm : rT < mm.rows := by rw [hRm]; exact hT
        have hPm : rP < mm.rows := by rw [hRm]; exact hP
        have hk0m : k0 < mm.cols := by rw [hCm]; exact hk0
        have hrrm : rr < mm.rows := by rw [hRm]; exact hrr
        show (mm.set_val rT k0 (gf16_sub (mm.uget rT k0)
            (gf16_mul factor (mm.uget rP k0)))).uget rr k0 =
          if rr = rT then gf16_sub (mm.uget rT k0)
            (gf16_mul factor (mm.uget rP k0))
          else mm.uget rr k0
        rw [get_set_val hwfm hTm hk0m hrrm hk0m]
        by_cases e : rr = rT
        · rw [if_pos ⟨e, rfl⟩, if_pos e]
        · rw [if_neg (fun hcon => e hcon.1), if_neg e])
      (by
        intro mm k0 rr k' hwfm hRm hCm hrr hk0 hk' hne
        have hTm : rT < mm.rows := by rw [hRm]; exact hT
        have hk0m : k0 < mm.cols := by rw [hCm]; exact hk0
        have hk'm : k' < mm.cols := by rw [hCm]; exact hk'
        have hrrm : rr < mm.rows := by rw [hRm]; exact hrr
        rw [get_set_val hwfm hTm hk0m hrrm hk'm, if_neg (fun hcon => hne hcon.2)])
      _ aug hwf rfl rfl (List.nodup_range' _ _)
      (fun k0 hk0 => columns_of_range' c aug.cols k0 hk0) r k hr hk]
  simp only [List.mem_range'_1]
  by_cases e : r = rT
  · by_cases hck : c ≤ k
    · rw [if_pos ⟨hck, by omega⟩, if_pos e, if_pos ⟨e, hck⟩]
    · rw [if_neg (by omega), if_neg (fun hcon => hck hcon.2)]
  · by_cases hck : c ≤ k
    · rw [if_pos ⟨hck, by omega⟩, if_neg e, if_neg (fun hcon => e hcon.1)]
    · rw [if_neg (by omega), if_neg (fun hcon => e hcon.1)]

theorem elimRowFrom_dims (aug : GFMatrix) (rT rP c : Nat) (factor : GFElement) :
    (elimRowFrom aug rT rP c factor).rows = aug.rows ∧
    (elimRowFrom aug rT rP c factor).cols = aug.cols ∧
    (elimRowFrom aug rT rP c factor).data.length = aug.data.length := by
  unfold elimRowFrom
  apply foldl_preserve_dims
  intro mm k
  exact ⟨rfl, rfl, by simp [set_val_data_length]⟩

/-- The step function of `elimOtherRows`, named for the fold lemmas. -/
def elimStep (rP c : Nat) (mm : GFMatrix) (r : Nat) : GFMatrix :=
  if r ≠ rP then
    (if mm.uget r c ≠ 0 then elimRowFrom mm r rP c (mm.uget r c) else mm)
  else mm

theorem elimStep_dims (rP c : Nat) (mm : GFMatrix) (r : Nat) :
    (elimStep rP c mm r).rows = mm.rows ∧ (elimStep rP c mm r).cols = mm.cols ∧
    (elimStep rP c mm r).data.length = mm.data.length := by
  unfold elimStep
  split
  · split
    · exact elimRowFrom_dims mm r rP c _
    · exact ⟨rfl, rfl, rfl⟩
  · exact ⟨rfl, rfl, rfl⟩

/-- What the whole "eliminate other rows" fold does: each processed row
`r ≠ rP` with a nonzero entry `f = aug[r, c]` becomes
`row r - f · row rP` on columns `≥ c`; the pivot row and unprocessed
rows are untouched.  All values on the right-hand side refer to the
matrix before the fold. -/
theorem elimRows_fold_get (rP c : Nat) :
    ∀ (ks : List Nat) (aug : GFMatrix), aug.WF → ks.Nodup →
      (∀ r ∈ ks, r < aug.rows) → rP < aug.rows → c < aug.cols →
      ∀ r k, r < aug.rows → k < aug.cols →
      ((ks.foldl (elimStep rP c) aug).uget r k) =
        if r ∈ ks ∧ r ≠ rP ∧ aug.uget r c ≠ 0 ∧ c ≤ k then
          gf16_sub (aug.uget r k)
            (gf16_mul (aug.uget r c) (aug.uget rP k))
        else aug.uget r k := by
  intro ks
  induction ks with
  | nil =>
    intro aug _ _ _ _ _ r k _ _
    simp
  | cons r0 ks ih =>
    intro aug hwf hnodup hbound hP hc r k hr hk
    rw [List.foldl_cons]
    have hr0 : r0 < aug.rows := hbound r0 (by simp)
    obtain ⟨d1, d2, d3⟩ := elimStep_dims rP c aug r0
    have hwf' : (elimStep rP c aug r0).WF := by
      unfold GFMatrix.WF; rw [d1, d2, d3]; exact hwf
    -- entries of the one-step matrix
    have hstepget : ∀ r' k', r' < aug.rows → k' < aug.cols →
        (elimStep rP c aug r0).uget r' k' =
          if r' = r0 ∧ r0 ≠ rP ∧ aug.uget r0 c ≠ 0 ∧ c ≤ k' then
            gf16_sub (aug.uget r0 k')
              (gf16_mul (aug.uget r0 c) (aug.uget rP k'))
          else aug.uget r' k' := by
      intro r' k' hr' hk'
      unfold elimStep
      by_cases hne : r0 ≠ rP
      · rw [if_pos hne]
        by_cases hnz : aug.uget r0 c ≠ 0
        · rw [if_pos hnz, elimRowFrom_get hwf hr0 hP _ hr' hk']
          by_cases hcond : r' = r0 ∧ c ≤ k'
          · rw [if_pos hcond, if_pos ⟨hcond.1, hne, hnz, hcond.2⟩]
          · rw [if_neg hcond, if_neg (fun hcon => hcond ⟨hcon.1, hcon.2.2.2⟩)]
        · rw [if_neg hnz, if_neg (fun hcon => hnz hcon.2.2.1)]
      · rw [if_neg hne, if_neg (fun hcon => hne hcon.2.1)]
    have ih' := ih (elimStep rP c aug r0) hwf' (List.nodup_cons.mp hnodup).2
      (fun rr hrr => by rw [d1]; exact hbound rr (by simp [hrr]))
      (by rw [d1]; exact hP) (by rw [d2]; exact hc)
      r k (by rw [d1]; exact hr) (by rw [d2]; exact hk)
    rw [ih']
    have hr0notin : r0 ∉ ks := (List.nodup_cons.mp hnodup).1
    -- the one-step matrix agrees with `aug` on every row other than `r0`,
    -- in particular on row `rP` and on any `r ∈ ks`
    by_cases hmem : r ∈ ks
    · have hrne : r ≠ r0 := fun h => hr0notin (h ▸ hmem)
      have hgc : (elimStep rP c aug r0).uget r c = aug.uget r c := by
        rw [hstepget r c hr hc]; exact if_neg (fun hcon => hrne hcon.1)
      have hgk : (elimStep rP c aug r0).uget r k = aug.uget r k := by
        rw [hstepget r k hr hk]; exact if_neg (fun hcon => hrne hcon.1)
      have hgP : (elimStep rP c aug r0).uget rP k = aug.uget rP k := by
        rw [hstepget rP k hP hk]
        exact if_neg (fun hcon => hcon.2.1 hcon.1.symm)
      simp only [hgc, hgk, hgP]
      by_cases hcond : r ≠ rP ∧ aug.uget r c ≠ 0 ∧ c ≤ k
      · rw [if_pos ⟨hmem, hcond⟩, if_pos ⟨List.mem_cons_of_mem _ hmem, hcond⟩]
      · rw [if_neg (fun hcon => hcond hcon.2), if_neg (fun hcon => hcond hcon.2)]
    · by_cases hr0eq : r = r0
      · subst hr0eq
        rw [if_neg (fun hcon => hmem hcon.1), hstepget r k hr hk]
        by_cases hcond : r ≠ rP ∧ aug.uget r c ≠ 0 ∧ c ≤ k
        · rw [if_pos ⟨rfl, hcond⟩, if_pos ⟨List.mem_cons_self _ _, hcond⟩]
        · rw [if_neg (fun hcon => hcond hcon.2), if_neg (fun hcon => hcond hcon.2)]
      · rw [if_neg (fun hcon => hmem hcon.1), hstepget r k hr hk,
          if_neg (fun hcon => hr0eq hcon.1),
          if_neg (fun hcon => by
            rcases List.mem_cons.mp hcon.1 with h | h
            · exact hr0eq h
            · exact hmem h)]

theorem elimOtherRows_get {aug : GFMatrix} (hwf : aug.WF) {rP c mEq : Nat}
    (hm : mEq = aug.rows)
    (hP : rP < aug.rows) (hc : c < aug.cols) {r k : Nat}
    (hr : r < aug.rows) (hk : k < aug.cols) :
    (elimOtherRows aug rP c mEq).uget r k =
      if r ≠ rP ∧ aug.uget r c ≠ 0 ∧ c ≤ k then
        gf16_sub (aug.uget r k)
          (gf16_mul (aug.uget r c) (aug.uget rP k))
      else aug.uget r k := by
  subst hm
  unfold elimOtherRows
  have := elimRows_fold_get rP c (List.range aug.rows) aug hwf (List.nodup_range _)
    (fun rr hrr => List.mem_range.mp hrr) hP hc r k hr hk
  rw [show (fun mm rr => if rr ≠ rP then
      (if mm.uget rr c ≠ 0 then elimRowFrom mm rr rP c (mm.uget rr c) else mm)
      else mm) = elimStep rP c from rfl, this]
  by_cases hcond : r ≠ rP ∧ aug.uget r c ≠ 0 ∧ c ≤ k
  · rw [if_pos ⟨List.mem_range.mpr hr, hcond⟩, if_pos hcond]
  · rw [if_neg (fun hcon => hcond hcon.2), if_neg hcond]

theorem elimOtherRows_dims (aug : GFMatrix) (rP c mEq : Nat) :
    (elimOtherRows aug rP c mEq).rows = aug.rows ∧
    (elimOtherRows aug rP c mEq).cols = aug.cols ∧
    (elimOtherRows aug rP c mEq).data.length = aug.data.length := by
  unfold elimOtherRows
  apply foldl_preserve_dims
  intro mm r
  exact elimStep_dims rP c mm r

/-! ### The scan loops -/

theorem findPivotAux_spec (aug : GFMatrix) (col : Nat) :
    ∀ fuel i,
      i ≤ findPivotAux aug col fuel i ∧
      findPivotAux aug col fuel i ≤ i + fuel ∧
      (∀ j, i ≤ j → j < findPivotAux aug col fuel i → aug.uget j col = 0) ∧
      (findPivotAux aug col fuel i < i + fuel →
        aug.uget (findPivotAux aug col fuel i) col ≠ 0) := by
  intro fuel
  induction fuel with
  | zero =>
    intro i
    simp only [findPivotAux]
    exact ⟨Nat.le_refl _, Nat.le_refl _, fun j h1 h2 => absurd h2 (by omega),
      fun h => absurd h (by omega)⟩
  | succ fuel ih =>
    intro i
    unfold findPivotAux
    by_cases hz : aug.uget i col = 0
    · rw [if_pos hz]
      obtain ⟨ih1, ih2, ih3, ih4⟩ := ih (i + 1)
      refine ⟨by omega, by omega, ?_, by
        intro h
        exact ih4 (by omega)⟩
      intro j h1 h2
      by_cases hji : j = i
      · rw [hji]; exact hz
      · exact ih3 j (by omega) h2
    · rw [if_neg hz]
      exact ⟨Nat.le_refl _, by omega, fun j h1 h2 => absurd h2 (by omega), fun _ => hz⟩

theorem findPivotFrom_spec (aug : GFMatrix) (col mEq i : Nat) (hi : i ≤ mEq) :
    i ≤ findPivotFrom aug col mEq i ∧
    findPivotFrom aug col mEq i ≤ mEq ∧
    (∀ j, i ≤ j → j < findPivotFrom aug col mEq i → aug.uget j col = 0) ∧
    (findPivotFrom aug col mEq i < mEq →
      aug.uget (findPivotFrom aug col mEq i) col ≠ 0) := by
  unfold findPivotFrom
  obtain ⟨h1, h2, h3, h4⟩ := findPivotAux_spec aug col (mEq - i) i
  exact ⟨h1, by omega, h3, fun h => h4 (by omega)⟩

theorem findLeadAux_spec (aug : GFMatrix) (r : Nat) :
    ∀ fuel p,
      p ≤ findLeadAux aug r fuel p ∧
      findLeadAux aug r fuel p ≤ p + fuel ∧
      (∀ q, p ≤ q → q < findLeadAux aug r fuel p → aug.uget r q = 0) ∧
      (findLeadAux aug r fuel p < p + fuel →
        aug.uget r (findLeadAux aug r fuel p) ≠ 0) := by
  intro fuel
  induction fuel with
  | zero =>
    intro p
    simp only [findLeadAux]
    exact ⟨Nat.le_refl _, Nat.le_refl _, fun q h1 h2 => absurd h2 (by omega),
      fun h => absurd h (by omega)⟩
  | succ fuel ih =>
    intro p
    unfold findLeadAux
    by_cases hz : aug.uget r p = 0
    · rw [if_pos hz]
      obtain ⟨ih1, ih2, ih3, ih4⟩ := ih (p + 1)
      refine ⟨by omega, by omega, ?_, by
        intro h
        exact ih4 (by omega)⟩
      intro q h1 h2
      by_cases hqp : q = p
      · rw [hqp]; exact hz
      · exact ih3 q (by omega) h2
    · rw [if_neg hz]
      exact ⟨Nat.le_refl _, by omega, fun q h1 h2 => absurd h2 (by omega), fun _ => hz⟩

theorem findLeadFrom_spec (aug : GFMatrix) (r nVars : Nat) :
    findLeadFrom aug r nVars 0 ≤ nVars ∧
    (∀ q, q < findLeadFrom aug r nVars 0 → aug.uget r q = 0) ∧
    (findLeadFrom aug r nVars 0 < nVars →
      aug.uget r (findLeadFrom aug r nVars 0) ≠ 0) := by
  unfold findLeadFrom
  obtain ⟨h1, h2, h3, h4⟩ := findLeadAux_spec aug r (nVars - 0) 0
  exact ⟨by omega, fun q hq => h3 q (by omega) hq, fun h => h4 (by omega)⟩

/-! ### Semantics of the augmented system -/

/-- The value of equation `r` of an augmented system at `x`:
`Σ_{c < nVars} aug[r, c] · x[c]`. -/
def rowDot (aug : GFMatrix) (r nVars : Nat) (x : List GFElement) : GFElement :=
  gfSum ((List.range nVars).map (fun c => gf16_mul (aug.uget r c) (x.getD c 0)))

/-- `x` satisfies every equation of the augmented system (right-hand
sides live in column `nVars`). -/
def SatsAug (aug : GFMatrix) (mEq nVars : Nat) (x : List GFElement) : Prop :=
  ∀ r, r < mEq → rowDot aug r nVars x = aug.uget r nVars

theorem rowDot_congr {A B : GFMatrix} {r r' nVars : Nat} (x : List GFElement)
    (h : ∀ c, c < nVars → A.uget r c = B.uget r' c) :
    rowDot A r nVars x = rowDot B r' nVars x := by
  unfold rowDot
  apply gfSum_congr
  intro c hc
  rw [List.mem_range] at hc
  rw [h c hc]

theorem rowDot_zero_row {A : GFMatrix} {r nVars : Nat} (x : List GFElement)
    (h : ∀ c, c < nVars → A.uget r c = 0) :
    rowDot A r nVars x = 0 := by
  unfold rowDot
  rw [gfSum_congr _ _ (fun _ => (0 : GFElement)) (by
    intro c hc
    rw [List.mem_range] at hc
    rw [h c hc, gf16_zero_mul])]
  exact gfSum_zero _

theorem rowDot_scaled {A B : GFMatrix} {r nVars : Nat} (f : GFElement)
    (x : List GFElement)
    (h : ∀ c, c < nVars → A.uget r c = gf16_mul (B.uget r c) f) :
    rowDot A r nVars x = gf16_mul f (rowDot B r nVars x) := by
  unfold rowDot
  rw [gfSum_congr _ _
      (fun c => gf16_mul f (gf16_mul (B.uget r c) (x.getD c 0)))
      (by
        intro c hc
        rw [List.mem_range] at hc
        rw [h c hc, gf16_mul_comm (B.uget r c) f, gf16_mul_assoc])]
  exact gfSum_mul_left _ _ _

theorem rowDot_sub_mul {A B : GFMatrix} {rT rP nVars : Nat} (f : GFElement)
    (x : List GFElement)
    (h : ∀ c, c < nVars → A.uget rT c =
      gf16_sub (B.uget rT c) (gf16_mul f (B.uget rP c))) :
    rowDot A rT nVars x =
      gf16_sub (rowDot B rT nVars x) (gf16_mul f (rowDot B rP nVars x)) := by
  unfold rowDot
  rw [gfSum_congr _ _
      (fun c => gf16_add (gf16_mul (B.uget rT c) (x.getD c 0))
        (gf16_mul f (gf16_mul (B.uget rP c) (x.getD c 0))))
      (by
        intro c hc
        rw [List.mem_range] at hc
        rw [h c hc, gf16_sub_eq_add, gf16_add_mul, gf16_mul_assoc])]
  rw [gfSum_add_split, gfSum_mul_left, gf16_sub_eq_add]

theorem buildAug_get {a : GFMatrix} {y : List GFElement} {r c : Nat}
    (hr : r < a.rows) (hc : c < a.cols + 1) :
    (buildAug a y).uget r c =
      if c < a.cols then a.uget r c else y.getD r 0 :=
  mkMat_get _ _ _ hr hc

theorem matrix_vec_mul_ok {a : GFMatrix} {x : List GFElement} (h : a.cols = x.length) :
    matrix_vec_mul a x = .ok ((List.range a.rows).map (fun r =>
      gfSum ((List.range a.cols).map
        (fun c => gf16_mul (a.uget r c) (x.getD c 0))))) := by
  unfold matrix_vec_mul
  rw [if_neg (by omega)]
  congr 1
  apply List.map_congr_left
  intro r _
  exact foldl_add_as_gfSum _ _

/-- The augmented system of `[A | y]` is satisfied by `x` exactly when
`A · x = y` through the repository's `matrix_vec_mul`. -/
theorem satsAug_iff_matvec {a : GFMatrix} {y x : List GFElement}
    (hy : y.length = a.rows) (hx : x.length = a.cols) :
    SatsAug (buildAug a y) a.rows a.cols x ↔ matrix_vec_mul a x = .ok y := by
  have hrow : ∀ r, r < a.rows → rowDot (buildAug a y) r a.cols x =
      gfSum ((List.range a.cols).map
        (fun c => gf16_mul (a.uget r c) (x.getD c 0))) := by
    intro r hr
    unfold rowDot
    apply gfSum_congr
    intro c hc
    rw [List.mem_range] at hc
    rw [buildAug_get hr (by omega), if_pos hc]
  have hrhs : ∀ r, r < a.rows →
      (buildAug a y).uget r a.cols = y.getD r 0 := by
    intro r hr
    rw [buildAug_get hr (by omega), if_neg (by omega)]
  rw [matrix_vec_mul_ok (by omega)]
  constructor
  · intro hs
    congr 1
    apply List.ext_getElem (by simp [hy])
    intro r h1 h2
    have hr : r < a.rows := by simpa using h1
    rw [List.getElem_map, List.getElem_range]
    have := hs r hr
    rw [hrow r hr, hrhs r hr] at this
    rw [this, List.getD_eq_getElem y 0 (by omega)]
  · intro heq r hr
    have hlist := Except.ok.inj heq
    rw [hrow r hr, hrhs r hr]
    have h1 : r < ((List.range a.rows).map (fun r =>
        gfSum ((List.range a.cols).map
          (fun c => gf16_mul (a.uget r c) (x.getD c 0))))).length := by
      simpa using hr
    have := congrArg (fun l => l.getD r (0 : GFElement)) hlist
    simp only at this
    rw [List.getD_eq_getElem _ _ h1, List.getElem_map, List.getElem_range] at this
    rw [this]

end Mayo

namespace Mayo

/-- The invariant carried through the forward elimination: dimensions,
solution-set preservation, the zero block left of the pivot column in
the rows at and below the pivot row, and the staircase of
already-normalised pivot rows. -/
structure FwdInv (aug0 : GFMatrix) (mEq nVars : Nat)
    (st : GFMatrix × Nat) (pivotCol : Nat) : Prop where
  hrows : st.1.rows = mEq
  hcols : st.1.cols = nVars + 1
  hwf : st.1.WF
  hpr : st.2 ≤ mEq
  hequiv : ∀ x, SatsAug st.1 mEq nVars x ↔ SatsAug aug0 mEq nVars x
  hzero : ∀ r, st.2 ≤ r → r < mEq → ∀ c, c < pivotCol → c < nVars + 1 →
    st.1.uget r c = 0
  hpivots : ∃ pcs : Nat → Nat,
    (∀ i j, i < j → j < st.2 → pcs i < pcs j) ∧
    (∀ i, i < st.2 → pcs i < pivotCol ∧ pcs i < nVars) ∧
    (∀ i, i < st.2 → st.1.uget i (pcs i) = 1 ∧
      ∀ c, c < pcs i → st.1.uget i c = 0)

/-- Symbolic evaluation of `forwardStep` in the pivot-found case. -/
theorem forwardStep_eq_of_found {mEq : Nat} {st : GFMatrix × Nat} {pc : Nat}
    (hge : ¬ st.2 ≥ mEq) (hipm : findPivotFrom st.1 pc mEq st.2 < mEq)
    {iv : GFElement}
    (hinvok : gf16_inv ((if findPivotFrom st.1 pc mEq st.2 ≠ st.2 then
        swapRowsFrom st.1 st.2 (findPivotFrom st.1 pc mEq st.2) pc
        else st.1).uget st.2 pc) = .ok iv) :
    forwardStep mEq st pc = .ok
      (elimOtherRows (scaleRowFrom (if findPivotFrom st.1 pc mEq st.2 ≠ st.2 then
          swapRowsFrom st.1 st.2 (findPivotFrom st.1 pc mEq st.2) pc
          else st.1) st.2 pc iv) st.2 pc mEq, st.2 + 1) := by
  unfold forwardStep
  rw [if_neg hge]
  simp only []
  rw [if_pos hipm, hinvok]

theorem forwardStep_inv {aug0 : GFMatrix} {mEq nVars : Nat}
    {st : GFMatrix × Nat} {pc : Nat} (hpc : pc < nVars)
    (hinv : FwdInv aug0 mEq nVars st pc) :
    ∃ st', forwardStep mEq st pc = .ok st' ∧ FwdInv aug0 mEq nVars st' (pc + 1) := by
  obtain ⟨hrows, hcols, hwf, hpr, hequiv, hzero, pcs, hmono, hlt, hlead⟩ := hinv
  by_cases hge : st.2 ≥ mEq
  · refine ⟨st, by unfold forwardStep; rw [if_pos hge], ?_⟩
    refine ⟨hrows, hcols, hwf, hpr, hequiv, ?_, pcs, hmono, ?_, hlead⟩
    · intro r h1 h2 c _ _
      exact absurd h2 (by omega)
    · intro i hi
      obtain ⟨a, b⟩ := hlt i hi
      exact ⟨by omega, b⟩
  · have hprlt : st.2 < mEq := by omega
    obtain ⟨hip1, hip2, hip3, hip4⟩ := findPivotFrom_spec st.1 pc mEq st.2 (by omega)
    by_cases hipm : findPivotFrom st.1 pc mEq st.2 < mEq
    · -- a pivot was found at row `ip`; swap, normalise, eliminate
      set ip := findPivotFrom st.1 pc mEq st.2 with hipdef
      set A1 := (if ip ≠ st.2 then swapRowsFrom st.1 st.2 ip pc else st.1) with hA1def
      set pv := A1.uget st.2 pc with hpvdef
      set iv := gf16_pow pv 14 with hivdef
      set A2 := scaleRowFrom A1 st.2 pc iv with hA2def
      set A3 := elimOtherRows A2 st.2 pc mEq with hA3def
      have hA1dims : A1.rows = st.1.rows ∧ A1.cols = st.1.cols ∧
          A1.data.length = st.1.data.length := by
        rw [hA1def]
        by_cases h : ip ≠ st.2
        · rw [if_pos h]; exact swapRowsFrom_dims _ _ _ _
        · rw [if_neg h]; exact ⟨rfl, rfl, rfl⟩
      have hA1rows : A1.rows = mEq := hA1dims.1.trans hrows
      have hA1cols : A1.cols = nVars + 1 := hA1dims.2.1.trans hcols
      have hA1wf : A1.WF := by
        unfold GFMatrix.WF
        rw [hA1dims.1, hA1dims.2.1, hA1dims.2.2]
        exact hwf
      have hA1get : ∀ r k, r < mEq → k < nVars + 1 → A1.uget r k =
          if pc ≤ k then (if r = st.2 then st.1.uget ip k
            else if r = ip then st.1.uget st.2 k else st.1.uget r k)
          else st.1.uget r k := by
        intro r k hr hk
        rw [hA1def]
        by_cases h : ip ≠ st.2
        · rw [if_pos h,
            swapRowsFrom_get hwf (show st.2 < st.1.rows by rw [hrows]; exact hprlt)
              (show ip < st.1.rows by rw [hrows]; exact hipm)
              (show r < st.1.rows by rw [hrows]; exact hr)
              (show k < st.1.cols by rw [hcols]; exact hk)]
        · have h' : ip = st.2 := not_not.mp h
          rw [if_neg h, h']
          by_cases hck : pc ≤ k
          · rw [if_pos hck]
            by_cases hr2 : r = st.2
            · rw [if_pos hr2, hr2]
            · rw [if_neg hr2, if_neg hr2]
          · rw [if_neg hck]
      have hpvne : pv ≠ 0 := by
        rw [hpvdef, hA1get st.2 pc hprlt (by omega), if_pos (Nat.le_refl pc), if_pos rfl]
        exact hip4 hipm
      have hinvok : gf16_inv pv = .ok iv := by
        rw [hivdef]
        unfold gf16_inv
        have hv0 : ((0 : GFElement)).val = 0 := rfl
        rw [if_neg (fun h0 => hpvne (Fin.ext (h0.trans hv0.symm)))]
      have hmulinv : gf16_mul pv iv = 1 ∧ iv ≠ 0 := by
        rw [hivdef]
        exact gf16_pow14_mul pv hpvne
      have hA2dims := scaleRowFrom_dims A1 st.2 pc iv
      have hA2rows : A2.rows = mEq := by rw [hA2def]; exact hA2dims.1.trans hA1rows
      have hA2cols : A2.cols = nVars + 1 := by rw [hA2def]; exact hA2dims.2.1.trans hA1cols
      have hA2wf : A2.WF := by
        rw [hA2def]
        unfold GFMatrix.WF
        rw [hA2dims.1, hA2dims.2.1, hA2dims.2.2]
        exact hA1wf
      have hA2get : ∀ r k, r < mEq → k < nVars + 1 → A2.uget r k =
          if r = st.2 ∧ pc ≤ k then gf16_mul (A1.uget st.2 k) iv
          else A1.uget r k := by
        intro r k hr hk
        rw [hA2def,
          scaleRowFrom_get hA1wf (show st.2 < A1.rows by rw [hA1rows]; exact hprlt) iv
            (show r < A1.rows by rw [hA1rows]; exact hr)
            (show k < A1.cols by rw [hA1cols]; exact hk)]
      have hA3get : ∀ r k, r < mEq → k < nVars + 1 → A3.uget r k =
          if r ≠ st.2 ∧ A2.uget r pc ≠ 0 ∧ pc ≤ k then
            gf16_sub (A2.uget r k)
              (gf16_mul (A2.uget r pc) (A2.uget st.2 k))
          else A2.uget r k := by
        intro r k hr hk
        rw [hA3def]
        exact elimOtherRows_get hA2wf hA2rows.symm
          (show st.2 < A2.rows by rw [hA2rows]; exact hprlt)
          (show pc < A2.cols by rw [hA2cols]; omega)
          (show r < A2.rows by rw [hA2rows]; exact hr)
          (show k < A2.cols by rw [hA2cols]; exact hk)
      have hA3dims := elimOtherRows_dims A2 st.2 pc mEq
      have hA3rows : A3.rows = mEq := by rw [hA3def]; exact hA3dims.1.trans hA2rows
      have hA3cols : A3.cols = nVars + 1 := by rw [hA3def]; exact hA3dims.2.1.trans hA2cols
      have hA3wf : A3.WF := by
        rw [hA3def]
        unfold GFMatrix.WF
        rw [hA3dims.1, hA3dims.2.1, hA3dims.2.2]
        exact hA2wf
      -- row-level descriptions
      have hA1row_swap : ∀ k, k < nVars + 1 →
          A1.uget st.2 k = st.1.uget ip k := by
        intro k hk
        rw [hA1get st.2 k hprlt hk]
        by_cases hck : pc ≤ k
        · rw [if_pos hck, if_pos rfl]
        · rw [if_neg hck, hzero st.2 (Nat.le_refl _) hprlt k (by omega) hk,
            hzero ip hip1 hipm k (by omega) hk]
      have hA1row_swap2 : ∀ k, k < nVars + 1 →
          A1.uget ip k = st.1.uget st.2 k := by
        intro k hk
        rw [hA1get ip k hipm hk]
        by_cases hck : pc ≤ k
        · rw [if_pos hck]
          by_cases hieq : ip = st.2
          · rw [if_pos hieq, hieq]
          · rw [if_neg hieq, if_pos rfl]
        · rw [if_neg hck, hzero ip hip1 hipm k (by omega) hk,
            hzero st.2 (Nat.le_refl _) hprlt k (by omega) hk]
      have hA1row_other : ∀ r k, r < mEq → k < nVars + 1 → r ≠ st.2 → r ≠ ip →
          A1.uget r k = st.1.uget r k := by
        intro r k hr hk h1 h2
        rw [hA1get r k hr hk]
        by_cases hck : pc ≤ k
        · rw [if_pos hck, if_neg h1, if_neg h2]
        · rw [if_neg hck]
      have hA2row_pr : ∀ k, k < nVars + 1 →
          A2.uget st.2 k = gf16_mul (A1.uget st.2 k) iv := by
        intro k hk
        by_cases hck : pc ≤ k
        · rw [hA2get st.2 k hprlt hk, if_pos ⟨rfl, hck⟩]
        · rw [hA2get st.2 k hprlt hk, if_neg (fun hcon => hck hcon.2)]
          have hz : A1.uget st.2 k = 0 := by
            rw [hA1row_swap k hk]
            exact hzero ip hip1 hipm k (by omega) hk
          rw [hz, gf16_zero_mul]
      have hA2row_other : ∀ r k, r < mEq → k < nVars + 1 → r ≠ st.2 →
          A2.uget r k = A1.uget r k := by
        intro r k hr hk hrne
        rw [hA2get r k hr hk, if_neg (fun hcon => hrne hcon.1)]
      have hA2pivot : A2.uget st.2 pc = 1 := by
        rw [hA2get st.2 pc hprlt (by omega), if_pos ⟨rfl, Nat.le_refl pc⟩, ← hpvdef,
          hmulinv.1]
      have hA2row_pr_low : ∀ k, k < pc → k < nVars + 1 → A2.uget st.2 k = 0 := by
        intro k hk hk2
        rw [hA2row_pr k hk2]
        have hz : A1.uget st.2 k = 0 := by
          rw [hA1row_swap k hk2]
          exact hzero ip hip1 hipm k (by omega) hk2
        rw [hz, gf16_zero_mul]
      have hA3row_pr : ∀ k, k < nVars + 1 →
          A3.uget st.2 k = A2.uget st.2 k := by
        intro k hk
        rw [hA3get st.2 k hprlt hk, if_neg (fun hcon => hcon.1 rfl)]
      have hA3row_elim : ∀ r, r < mEq → r ≠ st.2 → ∀ k, k < nVars + 1 →
          A3.uget r k = gf16_sub (A2.uget r k)
            (gf16_mul (A2.uget r pc) (A2.uget st.2 k)) := by
        intro r hr hrne k hk
        by_cases hf : A2.uget r pc = 0
        · rw [hA3get r k hr hk, if_neg (fun hcon => hcon.2.1 hf), hf, gf16_zero_mul,
            gf16_sub_eq_add, gf16_add_zero]
        · by_cases hck : pc ≤ k
          · rw [hA3get r k hr hk, if_pos ⟨hrne, hf, hck⟩]
          · rw [hA3get r k hr hk, if_neg (fun hcon => hck hcon.2.2),
              hA2row_pr_low k (by omega) hk, gf16_mul_zero, gf16_sub_eq_add,
              gf16_add_zero]
      -- columns `< pc` are untouched by all three operations
      have hlow : ∀ r k, r < mEq → k < pc → k < nVars + 1 →
          A3.uget r k = st.1.uget r k := by
        intro r k hr hk hk2
        rw [hA3get r k hr hk2, if_neg (fun hcon => absurd hcon.2.2 (by omega)),
          hA2get r k hr hk2, if_neg (fun hcon => absurd hcon.2 (by omega)),
          hA1get r k hr hk2, if_neg (by omega)]
      -- the three solution-set-preservation equivalences
      have hE1 : ∀ x, SatsAug A1 mEq nVars x ↔ SatsAug st.1 mEq nVars x := by
        intro x
        have hswapN : ∀ c, c < nVars → A1.uget st.2 c = st.1.uget ip c :=
          fun c hc => hA1row_swap c (by omega)
        have hswap2N : ∀ c, c < nVars → A1.uget ip c = st.1.uget st.2 c :=
          fun c hc => hA1row_swap2 c (by omega)
        constructor
        · intro hs r hr
          by_cases h2 : r = st.2
          · rw [h2]
            have heq := hs ip hipm
            rw [rowDot_congr x hswap2N, hA1row_swap2 nVars (by omega)] at heq
            exact heq
          · by_cases h3 : r = ip
            · rw [h3]
              have heq := hs st.2 hprlt
              rw [rowDot_congr x hswapN, hA1row_swap nVars (by omega)] at heq
              exact heq
            · have hotherN : ∀ c, c < nVars →
                  A1.uget r c = st.1.uget r c :=
                fun c hc => hA1row_other r c hr (by omega) h2 h3
              have heq := hs r hr
              rw [rowDot_congr x hotherN, hA1row_other r nVars hr (by omega) h2 h3] at heq
              exact heq
        · intro hs r hr
          by_cases h2 : r = st.2
          · rw [h2, rowDot_congr x hswapN, hA1row_swap nVars (by omega)]
            exact hs ip hipm
          · by_cases h3 : r = ip
            · rw [h3, rowDot_congr x hswap2N, hA1row_swap2 nVars (by omega)]
              exact hs st.2 hprlt
            · have hotherN : ∀ c, c < nVars →
                  A1.uget r c = st.1.uget r c :=
                fun c hc => hA1row_other r c hr (by omega) h2 h3
              rw [rowDot_congr x hotherN, hA1row_other r nVars hr (by omega) h2 h3]
              exact hs r hr
      have hE2 : ∀ x, SatsAug A2 mEq nVars x ↔ SatsAug A1 mEq nVars x := by
        intro x
        have hscaledN : ∀ c, c < nVars →
            A2.uget st.2 c = gf16_mul (A1.uget st.2 c) iv :=
          fun c hc => hA2row_pr c (by omega)
        have hscaled : rowDot A2 st.2 nVars x = gf16_mul iv (rowDot A1 st.2 nVars x) :=
          rowDot_scaled iv x hscaledN
        constructor
        · intro hs r hr
          by_cases h2 : r = st.2
          · rw [h2]
            have heq := hs st.2 hprlt
            rw [hscaled, hA2row_pr nVars (by omega),
              gf16_mul_comm (A1.uget st.2 nVars) iv] at heq
            exact (gf16_mul_cancel iv _ _ hmulinv.2).mp heq
          · have hotherN : ∀ c, c < nVars → A2.uget r c = A1.uget r c :=
              fun c hc => hA2row_other r c hr (by omega) h2
            have heq := hs r hr
            rw [rowDot_congr x hotherN, hA2row_other r nVars hr (by omega) h2] at heq
            exact heq
        · intro hs r hr
          by_cases h2 : r = st.2
          · rw [h2, hscaled, hA2row_pr nVars (by omega), hs st.2 hprlt, gf16_mul_comm]
          · have hotherN : ∀ c, c < nVars → A2.uget r c = A1.uget r c :=
              fun c hc => hA2row_other r c hr (by omega) h2
            rw [rowDot_congr x hotherN, hA2row_other r nVars hr (by omega) h2]
            exact hs r hr
      have hE3 : ∀ x, SatsAug A3 mEq nVars x ↔ SatsAug A2 mEq nVars x := by
        intro x
        have hprN : ∀ c, c < nVars → A3.uget st.2 c = A2.uget st.2 c :=
          fun c hc => hA3row_pr c (by omega)
        have hPdot : rowDot A3 st.2 nVars x = rowDot A2 st.2 nVars x :=
          rowDot_congr x hprN
        constructor
        · intro hs r hr
          have heqP : rowDot A2 st.2 nVars x = A2.uget st.2 nVars := by
            have h0 := hs st.2 hprlt
            rw [hPdot, hA3row_pr nVars (by omega)] at h0
            exact h0
          by_cases h2 : r = st.2
          · rw [h2]
            exact heqP
          · have helimN : ∀ c, c < nVars → A3.uget r c =
                gf16_sub (A2.uget r c)
                  (gf16_mul (A2.uget r pc) (A2.uget st.2 c)) :=
              fun c hc => hA3row_elim r hr h2 c (by omega)
            have heq := hs r hr
            rw [rowDot_sub_mul (A2.uget r pc) x helimN,
              hA3row_elim r hr h2 nVars (by omega), heqP,
              gf16_sub_eq_add, gf16_sub_eq_add] at heq
            exact (gf16_add_cancel _ _ _).mp heq
        · intro hs r hr
          by_cases h2 : r = st.2
          · rw [h2, hPdot, hA3row_pr nVars (by omega)]
            exact hs st.2 hprlt
          · have helimN : ∀ c, c < nVars → A3.uget r c =
                gf16_sub (A2.uget r c)
                  (gf16_mul (A2.uget r pc) (A2.uget st.2 c)) :=
              fun c hc => hA3row_elim r hr h2 c (by omega)
            rw [rowDot_sub_mul (A2.uget r pc) x helimN,
              hA3row_elim r hr h2 nVars (by omega), hs st.2 hprlt, hs r hr]
      -- assemble the new invariant
      refine ⟨(A3, st.2 + 1), forwardStep_eq_of_found hge hipm hinvok, ?_⟩
      refine ⟨hA3rows, hA3cols, hA3wf, by omega,
        (fun x => (hE3 x).trans ((hE2 x).trans ((hE1 x).trans (hequiv x)))), ?_,
        (fun j => if j = st.2 then pc else pcs j), ?_, ?_, ?_⟩
      · -- hzero at pc + 1
        intro r h1 h2 c hc1 hc2
        by_cases hcp : c < pc
        · rw [hlow r c h2 hcp hc2]
          exact hzero r (by omega) h2 c hcp hc2
        · have hceq : c = pc := by omega
          rw [hceq, hA3row_elim r h2 (by omega) pc (by omega), hA2pivot, gf16_mul_one,
            gf16_sub_eq_add, gf16_add_self]
      · -- pivot columns strictly increase
        intro i j hij hj
        simp only []
        by_cases hjp : j = st.2
        · rw [hjp, if_pos rfl, if_neg (show i ≠ st.2 by omega)]
          exact (hlt i (by omega)).1
        · have hj' : j < st.2 := by omega
          rw [if_neg (show i ≠ st.2 by omega), if_neg hjp]
          exact hmono i j hij hj'
      · -- pivot columns bounded
        intro i hi
        simp only []
        by_cases hip' : i = st.2
        · rw [hip', if_pos rfl]
          exact ⟨by omega, hpc⟩
        · rw [if_neg hip']
          obtain ⟨a, b⟩ := hlt i (by omega)
          exact ⟨by omega, b⟩
      · -- leading ones with zeros before them
        intro i hi
        simp only []
        by_cases hip' : i = st.2
        · rw [hip', if_pos rfl]
          constructor
          · rw [hA3row_pr pc (by omega)]
            exact hA2pivot
          · intro c hc
            rw [hA3row_pr c (by omega)]
            exact hA2row_pr_low c hc (by omega)
        · rw [if_neg hip']
          have hi' : i < st.2 := by omega
          obtain ⟨hone, hzeros⟩ := hlead i hi'
          obtain ⟨hlt1, hlt2⟩ := hlt i hi'
          constructor
          · rw [hlow i (pcs i) (by omega) hlt1 (by omega)]
            exact hone
          · intro c hc
            rw [hlow i c (by omega) (by omega) (by omega)]
            exact hzeros c hc
    · -- no pivot in this column: the state is unchanged, the column is free
      refine ⟨st, ?_, ?_⟩
      · unfold forwardStep
        rw [if_neg hge]
        simp only []
        rw [if_neg hipm]
      · refine ⟨hrows, hcols, hwf, hpr, hequiv, ?_, pcs, hmono, ?_, hlead⟩
        · intro r h1 h2 c hc1 hc2
          by_cases hcp : c < pc
          · exact hzero r h1 h2 c hcp hc2
          · have hcpc : c = pc := by omega
            rw [hcpc]
            exact hip3 r h1 (by omega)
        · intro i hi
          obtain ⟨a, b⟩ := hlt i hi
          exact ⟨by omega, b⟩

end Mayo

namespace Mayo

theorem foldl_sub_as_gfSum {α : Type} (l : List α) (f : α → GFElement) (v0 : GFElement) :
    l.foldl (fun v c => gf16_sub v (f c)) v0 = gf16_sub v0 (gfSum (l.map f)) := by
  induction l generalizing v0 with
  | nil => simp [gfSum_nil, gf16_sub_eq_add, gf16_add_zero]
  | cons hd tl ih =>
    simp only [List.foldl_cons, List.map_cons, gfSum_cons]
    rw [ih, gf16_sub_eq_add, gf16_sub_eq_add, gf16_sub_eq_add, gf16_add_assoc]

theorem range_split (n p : Nat) (hp : p < n) :
    List.range n = List.range' 0 p ++ p :: List.range' (p + 1) (n - (p + 1)) := by
  rw [List.range_eq_range']
  have h2 : p :: List.range' (p + 1) (n - (p + 1)) = List.range' p (n - p) := by
    have h1 : n - p = (n - (p + 1)) + 1 := by omega
    rw [h1, List.range'_succ]
  rw [h2]
  have h3 := List.range'_append 0 p (n - p) 1
  simp only [Nat.one_mul, Nat.zero_add] at h3
  rw [h3, Nat.sub_add_cancel (by omega)]

/-- Folding the forward step over consecutive columns preserves the
invariant and never errors. -/
theorem forward_fold_inv {aug0 : GFMatrix} {mEq nVars : Nat} :
    ∀ (len start : Nat) (st : GFMatrix × Nat), start + len = nVars →
      FwdInv aug0 mEq nVars st start →
      ∃ st', (List.range' start len).foldlM (forwardStep mEq) st = .ok st' ∧
        FwdInv aug0 mEq nVars st' nVars := by
  intro len
  induction len with
  | zero =>
    intro start st h hinv
    have hse : start = nVars := by omega
    subst hse
    exact ⟨st, rfl, hinv⟩
  | succ len ih =>
    intro start st h hinv
    rw [List.range'_succ]
    obtain ⟨st1, hstep, hinv1⟩ := forwardStep_inv (show start < nVars by omega) hinv
    rw [List.foldlM_cons, hstep]
    have hbind : (do
        let init ← (Except.ok st1 : Except String (GFMatrix × Nat))
        (List.range' (start + 1) len).foldlM (forwardStep mEq) init) =
        (List.range' (start + 1) len).foldlM (forwardStep mEq) st1 := rfl
    rw [hbind]
    exact ih (start + 1) st1 (by omega) hinv1

theorem backSubst_foldl_length (augF : GFMatrix) (nVars : Nat) :
    ∀ (rs : List Nat) (s : List GFElement),
      (rs.foldl (backSubstStep augF nVars) s).length = s.length := by
  intro rs
  induction rs with
  | nil => intro s; rfl
  | cons hd tl ih =>
    intro s
    rw [List.foldl_cons, ih]
    unfold backSubstStep
    simp [List.length_set]

theorem backSubst_length (augF : GFMatrix) (rank nVars : Nat) :
    (backSubst augF rank nVars).length = nVars := by
  unfold backSubst
  rw [backSubst_foldl_length, List.length_replicate]

/-- Uniqueness of the leading-column scan: if row `r` is zero before
`p0` and nonzero at `p0 < nVars`, the scan returns `p0`. -/
theorem findLeadFrom_eq {augF : GFMatrix} {r nVars p0 : Nat} (hp0 : p0 < nVars)
    (hz : ∀ q, q < p0 → augF.uget r q = 0)
    (hnz : augF.uget r p0 ≠ 0) :
    findLeadFrom augF r nVars 0 = p0 := by
  obtain ⟨h1, h2, h3⟩ := findLeadFrom_spec augF r nVars
  by_cases hlt : findLeadFrom augF r nVars 0 < p0
  · exact absurd (h3 (by omega)) (fun hcon => hcon (hz _ hlt))
  · by_cases hgt : p0 < findLeadFrom augF r nVars 0
    · exact absurd (h2 p0 hgt) hnz
    · omega

/-- Correctness of the back-substitution: the produced vector satisfies
every pivot-row equation of the reduced system. -/
theorem backSubst_sats {augF : GFMatrix} {nVars rank : Nat}
    (pcs : Nat → Nat)
    (hmono : ∀ i j, i < j → j < rank → pcs i < pcs j)
    (hlt : ∀ i, i < rank → pcs i < nVars)
    (hlead : ∀ i, i < rank → augF.uget i (pcs i) = 1 ∧
      ∀ c, c < pcs i → augF.uget i c = 0) :
    ∀ r, r < rank → rowDot augF r nVars (backSubst augF rank nVars) =
      augF.uget r nVars := by
  have key : ∀ n (j : Nat), j + n = rank →
      (((List.range' j n).reverse).foldl (backSubstStep augF nVars)
          (List.replicate nVars 0)).length = nVars ∧
      (∀ r, j ≤ r → r < rank →
        rowDot augF r nVars (((List.range' j n).reverse).foldl
          (backSubstStep augF nVars) (List.replicate nVars 0)) =
        augF.uget r nVars) := by
    intro n
    induction n with
    | zero =>
      intro j hj
      refine ⟨by simp, ?_⟩
      intro r h1 h2
      exact absurd h2 (by omega)
    | succ n ih =>
      intro j hj
      obtain ⟨ihlen, iheq⟩ := ih (j + 1) (by omega)
      rw [List.range'_succ, List.reverse_cons, List.foldl_append, List.foldl_cons,
        List.foldl_nil]
      set sPrev := ((List.range' (j + 1) n).reverse).foldl (backSubstStep augF nVars)
        (List.replicate nVars 0) with hsPrev
      have hjrank : j < rank := by omega
      have hpcsj : pcs j < nVars := hlt j hjrank
      obtain ⟨hone, hzeros⟩ := hlead j hjrank
      have hfind : findLeadFrom augF j nVars 0 = pcs j :=
        findLeadFrom_eq hpcsj hzeros (by rw [hone]; decide)
      -- unfold the step
      have hstep : backSubstStep augF nVars sPrev j =
          sPrev.set (pcs j) (gf16_sub (augF.uget j nVars)
            (gfSum ((List.range' (pcs j + 1) (nVars - (pcs j + 1))).map
              (fun c => gf16_mul (augF.uget j c) (sPrev.getD c 0))))) := by
        simp only [backSubstStep, hfind, foldl_sub_as_gfSum]
      rw [hstep]
      set T := gfSum ((List.range' (pcs j + 1) (nVars - (pcs j + 1))).map
        (fun c => gf16_mul (augF.uget j c) (sPrev.getD c 0))) with hT
      set sNew := sPrev.set (pcs j) (gf16_sub (augF.uget j nVars) T) with hsNew
      have hlenNew : sNew.length = nVars := by
        rw [hsNew, List.length_set, ihlen]
      refine ⟨hlenNew, ?_⟩
      have hgetNew : ∀ c, c ≠ pcs j → sNew.getD c 0 = sPrev.getD c 0 := by
        intro c hc
        rw [hsNew, getD_set_list, if_neg (fun hcon => hc hcon.1)]
      have hgetPivot : sNew.getD (pcs j) 0 = gf16_sub (augF.uget j nVars) T := by
        rw [hsNew, getD_set_list, if_pos ⟨rfl, by rw [ihlen]; exact hpcsj⟩]
      intro r h1 h2
      by_cases hrj : r = j
      · -- the newly processed row: its equation holds by construction
        rw [hrj]
        unfold rowDot
        rw [range_split nVars (pcs j) hpcsj, List.map_append, gfSum_append,
          List.map_cons, gfSum_cons]
        have hS1 : gfSum ((List.range' 0 (pcs j)).map
            (fun c => gf16_mul (augF.uget j c) (sNew.getD c 0))) = 0 := by
          rw [gfSum_congr _ _ (fun _ => (0 : GFElement)) (by
            intro c hc
            rw [List.mem_range'_1] at hc
            rw [hzeros c (by omega), gf16_zero_mul])]
          exact gfSum_zero _
        have hS2 : gfSum ((List.range' (pcs j + 1) (nVars - (pcs j + 1))).map
            (fun c => gf16_mul (augF.uget j c) (sNew.getD c 0))) = T := by
          rw [hT]
          apply gfSum_congr
          intro c hc
          rw [List.mem_range'_1] at hc
          rw [hgetNew c (by omega)]
        rw [hS1, hS2, hone, gf16_one_mul, hgetPivot, gf16_zero_add, gf16_sub_eq_add,
          gf16_add_assoc, gf16_add_self, gf16_add_zero]
      · -- previously processed rows: the update column has a zero
        -- coefficient there, so their equations are untouched
        have hrj' : j + 1 ≤ r := by omega
        have hco : ∀ c, c < nVars →
            gf16_mul (augF.uget r c) (sNew.getD c 0) =
            gf16_mul (augF.uget r c) (sPrev.getD c 0) := by
          intro c hc
          by_cases hcp : c = pcs j
          · have hzc : augF.uget r c = 0 := by
              rw [hcp]
              exact (hlead r h2).2 (pcs j) (hmono j r (by omega) h2)
            rw [hzc, gf16_zero_mul, gf16_zero_mul]
          · rw [hgetNew c hcp]
        have hprev := iheq r hrj' h2
        unfold rowDot at hprev ⊢
        have hcongr : gfSum ((List.range nVars).map
            (fun c => gf16_mul (augF.uget r c) (sNew.getD c 0))) =
            gfSum ((List.range nVars).map
            (fun c => gf16_mul (augF.uget r c) (sPrev.getD c 0))) := by
          apply gfSum_congr
          intro c hc
          rw [List.mem_range] at hc
          exact hco c hc
        rw [hcongr]
        exact hprev
  intro r hr
  unfold backSubst
  have h0 := (key rank 0 (by omega)).2 r (by omega) hr
  rw [List.range_eq_range']
  exact h0

end Mayo

namespace Mayo

/-- The invariant holds at the start of the forward elimination. -/
theorem fwdInv_init (a : GFMatrix) (y : List GFElement) :
    FwdInv (buildAug a y) a.rows a.cols (buildAug a y, 0) 0 where
  hrows := mkMat_rows _ _ _
  hcols := mkMat_cols _ _ _
  hwf := mkMat_wf _ _ _
  hpr := Nat.zero_le _
  hequiv := fun _ => Iff.rfl
  hzero := fun _ _ _ c hc _ => absurd hc (by omega)
  hpivots := ⟨fun _ => 0, fun _ _ _ h => absurd h (by omega),
    fun _ h => absurd h (by omega), fun _ h => absurd h (by omega)⟩

theorem solve_eq_of_fold {a : GFMatrix} {y : List GFElement}
    {augF : GFMatrix} {rank : Nat} (hy : y.length = a.rows)
    (hfold : (List.range a.cols).foldlM (forwardStep a.rows)
      (buildAug a y, 0) = .ok (augF, rank)) :
    solve_linear_system a y =
      if (List.range' rank (a.rows - rank)).any
          (fun r => decide (augF.uget r a.cols ≠ 0)) then
        .ok none
      else .ok (some (backSubst augF rank a.cols)) := by
  unfold solve_linear_system
  rw [if_neg (by omega), hfold]

/-- Full functional specification of `solve_linear_system` on well-formed
inputs: it never errors, and it returns `some x` for an actual solution
of `A · x = y` exactly when one exists, `none` when the system is
inconsistent. -/
theorem solve_spec {a : GFMatrix} {y : List GFElement}
    (hy : y.length = a.rows) :
    (∃ x, solve_linear_system a y = .ok (some x) ∧ x.length = a.cols ∧
      matrix_vec_mul a x = .ok y) ∨
    (solve_linear_system a y = .ok none ∧
      ∀ x, x.length = a.cols → matrix_vec_mul a x ≠ .ok y) := by
  obtain ⟨st', hfold, hinvF⟩ := forward_fold_inv a.cols 0 (buildAug a y, 0)
    (by omega) (fwdInv_init a y)
  rw [← List.range_eq_range'] at hfold
  obtain ⟨augF, rank⟩ := st'
  obtain ⟨hrows, hcols, hwfF, hpr, hequiv, hzero, pcs, hmono, hlt, hlead⟩ := hinvF
  have hsolve := solve_eq_of_fold hy hfold
  by_cases hany : (List.range' rank (a.rows - rank)).any
      (fun r => decide (augF.uget r a.cols ≠ 0)) = true
  · -- inconsistent row found: no solution exists
    right
    rw [hsolve, if_pos hany]
    refine ⟨rfl, ?_⟩
    intro x hx hcon
    obtain ⟨r, hrmem, hrprop⟩ := List.any_eq_true.mp hany
    rw [List.mem_range'_1] at hrmem
    have hrnz : augF.uget r a.cols ≠ 0 := of_decide_eq_true hrprop
    have hsats0 : SatsAug (buildAug a y) a.rows a.cols x :=
      (satsAug_iff_matvec hy hx).mpr hcon
    have hsatsF : SatsAug augF a.rows a.cols x := (hequiv x).mpr hsats0
    have hzr : rowDot augF r a.cols x = 0 := by
      apply rowDot_zero_row
      intro c hc
      exact hzero r (by omega) (by omega) c hc (by omega)
    have := hsatsF r (by omega)
    rw [hzr] at this
    exact hrnz this.symm
  · -- consistent: back-substitution produces a solution
    left
    rw [hsolve, if_neg hany]
    refine ⟨backSubst augF rank a.cols, rfl, backSubst_length _ _ _, ?_⟩
    have hallz : ∀ r, rank ≤ r → r < a.rows → augF.uget r a.cols = 0 := by
      intro r h1 h2
      by_contra hne
      exact hany (List.any_eq_true.mpr ⟨r, List.mem_range'_1.mpr ⟨h1, by omega⟩,
        decide_eq_true hne⟩)
    have hsatsF : SatsAug augF a.rows a.cols (backSubst augF rank a.cols) := by
      intro r hr
      by_cases hrr : r < rank
      · exact backSubst_sats pcs hmono (fun i hi => (hlt i hi).2)
          hlead r hrr
      · rw [hallz r (by omega) hr]
        apply rowDot_zero_row
        intro c hc
        exact hzero r (by omega) hr c hc (by omega)
    exact (satsAug_iff_matvec hy (backSubst_length _ _ _)).mp ((hequiv _).mp hsatsF)

end Mayo

namespace Mayo

/-! ## Primitive byte streams (external crates)

The repository consumes three primitives that are not its own code: the
SHAKE256 XOF (`sha3` crate), the AES-128-CTR keystream (`aes` + `ctr`
crates) and the OS randomness source (`getrandom`).  Each is a
deterministic function of its input that the code reads as a sequential
byte stream from position 0, so each is modelled as an arbitrary stream
`List Nat → Nat → Nat` (input bytes ↦ position ↦ byte); the OS
randomness is one stream `Nat → Nat` read at an explicit, threaded
position.  The code only ever uses stream bytes through `& 0x0F`-style
masks or as opaque bytes, so `Nat` values are adequate. -/

structure PrimOracles where
  shake : List Nat → Nat → Nat
  aes : List Nat → Nat → Nat

/-- `len` sequential bytes of the stream `f` starting at `start` (the
`reader.read(&mut buf)` pattern). -/
def oracleRead (f : Nat → Nat) (start len : Nat) : List Nat :=
  (List.range' start len).map f

theorem oracleRead_length (f : Nat → Nat) (start len : Nat) :
    (oracleRead f start len).length = len := by
  unfold oracleRead
  rw [List.length_map, List.length_range']

/-! ## Hashing (`src/hash.rs`) -/

/-- `shake256_digest` (`src/hash.rs`): `digest_bytes` bytes of
SHAKE256(input). -/
def shake256_digest (O : PrimOracles) (input : List Nat) (params : MayoParams) :
    List Nat :=
  oracleRead (O.shake input) 0 params.variant.digest_bytes

/-- `shake256_xof_derive_pk_seed_and_o` (`src/hash.rs`): one XOF stream
over `seed`; the first `pk_seed_bytes` bytes are `seedpk`, the next
`o_bytes` bytes are `O_bytes`. -/
def shake256_xof_derive_pk_seed_and_o (O : PrimOracles) (seed : List Nat)
    (params : MayoParams) : List Nat × List Nat :=
  (oracleRead (O.shake seed) 0 params.variant.pk_seed_bytes,
   oracleRead (O.shake seed) params.variant.pk_seed_bytes params.variant.o_bytes)

/-- `shake256_xof_derive_p3` (`src/hash.rs`). -/
def shake256_xof_derive_p3 (O : PrimOracles) (seed_pk : List Nat)
    (params : MayoParams) : List Nat :=
  oracleRead (O.shake seed_pk) 0 params.variant.p3_bytes

/-- `shake256_derive_target_t` (`src/hash.rs`): SHAKE256 of
`m_digest ‖ salt`, reading `⌈m/2⌉` bytes. -/
def shake256_derive_target_t (O : PrimOracles) (m_digest salt : List Nat)
    (params : MayoParams) : List Nat :=
  oracleRead (O.shake (m_digest ++ salt)) 0
    (MayoParams.bytes_for_gf16_elements params.variant.m)

/-! ## AES-CTR derivations (`src/aes_ctr.rs`)

The Rust functions panic on a key of the wrong length; a panic is a
divergence of the Rust program and is modelled as an error value (no
claim depends on the error text of a panic). -/

/-- `aes128_ctr_generate` (`src/aes_ctr.rs`): `output_len` keystream
bytes under the 16-byte key, always from counter 0. -/
def aes128_ctr_generate (O : PrimOracles) (key_bytes : List Nat)
    (output_len : Nat) : Except String (List Nat) :=
  if key_bytes.length ≠ 16 then .error "AES-128 key must be 16 bytes"
  else .ok (oracleRead (O.aes key_bytes) 0 output_len)

/-- `derive_p1_bytes` (`src/aes_ctr.rs`). -/
def derive_p1_bytes (O : PrimOracles) (seed_pk : List Nat)
    (params : MayoVariantParams) : Except String (List Nat) :=
  if seed_pk.length ≠ params.pk_seed_bytes then
    .error "SeedPK length does not match params.pk_seed_bytes for AES-128 key"
  else aes128_ctr_generate O seed_pk params.p1_bytes

/-- `derive_p2_bytes` (`src/aes_ctr.rs`): same key and same starting
counter as `derive_p1_bytes`, different length. -/
def derive_p2_bytes (O : PrimOracles) (seed_pk : List Nat)
    (params : MayoVariantParams) : Except String (List Nat) :=
  if seed_pk.length ≠ params.pk_seed_bytes then
    .error "SeedPK length does not match params.pk_seed_bytes for AES-128 key"
  else aes128_ctr_generate O seed_pk params.p2_bytes

/-! ## Matrix/vector decoders (`src/codec.rs`) -/

/-- Error-propagating map, the model of the Rust
`for i in 0..m { ... push(f(i)?) }` loops. -/
def exceptMapList {α β : Type} (f : α → Except String β) :
    List α → Except String (List β)
  | [] => .ok []
  | a :: as =>
    match f a with
    | .error e => .error e
    | .ok b =>
      match exceptMapList f as with
      | .error e => .error e
      | .ok bs => .ok (b :: bs)

theorem exceptMapList_ok {α β : Type} (f : α → Except String β) (g : α → β) :
    ∀ (l : List α), (∀ a ∈ l, f a = .ok (g a)) →
      exceptMapList f l = .ok (l.map g) := by
  intro l
  induction l with
  | nil => intro _; rfl
  | cons hd tl ih =>
    intro h
    unfold exceptMapList
    rw [h hd (by simp), ih (fun a ha => h a (by simp [ha])), List.map_cons]

/-- `decode_o_matrix` (`src/codec.rs`): `(n-o) × o` from nibbles. -/
def decode_o_matrix (o_bytes : List Nat) (params : MayoVariantParams) :
    Except String GFMatrix :=
  let rows := params.n - params.o
  let cols := params.o
  let num_elements := rows * cols
  let expected_byte_len := (num_elements + 1) / 2
  if o_bytes.length < expected_byte_len then
    .error "Insufficient o_bytes to decode O matrix based on calculated dimensions"
  else match decode_gf_elements o_bytes num_elements with
    | .error e => .error e
    | .ok elements => .ok (GFMatrix.new_with_data rows cols elements)

/-- `decode_upper_triangular_matrix` (`src/codec.rs`): the `k`-th
element goes to the `k`-th upper-triangular slot in row-major order; for
`r ≤ c` that slot index is `r*size - r*(r-1)/2 + (c - r)` (the `r` full
rows above contribute `size + (size-1) + ⋯ + (size-r+1)` slots). -/
def decode_upper_triangular_matrix (elements : List GFElement) (size : Nat) :
    Except String GFMatrix :=
  if elements.length ≠ size * (size + 1) / 2 then
    .error "Incorrect number of elements for upper triangular matrix"
  else .ok (mkMat size size (fun r c =>
    if r ≤ c then elements.getD (r * size - r * (r - 1) / 2 + (c - r)) 0 else 0))

/-- The repository's own unit test of the triangular decoder
(`codec.rs: test_decode_upper_triangular`), checking the index
arithmetic of the embedding against the imperative Rust loop. -/
theorem decode_upper_triangular_matrix_example :
    decode_upper_triangular_matrix [1, 2, 3, 4, 5, 6] 3 =
      .ok ⟨[1, 2, 3, 0, 4, 5, 0, 0, 6], 3, 3⟩ := by decide

/-- `decode_p1_matrices` (`src/codec.rs`): `m` upper-triangular
`(n-o) × (n-o)` matrices from consecutive `p1_bytes / m`-byte chunks. -/
def decode_p1_matrices (p1_bytes : List Nat) (params : MayoVariantParams) :
    Except String (List GFMatrix) :=
  if p1_bytes.length ≠ params.p1_bytes then
    .error "p1_bytes length does not match params.p1_bytes field"
  else
    let bytes_per_p1_mat := params.p1_bytes / params.m
    let size_p1_mat := params.n - params.o
    let num_elements := size_p1_mat * (size_p1_mat + 1) / 2
    exceptMapList (fun i =>
      let mat_bytes := (p1_bytes.drop (i * bytes_per_p1_mat)).take bytes_per_p1_mat
      match decode_gf_elements mat_bytes num_elements with
      | .error e => .error e
      | .ok elements => decode_upper_triangular_matrix elements size_p1_mat)
      (List.range params.m)

/-- `decode_p2_matrices` (`src/codec.rs`): `m` full `(n-o) × o`
matrices. -/
def decode_p2_matrices (p2_bytes : List Nat) (params : MayoVariantParams) :
    Except String (List GFMatrix) :=
  if p2_bytes.length ≠ params.p2_bytes then
    .error "p2_bytes length does not match params.p2_bytes field"
  else
    let bytes_per_p2_mat := params.p2_bytes / params.m
    let rows_p2 := params.n - params.o
    let cols_p2 := params.o
    let num_elements := rows_p2 * cols_p2
    exceptMapList (fun i =>
      let mat_bytes := (p2_bytes.drop (i * bytes_per_p2_mat)).take bytes_per_p2_mat
      match decode_gf_elements mat_bytes num_elements with
      | .error e => .error e
      | .ok elements => .ok (GFMatrix.new_with_data rows_p2 cols_p2 elements))
      (List.range params.m)

/-- `decode_p3_matrices` (`src/codec.rs`): `m` upper-triangular
`o × o` matrices. -/
def decode_p3_matrices (p3_bytes : List Nat) (params : MayoVariantParams) :
    Except String (List GFMatrix) :=
  if p3_bytes.length ≠ params.p3_bytes then
    .error "p3_bytes length does not match params.p3_bytes field"
  else
    let bytes_per_p3_mat := params.p3_bytes / params.m
    let size_p3_mat := params.o
    let num_elements := size_p3_mat * (size_p3_mat + 1) / 2
    exceptMapList (fun i =>
      let mat_bytes := (p3_bytes.drop (i * bytes_per_p3_mat)).take bytes_per_p3_mat
      match decode_gf_elements mat_bytes num_elements with
      | .error e => .error e
      | .ok elements => decode_upper_triangular_matrix elements size_p3_mat)
      (List.range params.m)

/-- `decode_l_matrices` (`src/codec.rs`): one decode of
`m·(n-o)·o` nibbles, then split into `m` matrices. -/
def decode_l_matrices (l_bytes : List Nat) (params : MayoVariantParams) :
    Except String (List GFMatrix) :=
  let rows_l := params.n - params.o
  let cols_l := params.o
  let num_elements_per_l_mat := rows_l * cols_l
  let expected_total_elements := params.m * num_elements_per_l_mat
  match decode_gf_elements l_bytes expected_total_elements with
  | .error e => .error e
  | .ok elements => .ok ((List.range params.m).map (fun i =>
      GFMatrix.new_with_data rows_l cols_l
        ((elements.drop (i * num_elements_per_l_mat)).take num_elements_per_l_mat)))

/-- `encode_s_vector` (`src/codec.rs`): thin wrapper. -/
def encode_s_vector (s_vector : List GFElement) (_params : MayoVariantParams) :
    List Nat :=
  encode_gf_elements s_vector

/-- `decode_s_vector` (`src/codec.rs`): thin wrapper, `n` elements. -/
def decode_s_vector (s_bytes : List Nat) (params : MayoVariantParams) :
    Except String (List GFElement) :=
  decode_gf_elements s_bytes params.n

/-! ## Key generation (`src/keygen.rs`) -/

/-- `compact_key_gen` (`src/keygen.rs`): the OS randomness is the
stream `rng` read at position `idx`; returns `((csk, cpk), idx')` with
`idx'` the next unread position. -/
def compact_key_gen (O : PrimOracles) (rng : Nat → Nat) (idx : Nat)
    (params_enum : MayoParams) : Except String ((List Nat × List Nat) × Nat) :=
  let params := params_enum.variant
  let seedsk := oracleRead rng idx params.sk_seed_bytes
  let pr := shake256_xof_derive_pk_seed_and_o O seedsk params_enum
  let seedpk := pr.1
  let p3_bytes := shake256_xof_derive_p3 O seedpk params_enum
  if p3_bytes.length ≠ params.p3_bytes then
    .error "Derived P3_bytes length does not match params.p3_bytes"
  else .ok ((seedsk, seedpk ++ p3_bytes), idx + params.sk_seed_bytes)

/-- `expand_sk` (`src/keygen.rs`): derives `(seedpk, O_bytes)` from the
csk, the P1/P2 byte strings from `seedpk`, computes
`L_i = (P1_i + P1_iᵀ)·O + P2_i` and assembles
`seedsk ‖ O_bytes ‖ P1_bytes ‖ L_bytes` — including the length check of
the encoded L bytes against `m·(n-o)·(n-o)` elements. -/
def expand_sk (O : PrimOracles) (csk : List Nat) (params_enum : MayoParams) :
    Except String (List Nat) :=
  let params := params_enum.variant
  let seedsk := csk
  let pr := shake256_xof_derive_pk_seed_and_o O seedsk params_enum
  let seedpk := pr.1
  let o_bytes := pr.2
  if o_bytes.length ≠ params.o_bytes then
    .error "O_bytes length mismatch during derivation"
  else match decode_o_matrix o_bytes params with
  | .error e => .error e
  | .ok o_matrix =>
    match derive_p1_bytes O seedpk params with
    | .error e => .error e
    | .ok p1_all_bytes =>
      if p1_all_bytes.length ≠ params.p1_bytes then
        .error "P1_bytes length mismatch during derivation"
      else match derive_p2_bytes O seedpk params with
      | .error e => .error e
      | .ok p2_all_bytes =>
        if p2_all_bytes.length ≠ params.p2_bytes then
          .error "P2_bytes length mismatch during derivation"
        else match decode_p1_matrices p1_all_bytes params with
        | .error e => .error e
        | .ok p1_matrices =>
          match decode_p2_matrices p2_all_bytes params with
          | .error e => .error e
          | .ok p2_matrices =>
            if p1_matrices.length ≠ params.m ∨ p2_matrices.length ≠ params.m then
              .error "Incorrect number of P1 or P2 matrices decoded"
            else match exceptMapList (fun i =>
              let p1_i := p1_matrices.getD i (GFMatrix.zero 0 0)
              let p1_i_t := matrix_transpose p1_i
              match matrix_add p1_i p1_i_t with
              | .error e => .error e
              | .ok sum_p1_p1t =>
                match matrix_mul sum_p1_p1t o_matrix with
                | .error e => .error e
                | .ok term1 =>
                  matrix_add term1 (p2_matrices.getD i (GFMatrix.zero 0 0)))
              (List.range params.m) with
            | .error e => .error e
            | .ok l_matrices =>
              let l_elements_flat := (l_matrices.map GFMatrix.data).flatten
              let l_all_bytes := encode_gf_elements l_elements_flat
              let expected_l_elements :=
                params.m * (params.n - params.o) * (params.n - params.o)
              let expected_l_bytes_len :=
                MayoParams.bytes_for_gf16_elements expected_l_elements
              if l_all_bytes.length ≠ expected_l_bytes_len then
                .error "L_all_bytes length mismatch during encoding"
              else .ok (seedsk ++ o_bytes ++ p1_all_bytes ++ l_all_bytes)

/-- `expand_pk` (`src/keygen.rs`): re-derives P1/P2 bytes from the
seedpk prefix of the cpk and appends the P3 bytes carried in the cpk. -/
def expand_pk (O : PrimOracles) (cpk : List Nat) (params_enum : MayoParams) :
    Except String (List Nat) :=
  let params := params_enum.variant
  if cpk.length ≠ params.pk_seed_bytes + params.p3_bytes then
    .error "Compact public key has incorrect length"
  else
    let seedpk := cpk.take params.pk_seed_bytes
    let p3_all_bytes_from_cpk := cpk.drop params.pk_seed_bytes
    match derive_p1_bytes O seedpk params with
    | .error e => .error e
    | .ok p1_all_bytes =>
      if p1_all_bytes.length ≠ params.p1_bytes then
        .error "P1_bytes length mismatch during derivation"
      else match derive_p2_bytes O seedpk params with
      | .error e => .error e
      | .ok p2_all_bytes =>
        if p2_all_bytes.length ≠ params.p2_bytes then
          .error "P2_bytes length mismatch during derivation"
        else .ok (p1_all_bytes ++ p2_all_bytes ++ p3_all_bytes_from_cpk)

end Mayo

namespace Mayo

/-! ## Signing (`src/sign.rs`) -/

/-- `MAX_SIGN_RETRIES` (`src/sign.rs`). -/
def MAX_SIGN_RETRIES : Nat := 256

/-- `compute_lin_system_components` (`src/sign.rs`): per equation `i`,
`y'_i = s_Vᵀ · (P1_i + P1_iᵀ) · s_V` and row `i` of `A` is
`s_Vᵀ · L_i`. -/
def compute_lin_system_components (vinegar_vars : List GFElement)
    (p1_mats l_mats : List GFMatrix) (params : MayoVariantParams) :
    Except String (GFMatrix × List GFElement) :=
  let num_vinegar_vars := params.n - params.o
  let num_oil_vars := params.o
  let m := params.m
  if vinegar_vars.length ≠ num_vinegar_vars then
    .error "Vinegar variables vector has incorrect length"
  else if p1_mats.length ≠ m then
    .error "Incorrect number of P1 matrices"
  else if l_mats.length ≠ m then
    .error "Incorrect number of L matrices"
  else
    match exceptMapList (fun i =>
      let p1_i := p1_mats.getD i (GFMatrix.zero 0 0)
      if p1_i.rows ≠ num_vinegar_vars ∨ p1_i.cols ≠ num_vinegar_vars then
        .error "P1 matrix has incorrect dimensions"
      else match matrix_symmetrize p1_i with
      | .error e => .error e
      | .ok p1_i_symmetric =>
        match matrix_vec_mul_transpose_gfvector vinegar_vars p1_i_symmetric with
        | .error e => .error e
        | .ok temp_y_vec =>
          match vector_dot_product temp_y_vec vinegar_vars with
          | .error e => .error e
          | .ok y_prime_i =>
            let l_i := l_mats.getD i (GFMatrix.zero 0 0)
            if l_i.rows ≠ num_vinegar_vars ∨ l_i.cols ≠ num_oil_vars then
              .error "L matrix has incorrect dimensions"
            else match matrix_vec_mul_transpose_gfvector vinegar_vars l_i with
            | .error e => .error e
            | .ok a_row_i => .ok (y_prime_i, a_row_i))
      (List.range m) with
    | .error e => .error e
    | .ok pairs =>
      let y_prime_elements := pairs.map Prod.fst
      let a_matrix := GFMatrix.from_vectors (pairs.map Prod.snd)
      if a_matrix.rows ≠ m ∨ a_matrix.cols ≠ num_oil_vars then
        .error "Constructed A matrix has incorrect dimensions"
      else .ok (a_matrix, y_prime_elements)

/-- The retry loop of `sign_message` (`src/sign.rs`), with the retry
count as structural fuel (`MAX_SIGN_RETRIES` at the top call) and the
randomness position threaded: per attempt, `salt_bytes` salt bytes and
one byte per vinegar variable (masked to a nibble) are read from `rng`.
A solver error or an inconsistent system moves to the next attempt;
everything else leaves the loop. -/
def signLoop (O : PrimOracles) (rng : Nat → Nat) (params_enum : MayoParams)
    (p1_matrices l_matrices : List GFMatrix) (m_digest : List Nat) :
    Nat → Nat → Except String (List Nat) × Nat
  | 0, idx => (.error "MAYO.Sign failed after maximum retries", idx)
  | fuel + 1, idx =>
    let params := params_enum.variant
    let salt := oracleRead rng idx params.salt_bytes
    let idx1 := idx + params.salt_bytes
    let t_bytes := shake256_derive_target_t O m_digest salt params_enum
    match decode_gf_elements t_bytes params.m with
    | .error e => (.error e, idx1)
    | .ok t_vector =>
      let num_vinegar_vars := params.n - params.o
      let vinegar_vars := (oracleRead rng idx1 num_vinegar_vars).map
        (fun b => (⟨b &&& 0x0F, and_fifteen_lt _⟩ : GFElement))
      let idx2 := idx1 + num_vinegar_vars
      match compute_lin_system_components vinegar_vars p1_matrices l_matrices
          params with
      | .error e => (.error e, idx2)
      | .ok ar =>
        match matrix_sub_vectors_gfvector t_vector ar.2 with
        | .error e => (.error e, idx2)
        | .ok target_for_solver =>
          match solve_linear_system ar.1 target_for_solver with
          | .ok (some x_solution_oils) =>
            if x_solution_oils.length ≠ params.o then
              (.error "Solver returned oil solution of incorrect length", idx2)
            else
              let s_elements := vinegar_vars ++ x_solution_oils
              let s_bytes := encode_s_vector s_elements params
              (.ok (s_bytes ++ salt), idx2)
          | .ok none =>
            signLoop O rng params_enum p1_matrices l_matrices m_digest fuel idx2
          | .error _ =>
            signLoop O rng params_enum p1_matrices l_matrices m_digest fuel idx2

/-- `sign_message` (`src/sign.rs`): parses the esk, re-derives
`(seedpk, O_bytes)` from its seed and insists the stored `O_bytes`
match, decodes every component, hashes the message, then runs the retry
loop.  Returns the result together with the next unread randomness
position. -/
def sign_message (O : PrimOracles) (rng : Nat → Nat) (idx : Nat)
    (esk message : List Nat) (params_enum : MayoParams) :
    Except String (List Nat) × Nat :=
  let params := params_enum.variant
  let num_l_elements := params.m * (params.n - params.o) * (params.n - params.o)
  let l_all_bytes_len_expected :=
    MayoParams.bytes_for_gf16_elements num_l_elements
  if esk.length ≠ params.sk_seed_bytes + params.o_bytes + params.p1_bytes +
      l_all_bytes_len_expected then
    (.error "Expanded secret key has incorrect total length based on components", idx)
  else
    let seedsk := esk.take params.sk_seed_bytes
    let o_bytes_slice := (esk.drop params.sk_seed_bytes).take params.o_bytes
    let l_all_bytes_slice :=
      esk.drop (params.sk_seed_bytes + params.o_bytes + params.p1_bytes)
    if l_all_bytes_slice.length ≠ l_all_bytes_len_expected then
      (.error "L_all_bytes component of ESK has unexpected length", idx)
    else
      let pr := shake256_xof_derive_pk_seed_and_o O seedsk params_enum
      let seedpk := pr.1
      let derived_o_bytes := pr.2
      if derived_o_bytes ≠ o_bytes_slice then
        (.error "O_bytes in ESK does not match derivation from seedsk in ESK", idx)
      else
        let p1_all_bytes_from_esk_slice :=
          (esk.drop (params.sk_seed_bytes + params.o_bytes)).take params.p1_bytes
        match decode_p1_matrices p1_all_bytes_from_esk_slice params with
        | .error e => (.error e, idx)
        | .ok p1_matrices =>
          match derive_p2_bytes O seedpk params with
          | .error e => (.error e, idx)
          | .ok p2_all_bytes_from_seedpk =>
            let p3_all_bytes_from_seedpk :=
              shake256_xof_derive_p3 O seedpk params_enum
            match decode_p2_matrices p2_all_bytes_from_seedpk params with
            | .error e => (.error e, idx)
            | .ok _p2_matrices =>
              match decode_p3_matrices p3_all_bytes_from_seedpk params with
              | .error e => (.error e, idx)
              | .ok _p3_matrices =>
                match decode_o_matrix o_bytes_slice params with
                | .error e => (.error e, idx)
                | .ok _o_matrix =>
                  match decode_l_matrices l_all_bytes_slice params with
                  | .error e => (.error e, idx)
                  | .ok l_matrices =>
                    let m_digest := shake256_digest O message params_enum
                    signLoop O rng params_enum p1_matrices l_matrices m_digest
                      MAX_SIGN_RETRIES idx

/-! ## Verification (`src/verify.rs`) -/

/-- `compute_p_star_s` (`src/verify.rs`):
`y_i = s_Vᵀ(P1_i+P1_iᵀ)s_V + s_Vᵀ P2_i s_O + s_Oᵀ(P3_i+P3_iᵀ)s_O`. -/
def compute_p_star_s (s_vector : List GFElement)
    (p1_matrices p2_matrices p3_matrices : List GFMatrix)
    (params : MayoVariantParams) : Except String (List GFElement) :=
  if s_vector.length ≠ params.n then
    .error "Signature vector s has incorrect length"
  else if p1_matrices.length ≠ params.m ∨ p2_matrices.length ≠ params.m ∨
      p3_matrices.length ≠ params.m then
    .error "Incorrect number of P matrices"
  else
    let num_vinegar_vars := params.n - params.o
    let num_oil_vars := params.o
    if num_vinegar_vars + num_oil_vars ≠ params.n then
      .error "Internal error: n-o + o != n"
    else
      let s_v_gfvec := s_vector.take num_vinegar_vars
      let s_o_gfvec := s_vector.drop num_vinegar_vars
      exceptMapList (fun i =>
        let p1_i := p1_matrices.getD i (GFMatrix.zero 0 0)
        let p2_i := p2_matrices.getD i (GFMatrix.zero 0 0)
        let p3_i := p3_matrices.getD i (GFMatrix.zero 0 0)
        if p1_i.rows ≠ num_vinegar_vars ∨ p1_i.cols ≠ num_vinegar_vars then
          .error "P1 matrix dimension mismatch"
        else if p2_i.rows ≠ num_vinegar_vars ∨ p2_i.cols ≠ num_oil_vars then
          .error "P2 matrix dimension mismatch"
        else if p3_i.rows ≠ num_oil_vars ∨ p3_i.cols ≠ num_oil_vars then
          .error "P3 matrix dimension mismatch"
        else match matrix_symmetrize p1_i with
        | .error e => .error e
        | .ok p1_i_sym =>
          match matrix_symmetrize p3_i with
          | .error e => .error e
          | .ok p3_i_sym =>
            match matrix_vec_mul_transpose_gfvector s_v_gfvec p1_i_sym with
            | .error e => .error e
            | .ok sv_p1_intermediate =>
              match vector_dot_product sv_p1_intermediate s_v_gfvec with
              | .error e => .error e
              | .ok term1 =>
                match matrix_vec_mul_transpose_gfvector s_v_gfvec p2_i with
                | .error e => .error e
                | .ok sv_p2_intermediate =>
                  match vector_dot_product sv_p2_intermediate s_o_gfvec with
                  | .error e => .error e
                  | .ok term2 =>
                    match matrix_vec_mul_transpose_gfvector s_o_gfvec p3_i_sym with
                    | .error e => .error e
                    | .ok so_p3_intermediate =>
                      match vector_dot_product so_p3_intermediate s_o_gfvec with
                      | .error e => .error e
                      | .ok term3 =>
                        .ok (gf16_add (gf16_add term1 term2) term3))
        (List.range params.m)

/-- `verify_signature` (`src/verify.rs`). -/
def verify_signature (O : PrimOracles) (epk message signature : List Nat)
    (params_enum : MayoParams) : Except String Bool :=
  let params := params_enum.variant
  let p1_bytes_end := params.p1_bytes
  let p2_bytes_end := params.p1_bytes + params.p2_bytes
  if epk.length ≠ params.p1_bytes + params.p2_bytes + params.p3_bytes then
    .error "Expanded public key has incorrect length"
  else
    match decode_p1_matrices (epk.take p1_bytes_end) params with
    | .error e => .error e
    | .ok p1_matrices =>
      match decode_p2_matrices ((epk.drop p1_bytes_end).take params.p2_bytes)
          params with
      | .error e => .error e
      | .ok p2_matrices =>
        match decode_p3_matrices (epk.drop p2_bytes_end) params with
        | .error e => .error e
        | .ok p3_matrices =>
          let s_bytes_len := MayoParams.bytes_for_gf16_elements params.n
          if signature.length ≠ s_bytes_len + params.salt_bytes then
            .error "Signature has incorrect length"
          else
            let s_bytes := signature.take s_bytes_len
            let salt_bytes_slice := signature.drop s_bytes_len
            match decode_s_vector s_bytes params with
            | .error e => .error e
            | .ok s_vector =>
              let m_digest := shake256_digest O message params_enum
              let t_bytes :=
                shake256_derive_target_t O m_digest salt_bytes_slice params_enum
              match decode_gf_elements t_bytes params.m with
              | .error e => .error e
              | .ok t_vector =>
                match compute_p_star_s s_vector p1_matrices p2_matrices
                    p3_matrices params with
                | .error e => .error e
                | .ok y_computed_vector =>
                  if y_computed_vector.length ≠ params.m then
                    .error "Computed y vector has incorrect length"
                  else .ok (decide (y_computed_vector = t_vector))

/-! ## NIST-like API wrappers (`src/api.rs`) -/

/-- `sign` (`src/api.rs`): expands the csk internally and signs. -/
def api_sign (O : PrimOracles) (rng : Nat → Nat) (idx : Nat)
    (csk message_bytes : List Nat) (params_enum : MayoParams) :
    Except String (List Nat) × Nat :=
  match expand_sk O csk params_enum with
  | .error e => (.error e, idx)
  | .ok esk => sign_message O rng idx esk message_bytes params_enum

/-- `open` (`src/api.rs`), named `api_open` here: splits
`signature ‖ message`, expands the cpk and verifies; `some message` on
acceptance, `none` on rejection. -/
def api_open (O : PrimOracles) (cpk signed_message : List Nat)
    (params_enum : MayoParams) : Except String (Option (List Nat)) :=
  let params := params_enum.variant
  let s_bytes_len := MayoParams.bytes_for_gf16_elements params.n
  let expected_sig_len := s_bytes_len + params.salt_bytes
  if signed_message.length < expected_sig_len then
    .error "Signed message is too short to contain a signature"
  else
    let sig_bytes := signed_message.take expected_sig_len
    let message_bytes := signed_message.drop expected_sig_len
    match expand_pk O cpk params_enum with
    | .error e => .error e
    | .ok epk =>
      match verify_signature O epk message_bytes sig_bytes params_enum with
      | .ok true => .ok (some message_bytes)
      | .ok false => .ok none
      | .error e => .error e

end Mayo

namespace Mayo

/-! ## A small concrete MAYO instance

`MayoVariantParams` is a public struct and all of the repository's entry
points take an arbitrary `MayoParams` value, so small parameter sets are
legitimate inputs.  The instance below (`n = 4`, `m = 1`, `o = v = 2`,
one-byte seed/salt/digest, 16-byte pk seed for the AES key) is small
enough for every pipeline value to be computed by `decide`. -/

def testParams : MayoParams := .MAYO1 ⟨4, 1, 2, 1, 1, 16, 1, 1, 2, 2, 2, 2⟩

def testShake (input : List Nat) (j : Nat) : Nat :=
  if input = [0] then (if j = 17 then 3 else 0)
  else if input = [7] then 3
  else if input = [3, 5] then 0x40
  else 0

def testAes (_key : List Nat) (j : Nat) : Nat := if j = 0 then 2 else 0

def testRng (j : Nat) : Nat :=
  if j = 0 then 0 else if j = 1 then 5 else if j = 2 then 1 else 0

def testOracles : PrimOracles := ⟨testShake, testAes⟩

/-- Oracles whose every stream is constantly zero (used where the
oracle values are irrelevant). -/
def zeroOracles : PrimOracles := ⟨fun _ _ => 0, fun _ _ => 0⟩

/-- C1: refuted on a concrete run of the whole pipeline.  Key
generation, secret-key expansion and signing all succeed — the signing
loop finds `x = [0, 1]` for its linear system on the first attempt and
returns the signature `[0x10, 0x01, 5]` — yet verification of that very
signature under the matching expanded public key returns `Ok false`,
and `open` on the compact public key rejects (`Ok none`): the signature
vector `s = s_V ‖ x` assembled in `sign_message` omits the oil-space
shift of the vinegar part, so the value checked by `verify_signature`
differs from the solver's target. -/
theorem mayo_C1_counterexample :
    compact_key_gen testOracles testRng 0 testParams =
      .ok (([0], List.replicate 18 0), 1) ∧
    expand_sk testOracles [0] testParams = .ok [0, 0, 3, 2, 0, 4, 0] ∧
    sign_message testOracles testRng 1 [0, 0, 3, 2, 0, 4, 0] [7] testParams =
      (.ok [16, 1, 5], 4) ∧
    expand_pk testOracles (List.replicate 18 0) testParams =
      .ok [2, 0, 2, 0, 0, 0] ∧
    verify_signature testOracles [2, 0, 2, 0, 0, 0] [7] [16, 1, 5] testParams =
      .ok false ∧
    api_open testOracles (List.replicate 18 0) [16, 1, 5, 7] testParams =
      .ok none := by decide

/-- C6: the nibble codec round-trips: decoding the encoding of any
element vector at its own length recovers it, and on the odd-length
example `[0xA, 0xB, 0xC]` the encoder produces `[0xAB, 0xC0]` (padding
nibble zero) which decodes back to the input. -/
theorem mayo_C6 :
    (∀ V : List GFElement,
      decode_gf_elements (encode_gf_elements V) V.length = .ok V) ∧
    encode_gf_elements [0xA, 0xB, 0xC] = [0xAB, 0xC0] ∧
    decode_gf_elements [0xAB, 0xC0] 3 = .ok [0xA, 0xB, 0xC] :=
  ⟨decode_encode_roundtrip, by decide, by decide⟩

/-- C8: `gf16_inv` errors exactly on 0, and on every nonzero element
returns `gf16_pow a 14`, which is a right inverse for `gf16_mul`. -/
theorem mayo_C8 (a : GFElement) :
    (gf16_inv a = .error "Cannot invert zero element" ↔ a = 0) ∧
    (a ≠ 0 → gf16_inv a = .ok (gf16_pow a 14) ∧
      gf16_mul a (gf16_pow a 14) = 1) := by
  revert a
  decide

theorem mayo_C8_witness :
    gf16_inv 3 = .ok (gf16_pow 3 14) ∧ gf16_mul 3 (gf16_pow 3 14) = 1 :=
  (mayo_C8 3).2 (by decide)

theorem getD_replicate_self {α : Type} (z : α) (n j : Nat) :
    (List.replicate n z).getD j z = z := by
  induction n generalizing j with
  | zero => simp [List.getD]
  | succ n ih =>
    cases j with
    | zero => simp [List.replicate_succ]
    | succ j => simp [List.replicate_succ, ih j]

/-- The back-substitution writes only the leading columns
`findLeadFrom augF r nVars 0` of the used pivot rows `r < rank`; every
other entry of the zero-initialised solution vector stays 0 — the
"free columns retain value 0" behaviour of the solver. -/
theorem backSubst_free_zero (augF : GFMatrix) (rank nVars c : Nat)
    (hc : ∀ r, r < rank → findLeadFrom augF r nVars 0 ≠ c) :
    (backSubst augF rank nVars).getD c 0 = 0 := by
  unfold backSubst
  have key : ∀ (rs : List Nat) (s : List GFElement),
      (∀ r ∈ rs, findLeadFrom augF r nVars 0 ≠ c) → s.getD c 0 = 0 →
      (rs.foldl (backSubstStep augF nVars) s).getD c 0 = 0 := by
    intro rs
    induction rs with
    | nil => intro s _ hs; exact hs
    | cons hd tl ih =>
      intro s hmem hs
      rw [List.foldl_cons]
      apply ih _ (fun r hr => hmem r (by simp [hr]))
      simp only [backSubstStep]
      rw [getD_set_list, if_neg (by
        intro hcon
        exact hmem hd (by simp) hcon.1.symm)]
      exact hs
  apply key
  · intro r hr
    rw [List.mem_reverse, List.mem_range] at hr
    exact hc r hr
  · exact getD_replicate_self 0 nVars c

/-- The state after the forward-elimination phase of
`solve_linear_system`: the reduced augmented matrix together with the
pivot count (`rank`).  Total via `Except.toOption`; by
`forward_fold_inv` the fold never errors, so the default is never
used. -/
def gaussState (a : GFMatrix) (y : List GFElement) : GFMatrix × Nat :=
  (((List.range a.cols).foldlM (forwardStep a.rows)
    (buildAug a y, 0)).toOption).getD (GFMatrix.zero 0 0, 0)

/-- C2: `solve_linear_system` finds a solution whenever one exists,
returns `none` exactly when none exists, and any returned solution is
zero at every free column — every column that is not the leading
column of a used pivot row of the reduced system; on the spec's
examples it returns `[1, 2]` and `none` respectively. -/
theorem mayo_C2 {a : GFMatrix} {y : List GFElement} (hy : y.length = a.rows) :
    ((∃ x, x.length = a.cols ∧ matrix_vec_mul a x = .ok y) →
      ∃ x, solve_linear_system a y = .ok (some x) ∧ x.length = a.cols ∧
        matrix_vec_mul a x = .ok y) ∧
    (solve_linear_system a y = .ok none ↔
      ∀ x, x.length = a.cols → matrix_vec_mul a x ≠ .ok y) ∧
    (∀ x, solve_linear_system a y = .ok (some x) →
      ∀ c, c < a.cols →
      (∀ r, r < (gaussState a y).2 →
        findLeadFrom (gaussState a y).1 r a.cols 0 ≠ c) →
      x.getD c 0 = 0) ∧
    solve_linear_system ⟨[1, 0, 0, 1, 1, 1], 3, 2⟩ [1, 2, 3] =
      .ok (some [1, 2]) ∧
    solve_linear_system ⟨[1, 1, 1, 1], 2, 2⟩ [1, 2] = .ok none := by
  refine ⟨?_, ⟨?_, ?_⟩, ?_, by decide, by decide⟩
  · intro ⟨x, hx, hmv⟩
    rcases solve_spec hy with h | ⟨_, hno⟩
    · exact h
    · exact absurd hmv (hno x hx)
  · intro hnone x hx hmv
    rcases solve_spec hy with ⟨x', hsol, _, _⟩ | ⟨_, hno⟩
    · rw [hsol] at hnone
      exact Option.noConfusion (Except.ok.inj hnone)
    · exact hno x hx hmv
  · intro hno
    rcases solve_spec hy with ⟨x', _, hlen, hmv⟩ | ⟨hnone, _⟩
    · exact absurd hmv (hno x' hlen)
    · exact hnone
  · intro x hsol c _ hfree
    obtain ⟨st', hfold, _⟩ := forward_fold_inv a.cols 0 (buildAug a y, 0)
      (by omega) (fwdInv_init a y)
    rw [← List.range_eq_range'] at hfold
    obtain ⟨augF, rank⟩ := st'
    have hgs : gaussState a y = (augF, rank) := by
      unfold gaussState
      rw [hfold]
      rfl
    rw [solve_eq_of_fold hy hfold] at hsol
    by_cases hany : (List.range' rank (a.rows - rank)).any
        (fun r => decide (augF.uget r a.cols ≠ 0)) = true
    · rw [if_pos hany] at hsol
      exact absurd (Except.ok.inj hsol) (by simp)
    · rw [if_neg hany] at hsol
      have hxx : backSubst augF rank a.cols = x :=
        Option.some.inj (Except.ok.inj hsol)
      rw [← hxx]
      apply backSubst_free_zero
      intro r hr
      rw [hgs] at hfree
      exact hfree r hr

theorem mayo_C2_witness :
    ∃ x, solve_linear_system (⟨[1, 0, 0, 1, 1, 1], 3, 2⟩ : GFMatrix) [1, 2, 3] =
        .ok (some x) ∧
      x.length = (⟨[1, 0, 0, 1, 1, 1], 3, 2⟩ : GFMatrix).cols ∧
      matrix_vec_mul ⟨[1, 0, 0, 1, 1, 1], 3, 2⟩ x = .ok [1, 2, 3] :=
  (mayo_C2 (a := ⟨[1, 0, 0, 1, 1, 1], 3, 2⟩) (by decide)).1
    ⟨[1, 2], by decide, by decide⟩

/-- C10: `sign_message` re-derives `(seedpk, O_bytes)` from the seed
segment of the esk and rejects any esk — even one of the correct total
length — whose stored `O_bytes` segment differs from that derivation,
before any signing attempt (no randomness is consumed). -/
theorem mayo_C10 (O : PrimOracles) (rng : Nat → Nat) (idx : Nat)
    (esk message : List Nat) (params_enum : MayoParams)
    (hlen : esk.length = params_enum.variant.sk_seed_bytes +
      params_enum.variant.o_bytes + params_enum.variant.p1_bytes +
      MayoParams.bytes_for_gf16_elements (params_enum.variant.m *
        (params_enum.variant.n - params_enum.variant.o) *
        (params_enum.variant.n - params_enum.variant.o)))
    (hmism : (shake256_xof_derive_pk_seed_and_o O
        (esk.take params_enum.variant.sk_seed_bytes) params_enum).2 ≠
      (esk.drop params_enum.variant.sk_seed_bytes).take
        params_enum.variant.o_bytes) :
    sign_message O rng idx esk message params_enum =
      (.error "O_bytes in ESK does not match derivation from seedsk in ESK",
        idx) := by
  unfold sign_message
  rw [if_neg (fun hc => hc hlen)]
  rw [if_neg (fun hc => hc (by rw [List.length_drop, hlen]; omega))]
  rw [if_pos hmism]

theorem mayo_C10_witness :
    sign_message testOracles testRng 0 [0, 0, 0, 2, 0, 4, 0] [7] testParams =
      (.error "O_bytes in ESK does not match derivation from seedsk in ESK",
        0) :=
  mayo_C10 testOracles testRng 0 [0, 0, 0, 2, 0, 4, 0] [7] testParams
    (by decide) (by decide)

end Mayo

namespace Mayo

theorem shake256_derive_target_t_length (O : PrimOracles) (d s : List Nat)
    (P : MayoParams) : (shake256_derive_target_t O d s P).length =
      MayoParams.bytes_for_gf16_elements P.variant.m :=
  oracleRead_length _ _ _

/-- C4 (amended): every iteration of the signing loop reads exactly
`salt_bytes + (n - o)` bytes from the randomness stream — `salt_bytes`
for the salt and one full byte per vinegar nibble — before either
leaving the loop at that position or retrying from that position.  (The
original claim's `salt_bytes + ⌈v·4/8⌉` holds only for a packed
two-nibbles-per-byte sampling, which is not what the code does; see the
counterexample.) -/
theorem mayo_C4 (O : PrimOracles) (rng : Nat → Nat) (params_enum : MayoParams)
    (p1_matrices l_matrices : List GFMatrix) (m_digest : List Nat)
    (fuel idx : Nat) :
    (∃ r, signLoop O rng params_enum p1_matrices l_matrices m_digest
        (fuel + 1) idx =
      (r, idx + params_enum.variant.salt_bytes +
        (params_enum.variant.n - params_enum.variant.o))) ∨
    signLoop O rng params_enum p1_matrices l_matrices m_digest (fuel + 1) idx =
      signLoop O rng params_enum p1_matrices l_matrices m_digest fuel
        (idx + params_enum.variant.salt_bytes +
          (params_enum.variant.n - params_enum.variant.o)) := by
  have hdec := decode_gf_elements_ok (b := shake256_derive_target_t O
      m_digest (oracleRead rng idx params_enum.variant.salt_bytes) params_enum)
    (k := params_enum.variant.m)
    (le_of_eq (shake256_derive_target_t_length O m_digest _ params_enum).symm)
  simp only [signLoop]
  rw [hdec]
  simp only []
  cases hc : compute_lin_system_components
      ((oracleRead rng (idx + params_enum.variant.salt_bytes)
        (params_enum.variant.n - params_enum.variant.o)).map
        (fun b => (⟨b &&& 0x0F, and_fifteen_lt _⟩ : GFElement)))
      p1_matrices l_matrices params_enum.variant with
  | error e => exact Or.inl ⟨.error e, rfl⟩
  | ok ar =>
    simp only []
    cases hs : matrix_sub_vectors_gfvector
        ((List.range params_enum.variant.m).map (fun i =>
          if i % 2 = 0 then
            (⟨(((shake256_derive_target_t O m_digest
              (oracleRead rng idx params_enum.variant.salt_bytes)
              params_enum).getD (i / 2) 0) >>> 4) &&& 0x0F,
              and_fifteen_lt _⟩ : GFElement)
          else ⟨((shake256_derive_target_t O m_digest
              (oracleRead rng idx params_enum.variant.salt_bytes)
              params_enum).getD (i / 2) 0) &&& 0x0F, and_fifteen_lt _⟩)) ar.2
        with
    | error e => exact Or.inl ⟨.error e, rfl⟩
    | ok target =>
      simp only []
      cases hsol : solve_linear_system ar.1 target with
      | error e => exact Or.inr rfl
      | ok xo =>
        cases xo with
        | none => exact Or.inr rfl
        | some x =>
          simp only []
          by_cases hxl : x.length ≠ params_enum.variant.o
          · rw [if_pos hxl]
            exact Or.inl ⟨_, rfl⟩
          · rw [if_neg hxl]
            exact Or.inl ⟨_, rfl⟩

/-- C4 counterexample to the original wording: in the concrete run of
`mayo_C1_counterexample`'s instance (`salt_bytes = 1`, `v = n - o = 2`),
signing succeeds on its first and only attempt having advanced the
randomness position from 1 to 4, i.e. 3 bytes were consumed, while the
claimed `salt_bytes + ⌈v·4/8⌉` is 2. -/
theorem mayo_C4_counterexample :
    sign_message testOracles testRng 1 [0, 0, 3, 2, 0, 4, 0] [7] testParams =
      (.ok [16, 1, 5], 1 + 3) ∧
    testParams.variant.salt_bytes +
      ((testParams.variant.n - testParams.variant.o) * 4 + 7) / 8 = 2 ∧
    (3 : Nat) ≠ 2 := by decide

end Mayo

namespace Mayo

theorem getD_mem {α : Type} {l : List α} {i : Nat} (h : i < l.length) (d : α) :
    l.getD i d ∈ l := by
  rw [List.getD_eq_getElem _ _ h]
  exact List.getElem_mem _

theorem new_with_data_data (rows cols : Nat) (d : List GFElement) :
    (GFMatrix.new_with_data rows cols d).data = d := rfl

theorem flatten_length_const {α : Type} :
    ∀ (L : List (List α)) (k : Nat), (∀ l ∈ L, l.length = k) →
      L.flatten.length = L.length * k := by
  intro L
  induction L with
  | nil => intro k _; simp
  | cons hd tl ih =>
    intro k h
    rw [List.flatten_cons, List.length_append, h hd (by simp),
      ih k (fun l hl => h l (by simp [hl])), List.length_cons]
    ring

theorem exceptMapList_ok_of_forall {α β : Type} (f : α → Except String β)
    (P : β → Prop) :
    ∀ l : List α, (∀ a ∈ l, ∃ b, f a = .ok b ∧ P b) →
      ∃ bs, exceptMapList f l = .ok bs ∧ bs.length = l.length ∧
        ∀ b ∈ bs, P b := by
  intro l
  induction l with
  | nil =>
    intro _
    exact ⟨[], rfl, rfl, by intro b hb; simp at hb⟩
  | cons hd tl ih =>
    intro h
    obtain ⟨b, hb, hPb⟩ := h hd (by simp)
    obtain ⟨bs, hbs, hlen, hP⟩ := ih (fun a ha => h a (by simp [ha]))
    refine ⟨b :: bs, ?_, by simp [hlen], ?_⟩
    · unfold exceptMapList
      rw [hb, hbs]
    · intro b' hb'
      rcases List.mem_cons.mp hb' with h1 | h2
      · rw [h1]; exact hPb
      · exact hP _ h2

theorem exceptMapList_range_ok_of_forall {β : Type} (f : Nat → Except String β)
    (P : β → Prop) (m : Nat) (h : ∀ i, i < m → ∃ b, f i = .ok b ∧ P b) :
    ∃ bs, exceptMapList f (List.range m) = .ok bs ∧ bs.length = m ∧
      ∀ b ∈ bs, P b := by
  obtain ⟨bs, h1, h2, h3⟩ := exceptMapList_ok_of_forall f P (List.range m)
    (fun a ha => h a (List.mem_range.mp ha))
  exact ⟨bs, h1, by rw [h2, List.length_range], h3⟩

theorem chunk_length {α : Type} {l : List α} {i per total : Nat}
    (hl : l.length = total) (h : (i + 1) * per ≤ total) :
    ((l.drop (i * per)).take per).length = per := by
  rw [Nat.succ_mul] at h
  rw [List.length_take, List.length_drop, hl]
  omega

theorem chunk_bound {i m per total : Nat} (hi : i < m) (hper : per = total / m) :
    (i + 1) * per ≤ total := by
  subst hper
  have h1 : (i + 1) * (total / m) ≤ m * (total / m) :=
    Nat.mul_le_mul_right _ (by omega)
  have h2 : m * (total / m) ≤ total := Nat.mul_div_le total m
  omega

theorem decode_o_matrix_spec {b : List Nat} {p : MayoVariantParams}
    (h : ((p.n - p.o) * p.o + 1) / 2 ≤ b.length) :
    ∃ Om, decode_o_matrix b p = .ok Om ∧
      Om.rows = p.n - p.o ∧ Om.cols = p.o ∧
      Om.data.length = (p.n - p.o) * p.o := by
  simp only [decode_o_matrix]
  rw [if_neg (by omega), decode_gf_elements_ok h]
  exact ⟨_, rfl, rfl, rfl, by simp [GFMatrix.new_with_data]⟩

theorem decode_upper_triangular_matrix_spec {elements : List GFElement}
    {size : Nat} (h : elements.length = size * (size + 1) / 2) :
    ∃ M, decode_upper_triangular_matrix elements size = .ok M ∧
      M.rows = size ∧ M.cols = size ∧ M.data.length = size * size := by
  unfold decode_upper_triangular_matrix
  rw [if_neg (fun hc => hc h)]
  exact ⟨_, rfl, mkMat_rows _ _ _, mkMat_cols _ _ _, mkMat_data_length _ _ _⟩

theorem decode_p1_matrices_spec {b : List Nat} {p : MayoVariantParams}
    (hlen : b.length = p.p1_bytes)
    (hper : ((p.n - p.o) * ((p.n - p.o) + 1) / 2 + 1) / 2 ≤
      p.p1_bytes / p.m) :
    ∃ mats, decode_p1_matrices b p = .ok mats ∧
      mats.length = p.m ∧
      ∀ M ∈ mats, M.rows = p.n - p.o ∧
        M.cols = p.n - p.o ∧
        M.data.length = (p.n - p.o) * (p.n - p.o) := by
  simp only [decode_p1_matrices]
  rw [if_neg (fun hc => hc hlen)]
  exact exceptMapList_range_ok_of_forall _ _ _ (by
    intro i hi
    have hch : ((b.drop (i * (p.p1_bytes / p.m))).take
        (p.p1_bytes / p.m)).length = p.p1_bytes / p.m :=
      chunk_length hlen (chunk_bound hi rfl)
    rw [decode_gf_elements_ok (by omega)]
    simp only []
    exact decode_upper_triangular_matrix_spec (by simp))

theorem decode_p2_matrices_spec {b : List Nat} {p : MayoVariantParams}
    (hlen : b.length = p.p2_bytes)
    (hper : ((p.n - p.o) * p.o + 1) / 2 ≤
      p.p2_bytes / p.m) :
    ∃ mats, decode_p2_matrices b p = .ok mats ∧
      mats.length = p.m ∧
      ∀ M ∈ mats, M.rows = p.n - p.o ∧ M.cols = p.o ∧
        M.data.length = (p.n - p.o) * p.o := by
  simp only [decode_p2_matrices]
  rw [if_neg (fun hc => hc hlen)]
  exact exceptMapList_range_ok_of_forall _ _ _ (by
    intro i hi
    have hch : ((b.drop (i * (p.p2_bytes / p.m))).take
        (p.p2_bytes / p.m)).length = p.p2_bytes / p.m :=
      chunk_length hlen (chunk_bound hi rfl)
    rw [decode_gf_elements_ok (by omega)]
    exact ⟨_, rfl, rfl, rfl, by simp [GFMatrix.new_with_data]⟩)

theorem decode_p3_matrices_spec {b : List Nat} {p : MayoVariantParams}
    (hlen : b.length = p.p3_bytes)
    (hper : (p.o * (p.o + 1) / 2 + 1) / 2 ≤
      p.p3_bytes / p.m) :
    ∃ mats, decode_p3_matrices b p = .ok mats ∧
      mats.length = p.m ∧
      ∀ M ∈ mats, M.rows = p.o ∧ M.cols = p.o ∧
        M.data.length = p.o * p.o := by
  simp only [decode_p3_matrices]
  rw [if_neg (fun hc => hc hlen)]
  exact exceptMapList_range_ok_of_forall _ _ _ (by
    intro i hi
    have hch : ((b.drop (i * (p.p3_bytes / p.m))).take
        (p.p3_bytes / p.m)).length = p.p3_bytes / p.m :=
      chunk_length hlen (chunk_bound hi rfl)
    rw [decode_gf_elements_ok (by omega)]
    simp only []
    exact decode_upper_triangular_matrix_spec (by simp))

theorem decode_l_matrices_spec {bytes : List Nat} {params : MayoVariantParams}
    (h : (params.m * ((params.n - params.o) * params.o) + 1) / 2 ≤
      bytes.length) :
    ∃ mats, decode_l_matrices bytes params = .ok mats ∧
      mats.length = params.m ∧
      ∀ M ∈ mats, M.rows = params.n - params.o ∧ M.cols = params.o ∧
        M.data.length = (params.n - params.o) * params.o := by
  simp only [decode_l_matrices]
  rw [decode_gf_elements_ok h]
  refine ⟨_, rfl, by simp, ?_⟩
  intro M hM
  rw [List.mem_map] at hM
  obtain ⟨i, hi, hMi⟩ := hM
  rw [List.mem_range] at hi
  subst hMi
  refine ⟨rfl, rfl, ?_⟩
  rw [new_with_data_data, List.length_take, List.length_drop, List.length_map,
    List.length_range]
  have hmul : (i + 1) * ((params.n - params.o) * params.o) ≤
      params.m * ((params.n - params.o) * params.o) :=
    Nat.mul_le_mul_right _ (by omega)
  rw [Nat.succ_mul] at hmul
  omega

end Mayo

namespace Mayo

theorem expand_sk_l_loop {params : MayoVariantParams}
    {mats1 mats2 : List GFMatrix} {Om : GFMatrix}
    (hm1l : mats1.length = params.m)
    (hm1P : ∀ M ∈ mats1, M.rows = params.n - params.o ∧
      M.cols = params.n - params.o ∧
      M.data.length = (params.n - params.o) * (params.n - params.o))
    (hm2l : mats2.length = params.m)
    (hm2P : ∀ M ∈ mats2, M.rows = params.n - params.o ∧ M.cols = params.o ∧
      M.data.length = (params.n - params.o) * params.o)
    (hOmr : Om.rows = params.n - params.o) (hOmc : Om.cols = params.o) :
    ∃ lmats, exceptMapList (fun i =>
        match matrix_add (mats1.getD i (GFMatrix.zero 0 0))
            (matrix_transpose (mats1.getD i (GFMatrix.zero 0 0))) with
        | .error e => .error e
        | .ok sum_p1_p1t =>
          match matrix_mul sum_p1_p1t Om with
          | .error e => .error e
          | .ok term1 => matrix_add term1 (mats2.getD i (GFMatrix.zero 0 0)))
      (List.range params.m) = .ok lmats ∧
      lmats.length = params.m ∧
      ∀ M ∈ lmats, M.data.length = (params.n - params.o) * params.o := by
  refine exceptMapList_range_ok_of_forall _ _ _ ?_
  intro i hi
  obtain ⟨h1r, h1c, h1d⟩ := hm1P (mats1.getD i (GFMatrix.zero 0 0))
    (getD_mem (show i < mats1.length by omega) (GFMatrix.zero 0 0))
  obtain ⟨h2r, h2c, h2d⟩ := hm2P (mats2.getD i (GFMatrix.zero 0 0))
    (getD_mem (show i < mats2.length by omega) (GFMatrix.zero 0 0))
  have hadd : matrix_add (mats1.getD i (GFMatrix.zero 0 0))
      (matrix_transpose (mats1.getD i (GFMatrix.zero 0 0))) =
      .ok (GFMatrix.new_with_data (mats1.getD i (GFMatrix.zero 0 0)).rows
        (mats1.getD i (GFMatrix.zero 0 0)).cols
        (List.zipWith gf16_add (mats1.getD i (GFMatrix.zero 0 0)).data
          (matrix_transpose (mats1.getD i (GFMatrix.zero 0 0))).data)) := by
    unfold matrix_add
    rw [if_neg (by
      unfold matrix_transpose
      rw [mkMat_rows, mkMat_cols]
      intro hc
      rcases hc with h | h
      · exact h (by rw [h1r, h1c])
      · exact h (by rw [h1c, h1r]))]
  rw [hadd]
  simp only []
  have hmul : matrix_mul (GFMatrix.new_with_data
      (mats1.getD i (GFMatrix.zero 0 0)).rows
      (mats1.getD i (GFMatrix.zero 0 0)).cols
      (List.zipWith gf16_add (mats1.getD i (GFMatrix.zero 0 0)).data
        (matrix_transpose (mats1.getD i (GFMatrix.zero 0 0))).data)) Om =
      .ok (mkMat (mats1.getD i (GFMatrix.zero 0 0)).rows Om.cols
        (fun r c => matMulEntry (GFMatrix.new_with_data
          (mats1.getD i (GFMatrix.zero 0 0)).rows
          (mats1.getD i (GFMatrix.zero 0 0)).cols
          (List.zipWith gf16_add (mats1.getD i (GFMatrix.zero 0 0)).data
            (matrix_transpose (mats1.getD i (GFMatrix.zero 0 0))).data))
          Om r c)) := by
    unfold matrix_mul
    rw [if_neg (by
      show ¬((mats1.getD i (GFMatrix.zero 0 0)).cols ≠ Om.rows)
      rw [h1c, hOmr]
      exact fun hc => hc rfl)]
    rfl
  rw [hmul]
  simp only []
  have hadd2 : matrix_add (mkMat (mats1.getD i (GFMatrix.zero 0 0)).rows Om.cols
      (fun r c => matMulEntry (GFMatrix.new_with_data
        (mats1.getD i (GFMatrix.zero 0 0)).rows
        (mats1.getD i (GFMatrix.zero 0 0)).cols
        (List.zipWith gf16_add (mats1.getD i (GFMatrix.zero 0 0)).data
          (matrix_transpose (mats1.getD i (GFMatrix.zero 0 0))).data))
        Om r c)) (mats2.getD i (GFMatrix.zero 0 0)) =
      .ok (GFMatrix.new_with_data ((mkMat (mats1.getD i (GFMatrix.zero 0 0)).rows
          Om.cols (fun r c => matMulEntry (GFMatrix.new_with_data
            (mats1.getD i (GFMatrix.zero 0 0)).rows
            (mats1.getD i (GFMatrix.zero 0 0)).cols
            (List.zipWith gf16_add (mats1.getD i (GFMatrix.zero 0 0)).data
              (matrix_transpose (mats1.getD i (GFMatrix.zero 0 0))).data))
            Om r c)).rows)
        ((mkMat (mats1.getD i (GFMatrix.zero 0 0)).rows Om.cols
          (fun r c => matMulEntry (GFMatrix.new_with_data
            (mats1.getD i (GFMatrix.zero 0 0)).rows
            (mats1.getD i (GFMatrix.zero 0 0)).cols
            (List.zipWith gf16_add (mats1.getD i (GFMatrix.zero 0 0)).data
              (matrix_transpose (mats1.getD i (GFMatrix.zero 0 0))).data))
            Om r c)).cols)
        (List.zipWith gf16_add (mkMat (mats1.getD i (GFMatrix.zero 0 0)).rows
          Om.cols (fun r c => matMulEntry (GFMatrix.new_with_data
            (mats1.getD i (GFMatrix.zero 0 0)).rows
            (mats1.getD i (GFMatrix.zero 0 0)).cols
            (List.zipWith gf16_add (mats1.getD i (GFMatrix.zero 0 0)).data
              (matrix_transpose (mats1.getD i (GFMatrix.zero 0 0))).data))
            Om r c)).data (mats2.getD i (GFMatrix.zero 0 0)).data)) := by
    unfold matrix_add
    rw [if_neg (by
      rw [mkMat_rows, mkMat_cols]
      intro hc
      rcases hc with h | h
      · exact h (by rw [h1r, h2r])
      · exact h (by rw [hOmc, h2c]))]
  rw [hadd2]
  refine ⟨_, rfl, ?_⟩
  rw [new_with_data_data, List.length_zipWith, mkMat_data_length, h2d, h1r, hOmc]
  exact Nat.min_self _

/-- C5: on every compact secret key — in particular every keygen
output — `expand_sk` under the real MAYO1/MAYO2 parameter arithmetic
never returns the esk described by the claim: the encoded L bytes have
length `⌈m·v·o/2⌉` but the code checks them against `⌈m·v²/2⌉`
(`expected_l_elements = m·(n-o)·(n-o)` in `src/keygen.rs`), so whenever
those two byte counts differ (they do for both shipped variants, where
`o ≠ v`) `expand_sk` fails with "L_all_bytes length mismatch during
encoding". -/
theorem mayo_C5 (O : PrimOracles) (csk : List Nat) (params_enum : MayoParams)
    (hpk : params_enum.variant.pk_seed_bytes = 16)
    (hob : ((params_enum.variant.n - params_enum.variant.o) *
      params_enum.variant.o + 1) / 2 ≤ params_enum.variant.o_bytes)
    (hp1 : ((params_enum.variant.n - params_enum.variant.o) *
      ((params_enum.variant.n - params_enum.variant.o) + 1) / 2 + 1) / 2 ≤
      params_enum.variant.p1_bytes / params_enum.variant.m)
    (hp2 : ((params_enum.variant.n - params_enum.variant.o) *
      params_enum.variant.o + 1) / 2 ≤
      params_enum.variant.p2_bytes / params_enum.variant.m)
    (hne : (params_enum.variant.m * ((params_enum.variant.n -
        params_enum.variant.o) * params_enum.variant.o) + 1) / 2 ≠
      (params_enum.variant.m * (params_enum.variant.n -
        params_enum.variant.o) * (params_enum.variant.n -
        params_enum.variant.o) + 1) / 2) :
    expand_sk O csk params_enum =
      .error "L_all_bytes length mismatch during encoding" := by
  simp only [expand_sk, shake256_xof_derive_pk_seed_and_o]
  rw [if_neg (fun hc => hc (oracleRead_length _ _ _))]
  obtain ⟨Om, hOm, hOmr, hOmc, hOmd⟩ := decode_o_matrix_spec
    (b := oracleRead (O.shake csk) params_enum.variant.pk_seed_bytes
      params_enum.variant.o_bytes) (p := params_enum.variant)
    (by rw [oracleRead_length]; exact hob)
  rw [hOm]
  simp only [derive_p1_bytes, aes128_ctr_generate]
  rw [if_neg (fun hc => hc (oracleRead_length _ _ _)),
    if_neg (fun hc => hc (by rw [oracleRead_length]; exact hpk))]
  simp only []
  rw [if_neg (fun hc => hc (oracleRead_length _ _ _))]
  simp only [derive_p2_bytes, aes128_ctr_generate]
  rw [if_neg (fun hc => hc (oracleRead_length _ _ _)),
    if_neg (fun hc => hc (by rw [oracleRead_length]; exact hpk))]
  simp only []
  rw [if_neg (fun hc => hc (oracleRead_length _ _ _))]
  obtain ⟨mats1, hm1, hm1l, hm1P⟩ := decode_p1_matrices_spec
    (b := oracleRead (O.aes (oracleRead (O.shake csk) 0
      params_enum.variant.pk_seed_bytes)) 0 params_enum.variant.p1_bytes)
    (p := params_enum.variant) (oracleRead_length _ _ _) hp1
  rw [hm1]
  simp only []
  obtain ⟨mats2, hm2, hm2l, hm2P⟩ := decode_p2_matrices_spec
    (b := oracleRead (O.aes (oracleRead (O.shake csk) 0
      params_enum.variant.pk_seed_bytes)) 0 params_enum.variant.p2_bytes)
    (p := params_enum.variant) (oracleRead_length _ _ _) hp2
  rw [hm2]
  simp only []
  rw [if_neg (by
    intro hc
    rcases hc with h | h
    · exact h hm1l
    · exact h hm2l)]
  obtain ⟨lmats, hlm, hlml, hlmP⟩ :=
    expand_sk_l_loop hm1l hm1P hm2l hm2P hOmr hOmc
  rw [hlm]
  simp only []
  rw [if_pos (by
    rw [encode_gf_elements_length,
      flatten_length_const (lmats.map GFMatrix.data)
        ((params_enum.variant.n - params_enum.variant.o) *
          params_enum.variant.o)
        (by
          intro l hl
          rw [List.mem_map] at hl
          obtain ⟨M, hM, hMl⟩ := hl
          rw [← hMl]
          exact hlmP M hM),
      List.length_map, hlml]
    exact hne)]

theorem mayo_C5_witness :
    expand_sk zeroOracles [] MayoParams.mayo1 =
      .error "L_all_bytes length mismatch during encoding" :=
  mayo_C5 zeroOracles [] MayoParams.mayo1 (by decide) (by decide) (by decide)
    (by decide) (by decide)

end Mayo

namespace Mayo

theorem getD_map_range {β : Type} (N c : Nat) (f : Nat → β) (d : β) :
    ((List.range N).map f).getD c d = if c < N then f c else d := by
  by_cases h : c < N
  · rw [List.getD_eq_getElem _ _ (by simpa using h), List.getElem_map,
      List.getElem_range, if_pos h]
  · rw [List.getD_eq_default _ _ (by simpa using h), if_neg h]

theorem gfSum_mul_right {α : Type} (l : List α) (x : GFElement)
    (f : α → GFElement) :
    gfSum (l.map (fun a => gf16_mul (f a) x)) = gf16_mul (gfSum (l.map f)) x := by
  rw [gf16_mul_comm _ x, ← gfSum_mul_left]
  apply gfSum_congr
  intro a _
  rw [gf16_mul_comm]

theorem mul3_comm (a m b : GFElement) :
    gf16_mul (gf16_mul a m) b = gf16_mul (gf16_mul b m) a := by
  revert a m b
  decide

/-- The characteristic-2 core: for any square matrix `M` and compatible
vector `x`, the quadratic form `xᵀ (M + Mᵀ) x` computed through the
repository's `matrix_symmetrize`, `matrix_vec_mul_transpose_gfvector`
and `vector_dot_product` is zero. -/
theorem quad_form_zero {M : GFMatrix} {x : List GFElement}
    (hsq : M.rows = M.cols) (hx : x.length = M.rows) :
    ∃ S w, matrix_symmetrize M = .ok S ∧
      matrix_vec_mul_transpose_gfvector x S = .ok w ∧
      vector_dot_product w x = .ok 0 := by
  have hS : matrix_symmetrize M = .ok (mkMat M.rows M.rows
      (fun r c => gf16_add (M.uget r c) (M.uget c r))) := by
    unfold matrix_symmetrize
    rw [if_neg (fun hc => hc hsq)]
  refine ⟨_, (List.range M.rows).map (fun c =>
    gfSum ((List.range M.rows).map (fun r =>
      gf16_mul (x.getD r 0) ((mkMat M.rows M.rows (fun r c =>
        gf16_add (M.uget r c) (M.uget c r))).uget r c)))),
    hS, ?_, ?_⟩
  · unfold matrix_vec_mul_transpose_gfvector
    rw [if_neg (by rw [mkMat_rows]; exact fun hc => hc hx)]
    congr 1
    have hc : (mkMat M.rows M.rows (fun r c =>
        gf16_add (M.uget r c) (M.uget c r))).cols = M.rows :=
      mkMat_cols _ _ _
    have hr : (mkMat M.rows M.rows (fun r c =>
        gf16_add (M.uget r c) (M.uget c r))).rows = M.rows :=
      mkMat_rows _ _ _
    rw [hc, hr]
    apply List.map_congr_left
    intro c _
    exact foldl_add_as_gfSum _ _
  · have hwlen : ((List.range M.rows).map (fun c =>
        gfSum ((List.range M.rows).map (fun r =>
          gf16_mul (x.getD r 0) ((mkMat M.rows M.rows (fun r c =>
            gf16_add (M.uget r c) (M.uget c r))).uget r c))))).length =
        x.length := by
      rw [List.length_map, List.length_range, hx]
    rw [vector_dot_product_ok hwlen]
    congr 1
    rw [List.length_map, List.length_range]
    have e1 : gfSum ((List.range M.rows).map (fun i =>
        gf16_mul (((List.range M.rows).map (fun c =>
          gfSum ((List.range M.rows).map (fun r =>
            gf16_mul (x.getD r 0) ((mkMat M.rows M.rows (fun r c =>
              gf16_add (M.uget r c) (M.uget c r))).uget r c))))).getD i 0)
          (x.getD i 0))) =
        gfSum ((List.range M.rows).map (fun c =>
          gfSum ((List.range M.rows).map (fun r =>
            gf16_mul (gf16_mul (x.getD r 0) ((mkMat M.rows M.rows (fun r c =>
              gf16_add (M.uget r c) (M.uget c r))).uget r c))
              (x.getD c 0))))) := by
      apply gfSum_congr
      intro c hcm
      rw [List.mem_range] at hcm
      rw [getD_map_range, if_pos hcm, ← gfSum_mul_right]
    rw [e1]
    have e2 : gfSum ((List.range M.rows).map (fun c =>
        gfSum ((List.range M.rows).map (fun r =>
          gf16_mul (gf16_mul (x.getD r 0) ((mkMat M.rows M.rows (fun r c =>
            gf16_add (M.uget r c) (M.uget c r))).uget r c))
            (x.getD c 0))))) =
        gfSum ((List.range M.rows).map (fun c => gf16_add
          (gfSum ((List.range M.rows).map (fun r =>
            gf16_mul (gf16_mul (x.getD r 0) (M.uget r c)) (x.getD c 0))))
          (gfSum ((List.range M.rows).map (fun r =>
            gf16_mul (gf16_mul (x.getD r 0) (M.uget c r)) (x.getD c 0)))))) := by
      apply gfSum_congr
      intro c hcm
      rw [List.mem_range] at hcm
      rw [← gfSum_add_split]
      apply gfSum_congr
      intro r hrm
      rw [List.mem_range] at hrm
      rw [mkMat_get _ _ _ hrm hcm, gf16_mul_add, gf16_add_mul]
    rw [e2, gfSum_add_split]
    have e3 : gfSum ((List.range M.rows).map (fun c =>
        gfSum ((List.range M.rows).map (fun r =>
          gf16_mul (gf16_mul (x.getD r 0) (M.uget c r)) (x.getD c 0))))) =
        gfSum ((List.range M.rows).map (fun c =>
          gfSum ((List.range M.rows).map (fun r =>
            gf16_mul (gf16_mul (x.getD r 0) (M.uget r c)) (x.getD c 0))))) := by
      rw [gfSum_swap (List.range M.rows) (List.range M.rows)
        (fun c r => gf16_mul (gf16_mul (x.getD r 0) (M.uget c r))
          (x.getD c 0))]
      apply gfSum_congr
      intro r _
      apply gfSum_congr
      intro c _
      exact mul3_comm _ _ _
    rw [e3, gf16_add_self]

theorem exceptMapList_ok_mem {α β : Type} {f : α → Except String β} :
    ∀ {l : List α} {bs : List β}, exceptMapList f l = .ok bs →
      ∀ b ∈ bs, ∃ a ∈ l, f a = .ok b := by
  intro l
  induction l with
  | nil =>
    intro bs h b hb
    unfold exceptMapList at h
    cases h
    simp at hb
  | cons hd tl ih =>
    intro bs h b hb
    unfold exceptMapList at h
    cases hf : f hd with
    | error e => rw [hf] at h; cases h
    | ok b0 =>
      rw [hf] at h
      cases hrest : exceptMapList f tl with
      | error e => rw [hrest] at h; cases h
      | ok bs0 =>
        rw [hrest] at h
        cases h
        rcases List.mem_cons.mp hb with h1 | h2
        · exact ⟨hd, by simp, by rw [h1]; exact hf⟩
        · obtain ⟨a, ha, hfa⟩ := ih hrest b h2
          exact ⟨a, by simp [ha], hfa⟩

theorem exceptMapList_ok_length {α β : Type} {f : α → Except String β} :
    ∀ {l : List α} {bs : List β}, exceptMapList f l = .ok bs →
      bs.length = l.length := by
  intro l
  induction l with
  | nil =>
    intro bs h
    unfold exceptMapList at h
    cases h
    rfl
  | cons hd tl ih =>
    intro bs h
    unfold exceptMapList at h
    cases hf : f hd with
    | error e => rw [hf] at h; cases h
    | ok b0 =>
      rw [hf] at h
      cases hrest : exceptMapList f tl with
      | error e => rw [hrest] at h; cases h
      | ok bs0 =>
        rw [hrest] at h
        cases h
        simp [ih hrest]

theorem exceptMapList_ok_getD {α β : Type} {f : α → Except String β} (d₁ : α)
    (d₂ : β) : ∀ {l : List α} {bs : List β}, exceptMapList f l = .ok bs →
      ∀ j, j < l.length → f (l.getD j d₁) = .ok (bs.getD j d₂) := by
  intro l
  induction l with
  | nil =>
    intro bs _ j hj
    simp at hj
  | cons hd tl ih =>
    intro bs h j hj
    unfold exceptMapList at h
    cases hf : f hd with
    | error e => rw [hf] at h; cases h
    | ok b0 =>
      rw [hf] at h
      cases hrest : exceptMapList f tl with
      | error e => rw [hrest] at h; cases h
      | ok bs0 =>
        rw [hrest] at h
        cases h
        cases j with
        | zero => exact hf
        | succ j' => exact ih hrest j' (by simpa using hj)

theorem exceptMapList_range_ok_get {β : Type} {f : Nat → Except String β}
    {m : Nat} {bs : List β} (h : exceptMapList f (List.range m) = .ok bs)
    (d : β) : bs.length = m ∧ ∀ i, i < m → f i = .ok (bs.getD i d) := by
  refine ⟨by rw [exceptMapList_ok_length h, List.length_range], ?_⟩
  intro i hi
  have := exceptMapList_ok_getD 0 d h i (by simpa using hi)
  rwa [List.getD_eq_getElem _ _ (by simpa using hi), List.getElem_range] at this

end Mayo

namespace Mayo

/-- In every successful `compute_lin_system_components`, the returned
`y'` vector is all zeros (`s_Vᵀ (P1_i + P1_iᵀ) s_V = 0` in
characteristic 2). -/
theorem y_prime_zero {vinegar : List GFElement} {p1s ls : List GFMatrix}
    {params : MayoVariantParams} {A : GFMatrix} {yp : List GFElement}
    (h : compute_lin_system_components vinegar p1s ls params = .ok (A, yp)) :
    yp = List.replicate params.m 0 := by
  simp only [compute_lin_system_components] at h
  by_cases h1 : vinegar.length ≠ params.n - params.o
  · rw [if_pos h1] at h; cases h
  · rw [if_neg h1] at h
    by_cases h2 : p1s.length ≠ params.m
    · rw [if_pos h2] at h; cases h
    · rw [if_neg h2] at h
      by_cases h3 : ls.length ≠ params.m
      · rw [if_pos h3] at h; cases h
      · rw [if_neg h3] at h
        split at h
        · cases h
        · rename_i pairs hpairs
          split at h
          · cases h
          · have h7 := Except.ok.inj h
            have hy : pairs.map Prod.fst = yp := congrArg Prod.snd h7
            rw [← hy]
            have hlenp : pairs.length = params.m := by
              rw [exceptMapList_ok_length hpairs, List.length_range]
            rw [List.eq_replicate_iff]
            refine ⟨by rw [List.length_map, hlenp], ?_⟩
            intro b hb
            rw [List.mem_map] at hb
            obtain ⟨p, hp, hfst⟩ := hb
            obtain ⟨i, _, hfi⟩ := exceptMapList_ok_mem hpairs p hp
            by_cases hd1 : ((p1s.getD i (GFMatrix.zero 0 0)).rows ≠
                params.n - params.o ∨ (p1s.getD i (GFMatrix.zero 0 0)).cols ≠
                params.n - params.o)
            · rw [if_pos hd1] at hfi; cases hfi
            · rw [if_neg hd1] at hfi
              push_neg at hd1
              obtain ⟨hd1r, hd1c⟩ := hd1
              obtain ⟨S, w, hS, hw, hdot⟩ := quad_form_zero
                (show (p1s.getD i (GFMatrix.zero 0 0)).rows =
                  (p1s.getD i (GFMatrix.zero 0 0)).cols by rw [hd1r, hd1c])
                (show vinegar.length = (p1s.getD i (GFMatrix.zero 0 0)).rows by
                  rw [hd1r]; omega)
              rw [hS] at hfi
              simp only [] at hfi
              rw [hw] at hfi
              simp only [] at hfi
              rw [hdot] at hfi
              simp only [] at hfi
              by_cases hd2 : ((ls.getD i (GFMatrix.zero 0 0)).rows ≠
                  params.n - params.o ∨ (ls.getD i (GFMatrix.zero 0 0)).cols ≠
                  params.o)
              · rw [if_pos hd2] at hfi; cases hfi
              · rw [if_neg hd2] at hfi
                cases hmv : matrix_vec_mul_transpose_gfvector vinegar
                    (ls.getD i (GFMatrix.zero 0 0)) with
                | error e => rw [hmv] at hfi; cases hfi
                | ok arow =>
                  rw [hmv] at hfi
                  simp only [] at hfi
                  have hpv := Except.ok.inj hfi
                  rw [← hfst, ← hpv]

/-- In every successful `compute_p_star_s`, the P1 and P3 quadratic
terms vanish, so `y_i = s_Vᵀ · P2_i · s_O`. -/
theorem p_star_reduces {s : List GFElement} {p1s p2s p3s : List GFMatrix}
    {params : MayoVariantParams} {y : List GFElement}
    (h : compute_p_star_s s p1s p2s p3s params = .ok y) :
    y.length = params.m ∧ ∀ i, i < params.m → ∃ w,
      matrix_vec_mul_transpose_gfvector (s.take (params.n - params.o))
        (p2s.getD i (GFMatrix.zero 0 0)) = .ok w ∧
      vector_dot_product w (s.drop (params.n - params.o)) =
        .ok (y.getD i 0) := by
  simp only [compute_p_star_s] at h
  by_cases h1 : s.length ≠ params.n
  · rw [if_pos h1] at h; cases h
  · rw [if_neg h1] at h
    by_cases h2 : (p1s.length ≠ params.m ∨ p2s.length ≠ params.m ∨
        p3s.length ≠ params.m)
    · rw [if_pos h2] at h; cases h
    · rw [if_neg h2] at h
      by_cases h3 : params.n - params.o + params.o ≠ params.n
      · rw [if_pos h3] at h; cases h
      · rw [if_neg h3] at h
        obtain ⟨hylen, hf⟩ := exceptMapList_range_ok_get h 0
        refine ⟨hylen, ?_⟩
        intro i hi
        have hfi := hf i hi
        by_cases hd1 : ((p1s.getD i (GFMatrix.zero 0 0)).rows ≠
            params.n - params.o ∨ (p1s.getD i (GFMatrix.zero 0 0)).cols ≠
            params.n - params.o)
        · rw [if_pos hd1] at hfi; cases hfi
        · rw [if_neg hd1] at hfi
          push_neg at hd1
          obtain ⟨hd1r, hd1c⟩ := hd1
          by_cases hd2 : ((p2s.getD i (GFMatrix.zero 0 0)).rows ≠
              params.n - params.o ∨ (p2s.getD i (GFMatrix.zero 0 0)).cols ≠
              params.o)
          · rw [if_pos hd2] at hfi; cases hfi
          · rw [if_neg hd2] at hfi
            by_cases hd3 : ((p3s.getD i (GFMatrix.zero 0 0)).rows ≠ params.o ∨
                (p3s.getD i (GFMatrix.zero 0 0)).cols ≠ params.o)
            · rw [if_pos hd3] at hfi; cases hfi
            · rw [if_neg hd3] at hfi
              push_neg at hd3
              obtain ⟨hd3r, hd3c⟩ := hd3
              obtain ⟨S1, w1, hS1, hw1, hdot1⟩ := quad_form_zero
                (show (p1s.getD i (GFMatrix.zero 0 0)).rows =
                  (p1s.getD i (GFMatrix.zero 0 0)).cols by rw [hd1r, hd1c])
                (show (s.take (params.n - params.o)).length =
                  (p1s.getD i (GFMatrix.zero 0 0)).rows by
                  rw [hd1r, List.length_take]; omega)
              obtain ⟨S3, w3, hS3, hw3, hdot3⟩ := quad_form_zero
                (show (p3s.getD i (GFMatrix.zero 0 0)).rows =
                  (p3s.getD i (GFMatrix.zero 0 0)).cols by rw [hd3r, hd3c])
                (show (s.drop (params.n - params.o)).length =
                  (p3s.getD i (GFMatrix.zero 0 0)).rows by
                  rw [hd3r, List.length_drop]; omega)
              rw [hS1] at hfi
              simp only [] at hfi
              rw [hS3] at hfi
              simp only [] at hfi
              rw [hw1] at hfi
              simp only [] at hfi
              rw [hdot1] at hfi
              simp only [] at hfi
              cases hw2 : matrix_vec_mul_transpose_gfvector
                  (s.take (params.n - params.o))
                  (p2s.getD i (GFMatrix.zero 0 0)) with
              | error e => rw [hw2] at hfi; cases hfi
              | ok w2 =>
                rw [hw2] at hfi
                simp only [] at hfi
                cases hd2v : vector_dot_product w2
                    (s.drop (params.n - params.o)) with
                | error e => rw [hd2v] at hfi; cases hfi
                | ok term2 =>
                  rw [hd2v] at hfi
                  simp only [] at hfi
                  rw [hw3] at hfi
                  simp only [] at hfi
                  rw [hdot3] at hfi
                  simp only [] at hfi
                  have hval := Except.ok.inj hfi
                  rw [gf16_zero_add, gf16_add_zero] at hval
                  exact ⟨w2, rfl, by rw [hd2v, hval]⟩

/-- C3: the quadratic form against a symmetrized matrix is always zero
in GF(16); consequently every signing attempt's `y'` vector is
identically zero (the solver target is `t` itself), and every
successful `compute_p_star_s` value reduces to the middle terms
`y_i = s_Vᵀ · P2_i · s_O`, so verification only checks those against
`t`. -/
theorem mayo_C3 :
    (∀ (M : GFMatrix) (x : List GFElement), M.rows = M.cols →
      x.length = M.rows → ∃ S w, matrix_symmetrize M = .ok S ∧
        matrix_vec_mul_transpose_gfvector x S = .ok w ∧
        vector_dot_product w x = .ok 0) ∧
    (∀ (vinegar : List GFElement) (p1s ls : List GFMatrix)
      (params : MayoVariantParams) (A : GFMatrix) (yp : List GFElement),
      compute_lin_system_components vinegar p1s ls params = .ok (A, yp) →
      yp = List.replicate params.m 0) ∧
    (∀ (s : List GFElement) (p1s p2s p3s : List GFMatrix)
      (params : MayoVariantParams) (y : List GFElement),
      compute_p_star_s s p1s p2s p3s params = .ok y →
      y.length = params.m ∧ ∀ i, i < params.m → ∃ w,
        matrix_vec_mul_transpose_gfvector (s.take (params.n - params.o))
          (p2s.getD i (GFMatrix.zero 0 0)) = .ok w ∧
        vector_dot_product w (s.drop (params.n - params.o)) =
          .ok (y.getD i 0)) :=
  ⟨fun _ _ hsq hx => quad_form_zero hsq hx,
   fun _ _ _ _ _ _ h => y_prime_zero h,
   fun _ _ _ _ _ _ h => p_star_reduces h⟩

theorem mayo_C3_witness :
    ∃ S w, matrix_symmetrize ⟨[1, 2, 0, 4], 2, 2⟩ = .ok S ∧
      matrix_vec_mul_transpose_gfvector [1, 2] S = .ok w ∧
      vector_dot_product w [1, 2] = .ok 0 :=
  mayo_C3.1 ⟨[1, 2, 0, 4], 2, 2⟩ [1, 2] rfl rfl

end Mayo

namespace Mayo

theorem mvt_spec {x : List GFElement} {M : GFMatrix} (h : x.length = M.rows) :
    ∃ w, matrix_vec_mul_transpose_gfvector x M = .ok w ∧
      w.length = M.cols := by
  unfold matrix_vec_mul_transpose_gfvector
  rw [if_neg (fun hc => hc h)]
  exact ⟨_, rfl, by simp⟩

theorem exceptMapList_range_ok_total {β : Type} (f : Nat → Except String β)
    (m : Nat) (h : ∀ i, i < m → ∃ b, f i = .ok b) :
    ∃ bs, exceptMapList f (List.range m) = .ok bs ∧ bs.length = m := by
  obtain ⟨bs, h1, h2, _⟩ := exceptMapList_ok_of_forall f (fun _ => True)
    (List.range m) (fun a ha => by
      obtain ⟨b, hb⟩ := h a (List.mem_range.mp ha)
      exact ⟨b, hb, trivial⟩)
  exact ⟨bs, h1, by rw [h2, List.length_range]⟩

theorem decode_s_vector_spec {b : List Nat} {p : MayoVariantParams}
    (h : (p.n + 1) / 2 ≤ b.length) :
    ∃ s, decode_s_vector b p = .ok s ∧ s.length = p.n := by
  unfold decode_s_vector
  rw [decode_gf_elements_ok h]
  exact ⟨_, rfl, by simp⟩

/-- With matrices of the shapes the decoders produce,
`compute_p_star_s` always succeeds and returns `m` values. -/
theorem compute_p_star_s_total {s : List GFElement} {p1s p2s p3s : List GFMatrix}
    {params : MayoVariantParams}
    (hs : s.length = params.n) (hon : params.o ≤ params.n)
    (h1l : p1s.length = params.m)
    (h1P : ∀ M ∈ p1s, M.rows = params.n - params.o ∧
      M.cols = params.n - params.o)
    (h2l : p2s.length = params.m)
    (h2P : ∀ M ∈ p2s, M.rows = params.n - params.o ∧ M.cols = params.o)
    (h3l : p3s.length = params.m)
    (h3P : ∀ M ∈ p3s, M.rows = params.o ∧ M.cols = params.o) :
    ∃ y, compute_p_star_s s p1s p2s p3s params = .ok y ∧
      y.length = params.m := by
  simp only [compute_p_star_s]
  rw [if_neg (fun hc => hc hs),
    if_neg (by
      intro hc
      rcases hc with h | h | h
      · exact h h1l
      · exact h h2l
      · exact h h3l),
    if_neg (by omega)]
  refine exceptMapList_range_ok_total _ _ ?_
  intro i hi
  obtain ⟨g1r, g1c⟩ := h1P (p1s.getD i (GFMatrix.zero 0 0))
    (getD_mem (show i < p1s.length by omega) (GFMatrix.zero 0 0))
  obtain ⟨g2r, g2c⟩ := h2P (p2s.getD i (GFMatrix.zero 0 0))
    (getD_mem (show i < p2s.length by omega) (GFMatrix.zero 0 0))
  obtain ⟨g3r, g3c⟩ := h3P (p3s.getD i (GFMatrix.zero 0 0))
    (getD_mem (show i < p3s.length by omega) (GFMatrix.zero 0 0))
  rw [if_neg (by
      intro hc
      rcases hc with h | h
      · exact h g1r
      · exact h g1c),
    if_neg (by
      intro hc
      rcases hc with h | h
      · exact h g2r
      · exact h g2c),
    if_neg (by
      intro hc
      rcases hc with h | h
      · exact h g3r
      · exact h g3c)]
  have hsym1 : matrix_symmetrize (p1s.getD i (GFMatrix.zero 0 0)) =
      .ok (mkMat (p1s.getD i (GFMatrix.zero 0 0)).rows
        (p1s.getD i (GFMatrix.zero 0 0)).rows
        (fun r c => gf16_add ((p1s.getD i (GFMatrix.zero 0 0)).uget r c)
          ((p1s.getD i (GFMatrix.zero 0 0)).uget c r))) := by
    unfold matrix_symmetrize
    rw [if_neg (fun hc => hc (by rw [g1r, g1c]))]
  rw [hsym1]
  simp only []
  have hsym3 : matrix_symmetrize (p3s.getD i (GFMatrix.zero 0 0)) =
      .ok (mkMat (p3s.getD i (GFMatrix.zero 0 0)).rows
        (p3s.getD i (GFMatrix.zero 0 0)).rows
        (fun r c => gf16_add ((p3s.getD i (GFMatrix.zero 0 0)).uget r c)
          ((p3s.getD i (GFMatrix.zero 0 0)).uget c r))) := by
    unfold matrix_symmetrize
    rw [if_neg (fun hc => hc (by rw [g3r, g3c]))]
  rw [hsym3]
  simp only []
  obtain ⟨w1, hw1, hw1l⟩ := mvt_spec
    (M := mkMat (p1s.getD i (GFMatrix.zero 0 0)).rows
      (p1s.getD i (GFMatrix.zero 0 0)).rows
      (fun r c => gf16_add ((p1s.getD i (GFMatrix.zero 0 0)).uget r c)
        ((p1s.getD i (GFMatrix.zero 0 0)).uget c r)))
    (x := s.take (params.n - params.o))
    (show (s.take (params.n - params.o)).length =
      (p1s.getD i (GFMatrix.zero 0 0)).rows by
      rw [g1r, List.length_take]; omega)
  rw [hw1]
  simp only []
  rw [vector_dot_product_ok (show w1.length =
    (s.take (params.n - params.o)).length by
    rw [hw1l, mkMat_cols, g1r, List.length_take]; omega)]
  simp only []
  obtain ⟨w2, hw2, hw2l⟩ := mvt_spec (x := s.take (params.n - params.o))
    (show (s.take (params.n - params.o)).length =
      (p2s.getD i (GFMatrix.zero 0 0)).rows by
      rw [g2r, List.length_take]; omega)
  rw [hw2]
  simp only []
  rw [vector_dot_product_ok (show w2.length =
    (s.drop (params.n - params.o)).length by
    rw [hw2l, g2c, List.length_drop]; omega)]
  simp only []
  obtain ⟨w3, hw3, hw3l⟩ := mvt_spec
    (M := mkMat (p3s.getD i (GFMatrix.zero 0 0)).rows
      (p3s.getD i (GFMatrix.zero 0 0)).rows
      (fun r c => gf16_add ((p3s.getD i (GFMatrix.zero 0 0)).uget r c)
        ((p3s.getD i (GFMatrix.zero 0 0)).uget c r)))
    (x := s.drop (params.n - params.o))
    (show (s.drop (params.n - params.o)).length =
      (p3s.getD i (GFMatrix.zero 0 0)).rows by
      rw [g3r, List.length_drop]; omega)
  rw [hw3]
  simp only []
  rw [vector_dot_product_ok (show w3.length =
    (s.drop (params.n - params.o)).length by
    rw [hw3l, mkMat_cols, g3r, List.length_drop]; omega)]
  exact ⟨_, rfl⟩

theorem verify_signature_epk_err {O : PrimOracles}
    {epk message signature : List Nat} {params_enum : MayoParams}
    (hepk : epk.length ≠ params_enum.variant.p1_bytes +
      params_enum.variant.p2_bytes + params_enum.variant.p3_bytes) :
    verify_signature O epk message signature params_enum =
      .error "Expanded public key has incorrect length" := by
  simp only [verify_signature]
  rw [if_pos hepk]

/-- With consistent parameter arithmetic and an epk of the right
length, `verify_signature` fails exactly on a bad signature length and
otherwise returns a boolean. -/
theorem verify_signature_total (O : PrimOracles)
    (epk message signature : List Nat) {params_enum : MayoParams}
    (hp1 : ((params_enum.variant.n - params_enum.variant.o) *
      ((params_enum.variant.n - params_enum.variant.o) + 1) / 2 + 1) / 2 ≤
      params_enum.variant.p1_bytes / params_enum.variant.m)
    (hp2 : ((params_enum.variant.n - params_enum.variant.o) *
      params_enum.variant.o + 1) / 2 ≤
      params_enum.variant.p2_bytes / params_enum.variant.m)
    (hp3 : (params_enum.variant.o * (params_enum.variant.o + 1) / 2 + 1) / 2 ≤
      params_enum.variant.p3_bytes / params_enum.variant.m)
    (hon : params_enum.variant.o ≤ params_enum.variant.n)
    (hepk : epk.length = params_enum.variant.p1_bytes +
      params_enum.variant.p2_bytes + params_enum.variant.p3_bytes) :
    (signature.length ≠
        MayoParams.bytes_for_gf16_elements params_enum.variant.n +
        params_enum.variant.salt_bytes →
      verify_signature O epk message signature params_enum =
        .error "Signature has incorrect length") ∧
    (signature.length =
        MayoParams.bytes_for_gf16_elements params_enum.variant.n +
        params_enum.variant.salt_bytes →
      ∃ b, verify_signature O epk message signature params_enum = .ok b) := by
  simp only [verify_signature]
  rw [if_neg (fun hc => hc hepk)]
  obtain ⟨mats1, hm1, hm1l, hm1P⟩ := decode_p1_matrices_spec
    (b := epk.take params_enum.variant.p1_bytes)
    (p := params_enum.variant)
    (by rw [List.length_take, hepk]; omega) hp1
  rw [hm1]
  simp only []
  obtain ⟨mats2, hm2, hm2l, hm2P⟩ := decode_p2_matrices_spec
    (b := (epk.drop params_enum.variant.p1_bytes).take
      params_enum.variant.p2_bytes)
    (p := params_enum.variant)
    (by rw [List.length_take, List.length_drop, hepk]; omega) hp2
  rw [hm2]
  simp only []
  obtain ⟨mats3, hm3, hm3l, hm3P⟩ := decode_p3_matrices_spec
    (b := epk.drop (params_enum.variant.p1_bytes +
      params_enum.variant.p2_bytes))
    (p := params_enum.variant)
    (by rw [List.length_drop, hepk]; omega) hp3
  rw [hm3]
  simp only []
  constructor
  · intro hsig
    rw [if_pos hsig]
  · intro hsig
    rw [if_neg (fun hc => hc hsig)]
    obtain ⟨sv, hsv, hsvl⟩ := decode_s_vector_spec
      (b := signature.take
        (MayoParams.bytes_for_gf16_elements params_enum.variant.n))
      (p := params_enum.variant)
      (by
        rw [List.length_take, hsig]
        unfold MayoParams.bytes_for_gf16_elements
        omega)
    rw [hsv]
    simp only []
    rw [decode_gf_elements_ok
      (le_of_eq (shake256_derive_target_t_length O _ _ params_enum).symm)]
    simp only []
    obtain ⟨y, hy, hylen⟩ := compute_p_star_s_total hsvl hon
      hm1l (fun M hM => ⟨(hm1P M hM).1, (hm1P M hM).2.1⟩)
      hm2l (fun M hM => ⟨(hm2P M hM).1, (hm2P M hM).2.1⟩)
      hm3l (fun M hM => ⟨(hm3P M hM).1, (hm3P M hM).2.1⟩)
    rw [hy]
    simp only []
    rw [if_neg (fun hc => hc hylen)]
    exact ⟨_, rfl⟩

/-- C7: for the shipped variants, `verify_signature` errors exactly on
a wrong epk length (checked first) or a wrong signature length, and on
correctly-sized inputs always produces `Ok true` or `Ok false`. -/
theorem mayo_C7 (O : PrimOracles) (epk message signature : List Nat)
    (params_enum : MayoParams)
    (hvar : params_enum = MayoParams.mayo1 ∨
      params_enum = MayoParams.mayo2) :
    (epk.length ≠ params_enum.variant.p1_bytes +
        params_enum.variant.p2_bytes + params_enum.variant.p3_bytes →
      verify_signature O epk message signature params_enum =
        .error "Expanded public key has incorrect length") ∧
    (epk.length = params_enum.variant.p1_bytes +
        params_enum.variant.p2_bytes + params_enum.variant.p3_bytes →
      signature.length ≠
        MayoParams.bytes_for_gf16_elements params_enum.variant.n +
        params_enum.variant.salt_bytes →
      verify_signature O epk message signature params_enum =
        .error "Signature has incorrect length") ∧
    (epk.length = params_enum.variant.p1_bytes +
        params_enum.variant.p2_bytes + params_enum.variant.p3_bytes →
      signature.length =
        MayoParams.bytes_for_gf16_elements params_enum.variant.n +
        params_enum.variant.salt_bytes →
      ∃ b, verify_signature O epk message signature params_enum = .ok b) := by
  rcases hvar with h | h <;> subst h <;>
    exact ⟨fun he => verify_signature_epk_err he,
      fun he hs => (verify_signature_total O epk message signature
        (by decide) (by decide) (by decide) (by decide) he).1 hs,
      fun he hs => (verify_signature_total O epk message signature
        (by decide) (by decide) (by decide) (by decide) he).2 hs⟩

theorem mayo_C7_witness :
    verify_signature zeroOracles [] [] [] MayoParams.mayo1 =
      .error "Expanded public key has incorrect length" :=
  (mayo_C7 zeroOracles [] [] [] MayoParams.mayo1 (Or.inl rfl)).1 (by decide)

end Mayo

namespace Mayo

/-- One iteration of the signing loop, as a standalone value: `some r`
when the iteration leaves the loop with result `r`, `none` when it
moves to the next attempt (inconsistent system or solver error). -/
def signAttemptResult (O : PrimOracles) (rng : Nat → Nat)
    (params_enum : MayoParams) (p1_matrices l_matrices : List GFMatrix)
    (m_digest : List Nat) (idx : Nat) : Option (Except String (List Nat)) :=
  let params := params_enum.variant
  let salt := oracleRead rng idx params.salt_bytes
  let t_bytes := shake256_derive_target_t O m_digest salt params_enum
  match decode_gf_elements t_bytes params.m with
  | .error e => some (.error e)
  | .ok t_vector =>
    let num_vinegar_vars := params.n - params.o
    let vinegar_vars := (oracleRead rng (idx + params.salt_bytes)
      num_vinegar_vars).map
      (fun b => (⟨b &&& 0x0F, and_fifteen_lt _⟩ : GFElement))
    match compute_lin_system_components vinegar_vars p1_matrices l_matrices
        params with
    | .error e => some (.error e)
    | .ok ar =>
      match matrix_sub_vectors_gfvector t_vector ar.2 with
      | .error e => some (.error e)
      | .ok target_for_solver =>
        match solve_linear_system ar.1 target_for_solver with
        | .ok (some x_solution_oils) =>
          if x_solution_oils.length ≠ params.o then
            some (.error "Solver returned oil solution of incorrect length")
          else some (.ok (encode_s_vector (vinegar_vars ++ x_solution_oils)
            params ++ salt))
        | .ok none => none
        | .error _ => none

/-- The linear system `A · x = t - y'` of the signing attempt starting
at randomness position `idx`, assembled from the same source functions
(total via `Except.toOption` defaults; under the dimension hypotheses
of `mayo_C9` the defaults are never used). -/
def attemptSystem (O : PrimOracles) (rng : Nat → Nat)
    (params_enum : MayoParams) (p1_matrices l_matrices : List GFMatrix)
    (m_digest : List Nat) (idx : Nat) : GFMatrix × List GFElement :=
  let params := params_enum.variant
  let salt := oracleRead rng idx params.salt_bytes
  let t_bytes := shake256_derive_target_t O m_digest salt params_enum
  let t_vector := ((decode_gf_elements t_bytes params.m).toOption).getD []
  let vinegar_vars := (oracleRead rng (idx + params.salt_bytes)
    (params.n - params.o)).map
    (fun b => (⟨b &&& 0x0F, and_fifteen_lt _⟩ : GFElement))
  let ar := ((compute_lin_system_components vinegar_vars p1_matrices
    l_matrices params).toOption).getD (GFMatrix.zero 0 0, [])
  (ar.1, ((matrix_sub_vectors_gfvector t_vector ar.2).toOption).getD [])

theorem signLoop_succ (O : PrimOracles) (rng : Nat → Nat)
    (params_enum : MayoParams) (p1_matrices l_matrices : List GFMatrix)
    (m_digest : List Nat) (fuel idx : Nat) :
    signLoop O rng params_enum p1_matrices l_matrices m_digest (fuel + 1)
      idx =
      match signAttemptResult O rng params_enum p1_matrices l_matrices
          m_digest idx with
      | some r => (r, idx + params_enum.variant.salt_bytes +
          (params_enum.variant.n - params_enum.variant.o))
      | none => signLoop O rng params_enum p1_matrices l_matrices m_digest
          fuel (idx + params_enum.variant.salt_bytes +
            (params_enum.variant.n - params_enum.variant.o)) := by
  have hdec := decode_gf_elements_ok (b := shake256_derive_target_t O
      m_digest (oracleRead rng idx params_enum.variant.salt_bytes) params_enum)
    (k := params_enum.variant.m)
    (le_of_eq (shake256_derive_target_t_length O m_digest _ params_enum).symm)
  simp only [signLoop, signAttemptResult]
  rw [hdec]
  simp only []
  cases hc : compute_lin_system_components
      ((oracleRead rng (idx + params_enum.variant.salt_bytes)
        (params_enum.variant.n - params_enum.variant.o)).map
        (fun b => (⟨b &&& 0x0F, and_fifteen_lt _⟩ : GFElement)))
      p1_matrices l_matrices params_enum.variant with
  | error e => rfl
  | ok ar =>
    simp only []
    cases hs : matrix_sub_vectors_gfvector
        ((List.range params_enum.variant.m).map (fun i =>
          if i % 2 = 0 then
            (⟨(((shake256_derive_target_t O m_digest
              (oracleRead rng idx params_enum.variant.salt_bytes)
              params_enum).getD (i / 2) 0) >>> 4) &&& 0x0F,
              and_fifteen_lt _⟩ : GFElement)
          else ⟨((shake256_derive_target_t O m_digest
              (oracleRead rng idx params_enum.variant.salt_bytes)
              params_enum).getD (i / 2) 0) &&& 0x0F, and_fifteen_lt _⟩)) ar.2
        with
    | error e => rfl
    | ok target =>
      simp only []
      cases hsol : solve_linear_system ar.1 target with
      | error e => rfl
      | ok xo =>
        cases xo with
        | none => rfl
        | some x =>
          simp only []
          by_cases hxl : x.length ≠ params_enum.variant.o
          · rw [if_pos hxl, if_pos hxl]
          · rw [if_neg hxl, if_neg hxl]

theorem from_vectors_spec {v : List (List GFElement)} (hne : v ≠ [])
    {k : Nat} (hk : ∀ r ∈ v, r.length = k) :
    (GFMatrix.from_vectors v).rows = v.length ∧
      (GFMatrix.from_vectors v).cols = k := by
  cases v with
  | nil => exact absurd rfl hne
  | cons v0 rest => exact ⟨rfl, hk v0 (by simp)⟩

/-- With matrices of the shapes the decoders produce,
`compute_lin_system_components` always succeeds, with an `m × o`
system matrix. -/
theorem compute_lin_total {w : List GFElement}
    {p1s ls : List GFMatrix} {p : MayoVariantParams}
    (hv : w.length = p.n - p.o) (hm : 0 < p.m)
    (h1l : p1s.length = p.m)
    (h1P : ∀ M ∈ p1s, M.rows = p.n - p.o ∧
      M.cols = p.n - p.o)
    (hll : ls.length = p.m)
    (hlP : ∀ M ∈ ls, M.rows = p.n - p.o ∧ M.cols = p.o) :
    ∃ A yp, compute_lin_system_components w p1s ls p =
      .ok (A, yp) ∧ A.rows = p.m ∧ A.cols = p.o ∧
      yp.length = p.m := by
  simp only [compute_lin_system_components]
  rw [if_neg (fun hc => hc hv), if_neg (fun hc => hc h1l),
    if_neg (fun hc => hc hll)]
  obtain ⟨pairs, hpairs, hpl, hpP⟩ := exceptMapList_range_ok_of_forall
    (fun i =>
      if (p1s.getD i (GFMatrix.zero 0 0)).rows ≠ p.n - p.o ∨
          (p1s.getD i (GFMatrix.zero 0 0)).cols ≠ p.n - p.o then
        .error "P1 matrix has incorrect dimensions"
      else match matrix_symmetrize (p1s.getD i (GFMatrix.zero 0 0)) with
      | .error e => .error e
      | .ok p1_i_symmetric =>
        match matrix_vec_mul_transpose_gfvector w p1_i_symmetric with
        | .error e => .error e
        | .ok temp_y_vec =>
          match vector_dot_product temp_y_vec w with
          | .error e => .error e
          | .ok y_prime_i =>
            if (ls.getD i (GFMatrix.zero 0 0)).rows ≠ p.n - p.o ∨
                (ls.getD i (GFMatrix.zero 0 0)).cols ≠ p.o then
              .error "L matrix has incorrect dimensions"
            else match matrix_vec_mul_transpose_gfvector w
                (ls.getD i (GFMatrix.zero 0 0)) with
            | .error e => .error e
            | .ok a_row_i => .ok (y_prime_i, a_row_i))
    (fun b => b.2.length = p.o) p.m (by
      intro i hi
      simp only []
      obtain ⟨g1r, g1c⟩ := h1P (p1s.getD i (GFMatrix.zero 0 0))
        (getD_mem (show i < p1s.length by omega) (GFMatrix.zero 0 0))
      obtain ⟨glr, glc⟩ := hlP (ls.getD i (GFMatrix.zero 0 0))
        (getD_mem (show i < ls.length by omega) (GFMatrix.zero 0 0))
      rw [if_neg (by
        intro hc
        rcases hc with h | h
        · exact h g1r
        · exact h g1c)]
      have hsym1 : matrix_symmetrize (p1s.getD i (GFMatrix.zero 0 0)) =
          .ok (mkMat (p1s.getD i (GFMatrix.zero 0 0)).rows
            (p1s.getD i (GFMatrix.zero 0 0)).rows
            (fun r c =>
              gf16_add ((p1s.getD i (GFMatrix.zero 0 0)).uget r c)
                ((p1s.getD i (GFMatrix.zero 0 0)).uget c r))) := by
        unfold matrix_symmetrize
        rw [if_neg (fun hc => hc (by rw [g1r, g1c]))]
      rw [hsym1]
      simp only []
      obtain ⟨w1, hw1, hw1l⟩ := mvt_spec
        (M := mkMat (p1s.getD i (GFMatrix.zero 0 0)).rows
          (p1s.getD i (GFMatrix.zero 0 0)).rows
          (fun r c =>
            gf16_add ((p1s.getD i (GFMatrix.zero 0 0)).uget r c)
              ((p1s.getD i (GFMatrix.zero 0 0)).uget c r)))
        (x := w)
        (show w.length = (p1s.getD i (GFMatrix.zero 0 0)).rows by
          rw [g1r]; exact hv)
      rw [hw1]
      simp only []
      rw [vector_dot_product_ok (show w1.length = w.length by
        rw [hw1l, mkMat_cols, g1r, hv])]
      simp only []
      rw [if_neg (by
        intro hc
        rcases hc with h | h
        · exact h glr
        · exact h glc)]
      obtain ⟨w2, hw2, hw2l⟩ := mvt_spec (M := ls.getD i (GFMatrix.zero 0 0))
        (x := w)
        (show w.length = (ls.getD i (GFMatrix.zero 0 0)).rows by
          rw [glr]; exact hv)
      rw [hw2]
      exact ⟨_, rfl, by rw [hw2l, glc]⟩)
  rw [hpairs]
  simp only []
  have hfv := from_vectors_spec (v := pairs.map Prod.snd)
    (by
      intro hc
      rw [List.map_eq_nil_iff] at hc
      rw [hc] at hpl
      simp at hpl
      omega)
    (k := p.o)
    (by
      intro r hr
      rw [List.mem_map] at hr
      obtain ⟨p, hp, hpr⟩ := hr
      rw [← hpr]
      exact hpP p hp)
  rw [if_neg (by
    intro hc
    rcases hc with h | h
    · exact h (by rw [hfv.1, List.length_map, hpl])
    · exact h hfv.2)]
  exact ⟨_, _, rfl, by rw [hfv.1, List.length_map, hpl], hfv.2,
    by rw [List.length_map, hpl]⟩

end Mayo

namespace Mayo

theorem signAttempt_spec (O : PrimOracles) (rng : Nat → Nat)
    (params_enum : MayoParams) (p1 l : List GFMatrix) (md : List Nat)
    (idx : Nat) (hm : 0 < params_enum.variant.m)
    (h1l : p1.length = params_enum.variant.m)
    (h1P : ∀ M ∈ p1, M.rows = params_enum.variant.n - params_enum.variant.o ∧
      M.cols = params_enum.variant.n - params_enum.variant.o)
    (hll : l.length = params_enum.variant.m)
    (hlP : ∀ M ∈ l, M.rows = params_enum.variant.n - params_enum.variant.o ∧
      M.cols = params_enum.variant.o) :
    (∃ sig x, signAttemptResult O rng params_enum p1 l md idx =
        some (.ok sig) ∧
      x.length = params_enum.variant.o ∧
      matrix_vec_mul (attemptSystem O rng params_enum p1 l md idx).1 x =
        .ok (attemptSystem O rng params_enum p1 l md idx).2) ∨
    (signAttemptResult O rng params_enum p1 l md idx = none ∧
      ∀ x, x.length = params_enum.variant.o →
        matrix_vec_mul (attemptSystem O rng params_enum p1 l md idx).1 x ≠
          .ok (attemptSystem O rng params_enum p1 l md idx).2) := by
  have hdec := decode_gf_elements_ok (b := shake256_derive_target_t O md
      (oracleRead rng idx params_enum.variant.salt_bytes) params_enum)
    (k := params_enum.variant.m)
    (le_of_eq (shake256_derive_target_t_length O md _ params_enum).symm)
  set tv := (List.range params_enum.variant.m).map (fun i =>
    if i % 2 = 0 then
      (⟨(((shake256_derive_target_t O md
        (oracleRead rng idx params_enum.variant.salt_bytes)
        params_enum).getD (i / 2) 0) >>> 4) &&& 0x0F,
        and_fifteen_lt _⟩ : GFElement)
    else ⟨((shake256_derive_target_t O md
        (oracleRead rng idx params_enum.variant.salt_bytes)
        params_enum).getD (i / 2) 0) &&& 0x0F, and_fifteen_lt _⟩) with htv
  have htvl : tv.length = params_enum.variant.m := by
    rw [htv, List.length_map, List.length_range]
  obtain ⟨A, yp, hALS, hAr, hAc, hypl⟩ := compute_lin_total
    (w := (oracleRead rng (idx + params_enum.variant.salt_bytes)
      (params_enum.variant.n - params_enum.variant.o)).map
      (fun b => (⟨b &&& 0x0F, and_fifteen_lt _⟩ : GFElement)))
    (p := params_enum.variant)
    (by rw [List.length_map, oracleRead_length]) hm h1l h1P hll hlP
  have hsub : matrix_sub_vectors_gfvector tv yp =
      .ok (List.zipWith gf16_sub tv yp) := by
    unfold matrix_sub_vectors_gfvector
    rw [if_neg (by rw [htvl, hypl]; exact fun hc => hc rfl)]
  have htgl : (List.zipWith gf16_sub tv yp).length = params_enum.variant.m := by
    rw [List.length_zipWith, htvl, hypl]
    omega
  have hAS : attemptSystem O rng params_enum p1 l md idx =
      (A, List.zipWith gf16_sub tv yp) := by
    simp only [attemptSystem]
    rw [hdec, hALS]
    simp only [Except.toOption, Option.getD]
    rw [hsub]
  rcases solve_spec (a := A) (y := List.zipWith gf16_sub tv yp)
      (by rw [htgl, hAr]) with ⟨x, hsol, hxlen, hmv⟩ | ⟨hnone, hnosol⟩
  · left
    have hatt : signAttemptResult O rng params_enum p1 l md idx =
        some (.ok (encode_s_vector ((oracleRead rng
          (idx + params_enum.variant.salt_bytes)
          (params_enum.variant.n - params_enum.variant.o)).map
          (fun b => (⟨b &&& 0x0F, and_fifteen_lt _⟩ : GFElement)) ++ x)
          params_enum.variant ++
          oracleRead rng idx params_enum.variant.salt_bytes)) := by
      simp only [signAttemptResult]
      rw [hdec]
      simp only []
      rw [hALS]
      simp only []
      rw [hsub]
      simp only []
      rw [hsol]
      simp only []
      rw [if_neg (by rw [hxlen, hAc]; exact fun hc => hc rfl)]
    exact ⟨_, x, hatt, by rw [hxlen, hAc], by rw [hAS]; exact hmv⟩
  · right
    constructor
    · simp only [signAttemptResult]
      rw [hdec]
      simp only []
      rw [hALS]
      simp only []
      rw [hsub]
      simp only []
      rw [hnone]
    · intro x hx
      rw [hAS]
      exact hnosol x (by rw [hx, hAc])

/-- Full characterization of the signing loop under the decoder-shaped
hypotheses: the randomness position advances by exactly one attempt's
worth per iteration (so at most `fuel` attempts run), and the loop ends
in the exhaustion error exactly when every attempt's linear system is
unsolvable. -/
theorem signLoop_spec (O : PrimOracles) (rng : Nat → Nat)
    (params_enum : MayoParams) (p1 l : List GFMatrix) (md : List Nat)
    (hm : 0 < params_enum.variant.m)
    (h1l : p1.length = params_enum.variant.m)
    (h1P : ∀ M ∈ p1, M.rows = params_enum.variant.n - params_enum.variant.o ∧
      M.cols = params_enum.variant.n - params_enum.variant.o)
    (hll : l.length = params_enum.variant.m)
    (hlP : ∀ M ∈ l, M.rows = params_enum.variant.n - params_enum.variant.o ∧
      M.cols = params_enum.variant.o) :
    ∀ fuel idx,
      (∃ k, k ≤ fuel ∧
        (signLoop O rng params_enum p1 l md fuel idx).2 =
          idx + k * (params_enum.variant.salt_bytes +
            (params_enum.variant.n - params_enum.variant.o))) ∧
      ((signLoop O rng params_enum p1 l md fuel idx).1 =
          .error "MAYO.Sign failed after maximum retries" ↔
        ∀ j, j < fuel → ∀ x, x.length = params_enum.variant.o →
          matrix_vec_mul (attemptSystem O rng params_enum p1 l md
            (idx + j * (params_enum.variant.salt_bytes +
              (params_enum.variant.n - params_enum.variant.o)))).1 x ≠
            .ok (attemptSystem O rng params_enum p1 l md
              (idx + j * (params_enum.variant.salt_bytes +
                (params_enum.variant.n - params_enum.variant.o)))).2) := by
  intro fuel
  induction fuel with
  | zero =>
    intro idx
    refine ⟨⟨0, by omega, by simp [signLoop]⟩, ?_⟩
    constructor
    · intro _ j hj
      exact absurd hj (by omega)
    · intro _
      rfl
  | succ fuel ih =>
    intro idx
    rw [signLoop_succ]
    rcases signAttempt_spec O rng params_enum p1 l md idx hm h1l h1P hll hlP
      with ⟨sig, x, hsig, hxlen, hmv⟩ | ⟨hnone, hnosol⟩
    · rw [hsig]
      simp only []
      refine ⟨⟨1, by omega, by omega⟩, ?_⟩
      constructor
      · intro hc
        exact Except.noConfusion hc
      · intro hall
        exfalso
        have h0 := hall 0 (by omega) x hxlen
        rw [show idx + 0 * (params_enum.variant.salt_bytes +
          (params_enum.variant.n - params_enum.variant.o)) = idx by omega]
          at h0
        exact h0 hmv
    · rw [hnone]
      simp only []
      obtain ⟨⟨k, hk, hks⟩, hiff⟩ := ih (idx + params_enum.variant.salt_bytes +
        (params_enum.variant.n - params_enum.variant.o))
      refine ⟨⟨k + 1, by omega, ?_⟩, ?_⟩
      · rw [hks, Nat.succ_mul]
        omega
      · rw [hiff]
        constructor
        · intro hall j hj
          cases j with
          | zero =>
            rw [show idx + 0 * (params_enum.variant.salt_bytes +
              (params_enum.variant.n - params_enum.variant.o)) = idx by omega]
            exact hnosol
          | succ j' =>
            have := hall j' (by omega)
            rw [show idx + params_enum.variant.salt_bytes +
              (params_enum.variant.n - params_enum.variant.o) +
              j' * (params_enum.variant.salt_bytes +
                (params_enum.variant.n - params_enum.variant.o)) =
              idx + (j' + 1) * (params_enum.variant.salt_bytes +
                (params_enum.variant.n - params_enum.variant.o)) by
              rw [Nat.succ_mul]; omega] at this
            exact this
        · intro hall j hj
          have := hall (j + 1) (by omega)
          rw [show idx + (j + 1) * (params_enum.variant.salt_bytes +
            (params_enum.variant.n - params_enum.variant.o)) =
            idx + params_enum.variant.salt_bytes +
            (params_enum.variant.n - params_enum.variant.o) +
            j * (params_enum.variant.salt_bytes +
              (params_enum.variant.n - params_enum.variant.o)) by
            rw [Nat.succ_mul]; omega] at this
          exact this

end Mayo

namespace Mayo

/-- C9: the signing loop runs at most `MAX_SIGN_RETRIES = 256` attempts
(the randomness position certifies the attempt count) and ends in the
exhaustion error exactly when every one of those attempts' linear
systems has no solution. -/
theorem mayo_C9 (O : PrimOracles) (rng : Nat → Nat)
    (params_enum : MayoParams) (p1 l : List GFMatrix) (md : List Nat)
    (idx : Nat) (hm : 0 < params_enum.variant.m)
    (h1l : p1.length = params_enum.variant.m)
    (h1P : ∀ M ∈ p1, M.rows = params_enum.variant.n - params_enum.variant.o ∧
      M.cols = params_enum.variant.n - params_enum.variant.o)
    (hll : l.length = params_enum.variant.m)
    (hlP : ∀ M ∈ l, M.rows = params_enum.variant.n - params_enum.variant.o ∧
      M.cols = params_enum.variant.o) :
    MAX_SIGN_RETRIES = 256 ∧
    (∃ k, k ≤ MAX_SIGN_RETRIES ∧
      (signLoop O rng params_enum p1 l md MAX_SIGN_RETRIES idx).2 =
        idx + k * (params_enum.variant.salt_bytes +
          (params_enum.variant.n - params_enum.variant.o))) ∧
    ((signLoop O rng params_enum p1 l md MAX_SIGN_RETRIES idx).1 =
        .error "MAYO.Sign failed after maximum retries" ↔
      ∀ j, j < MAX_SIGN_RETRIES → ∀ x, x.length = params_enum.variant.o →
        matrix_vec_mul (attemptSystem O rng params_enum p1 l md
          (idx + j * (params_enum.variant.salt_bytes +
            (params_enum.variant.n - params_enum.variant.o)))).1 x ≠
          .ok (attemptSystem O rng params_enum p1 l md
            (idx + j * (params_enum.variant.salt_bytes +
              (params_enum.variant.n - params_enum.variant.o)))).2) :=
  ⟨rfl,
   (signLoop_spec O rng params_enum p1 l md hm h1l h1P hll hlP
     MAX_SIGN_RETRIES idx).1,
   (signLoop_spec O rng params_enum p1 l md hm h1l h1P hll hlP
     MAX_SIGN_RETRIES idx).2⟩

theorem mayo_C9_witness :
    MAX_SIGN_RETRIES = 256 ∧
    (∃ k, k ≤ MAX_SIGN_RETRIES ∧
      (signLoop testOracles testRng testParams [⟨[0, 2, 0, 0], 2, 2⟩]
        [⟨[0, 4, 0, 0], 2, 2⟩] [3] MAX_SIGN_RETRIES 1).2 =
        1 + k * (testParams.variant.salt_bytes +
          (testParams.variant.n - testParams.variant.o))) ∧
    ((signLoop testOracles testRng testParams [⟨[0, 2, 0, 0], 2, 2⟩]
        [⟨[0, 4, 0, 0], 2, 2⟩] [3] MAX_SIGN_RETRIES 1).1 =
        .error "MAYO.Sign failed after maximum retries" ↔
      ∀ j, j < MAX_SIGN_RETRIES → ∀ x, x.length = testParams.variant.o →
        matrix_vec_mul (attemptSystem testOracles testRng testParams
          [⟨[0, 2, 0, 0], 2, 2⟩] [⟨[0, 4, 0, 0], 2, 2⟩] [3]
          (1 + j * (testParams.variant.salt_bytes +
            (testParams.variant.n - testParams.variant.o)))).1 x ≠
          .ok (attemptSystem testOracles testRng testParams
            [⟨[0, 2, 0, 0], 2, 2⟩] [⟨[0, 4, 0, 0], 2, 2⟩] [3]
            (1 + j * (testParams.variant.salt_bytes +
              (testParams.variant.n - testParams.variant.o)))).2) :=
  mayo_C9 testOracles testRng testParams [⟨[0, 2, 0, 0], 2, 2⟩]
    [⟨[0, 4, 0, 0], 2, 2⟩] [3] 1 (by decide) (by decide) (by decide)
    (by decide) (by decide)

end Mayo
